import Mathlib

/-!
Verification development for the teza expression-graph engine.

The repository implements a DAG of arithmetic nodes with memoized evaluation
and push-based cache invalidation.  There are two parallel implementations:

* src/src/node.rs + src/src/input.rs + src/src/ops.rs : trait-object based
  (InputNode holds a value, Node holds a cache and an Operation);
* src/src/graph.rs : a single Node struct whose operation enum (Ops) also has
  an Input variant; input nodes keep their value mirrored in the cache.

Both are embedded shallowly below.  Shared handles (Rc<RefCell<...>>) are
modelled as indices into an arena (a list of nodes); graph construction only
ever wires a new node to already-existing nodes, so operand indices point
strictly downwards and dependents indices strictly upwards, which makes all
recursions fuel-bounded by the arena size.

Scalars: the Rust code computes with f32.  The embedding is parametric in the
scalar type through a ScalarOps record; structural claims are settled for
every choice of scalars, numerical claims instantiate the record with the
real numbers (exact arithmetic with Real.sin, the idealization of f32).
-/

namespace Teza

/-- Scalar operations abstracting the f32 arithmetic (+, -, *, powf, sin)
used by the Rust code, together with the literal 0.0 used as fold seed. -/
structure ScalarOps (α : Type) where
  zero : α
  add : α → α → α
  sub : α → α → α
  mul : α → α → α
  powf : α → α → α
  sinf : α → α

/-- Operation enum from src/src/ops.rs.  Operand handles are arena indices. -/
inductive Op (α : Type) where
  | add (x y : Nat)
  | addVar (args : List Nat)
  | sub (x y : Nat)
  | mul (x y : Nat)
  | pow (x : Nat) (e : α)
  | sin (x : Nat)
deriving DecidableEq

/-- A node is either an input node (src/src/input.rs, field val) or an
expression node (src/src/node.rs, fields cache and opp). -/
inductive Kind (α : Type) where
  | input (val : α)
  | expr (cache : Option α) (opp : Op α)
deriving DecidableEq

/-- One arena slot: the node payload plus its dependents list
(field dependencies in the Rust code). -/
structure NodeE (α : Type) where
  kind : Kind α
  deps : List Nat
deriving DecidableEq

/-- The whole graph: an arena of nodes addressed by index. -/
abbrev GState (α : Type) := List (NodeE α)

/-- Cache of node i (none for input nodes, which have no cache field). -/
def cacheOf (s : GState α) (i : Nat) : Option α :=
  match s[i]? with
  | some ⟨Kind.expr c _, _⟩ => c
  | _ => none

/-- Dependents list of node i (empty for out-of-range indices). -/
def depsOf (s : GState α) (i : Nat) : List Nat :=
  match s[i]? with
  | some nd => nd.deps
  | none => []

/-- Stored value of node i when it is an input node. -/
def valOf (s : GState α) (i : Nat) : Option α :=
  match s[i]? with
  | some ⟨Kind.input v, _⟩ => some v
  | _ => none

/-- Operand indices referenced by an operation. -/
def opOperands : Op α → List Nat
  | Op.add x y => [x, y]
  | Op.addVar args => args
  | Op.sub x y => [x, y]
  | Op.mul x y => [x, y]
  | Op.pow x _ => [x]
  | Op.sin x => [x]

/-- Operand indices of node i (input nodes have none). -/
def opsOfIdx (s : GState α) (i : Nat) : List Nat :=
  match s[i]? with
  | some ⟨Kind.expr _ opp, _⟩ => opOperands opp
  | _ => []

/-- Write a new cache into expression node i (no-op on inputs / out of range). -/
def setCache (s : GState α) (i : Nat) (c : Option α) : GState α :=
  match s[i]? with
  | some ⟨Kind.expr _ opp, ds⟩ => s.set i ⟨Kind.expr c opp, ds⟩
  | _ => s

/-- Fuel-indexed embedding of compute().

InputNode::compute just returns the stored value (input.rs line 32).

Node::compute (node.rs lines 97-103) is
  self.cache.unwrap_or({ let val = self.opp.compute(); self.cache = Some(val); val }).
Rust evaluates the receiver self.cache first (copying the old option) and then
the argument block unconditionally, because Option::unwrap_or takes its
default eagerly.  So the operation is recomputed and the cache overwritten on
every call, and the old cached value, when present, is what gets returned.
The embedding reproduces exactly that order of effects.  Operation::compute
(ops.rs lines 24-49) is inlined: operands are computed left to right, AddVar
is a left fold with seed 0.0.

Fuel only bounds the recursion depth; graphs are built bottom-up, so any fuel
larger than the node index runs the recursion to completion. -/
def computeF (S : ScalarOps α) : Nat → GState α → Nat → GState α × α
  | 0, s, _ => (s, S.zero)
  | fuel + 1, s, i =>
    match s[i]? with
    | none => (s, S.zero)
    | some nd =>
      match nd.kind with
      | Kind.input v => (s, v)
      | Kind.expr cache opp =>
        let p : GState α × α :=
          match opp with
          | Op.add x y =>
            let px := computeF S fuel s x
            let py := computeF S fuel px.1 y
            (py.1, S.add px.2 py.2)
          | Op.addVar args =>
            args.foldl (fun acc a =>
              let pa := computeF S fuel acc.1 a
              (pa.1, S.add acc.2 pa.2)) (s, S.zero)
          | Op.sub x y =>
            let px := computeF S fuel s x
            let py := computeF S fuel px.1 y
            (py.1, S.sub px.2 py.2)
          | Op.mul x y =>
            let px := computeF S fuel s x
            let py := computeF S fuel px.1 y
            (py.1, S.mul px.2 py.2)
          | Op.pow x e =>
            let px := computeF S fuel s x
            (px.1, S.powf px.2 e)
          | Op.sin x =>
            let px := computeF S fuel s x
            (px.1, S.sinf px.2)
        (setCache p.1 i (some p.2), cache.getD p.2)

/-- One fold step of AddVar evaluation (named so the AddVar case of computeF
can be reasoned about as a List.foldl). -/
def addStepF (S : ScalarOps α) (fuel : Nat) (acc : GState α × α) (a : Nat) :
    GState α × α :=
  let pa := computeF S fuel acc.1 a
  (pa.1, S.add acc.2 pa.2)

/-- Embedding of Operation::compute from src/src/ops.rs (lines 24-49):
evaluates the operands through their compute() and combines the results.
computeF unfolds to exactly this on an expression node. -/
def opComputeF (S : ScalarOps α) (fuel : Nat) (s : GState α) :
    Op α → GState α × α
  | Op.add x y =>
    let px := computeF S fuel s x
    let py := computeF S fuel px.1 y
    (py.1, S.add px.2 py.2)
  | Op.addVar args => args.foldl (addStepF S fuel) (s, S.zero)
  | Op.sub x y =>
    let px := computeF S fuel s x
    let py := computeF S fuel px.1 y
    (py.1, S.sub px.2 py.2)
  | Op.mul x y =>
    let px := computeF S fuel s x
    let py := computeF S fuel px.1 y
    (py.1, S.mul px.2 py.2)
  | Op.pow x e =>
    let px := computeF S fuel s x
    (px.1, S.powf px.2 e)
  | Op.sin x =>
    let px := computeF S fuel s x
    (px.1, S.sinf px.2)

/-- Embedding of reset_cache().

Node::reset_cache (node.rs lines 111-116) sets cache to None and then calls
reset_cache on every node of its dependents list.

InputNode::reset_cache (input.rs line 42) does nothing and in particular does
not propagate. -/
def resetF : Nat → GState α → Nat → GState α
  | 0, s, _ => s
  | fuel + 1, s, i =>
    match s[i]? with
    | none => s
    | some nd =>
      match nd.kind with
      | Kind.input _ => s
      | Kind.expr _ opp =>
        nd.deps.foldl (resetF fuel) (s.set i ⟨Kind.expr none opp, nd.deps⟩)

/-- Embedding of InputNode::set (input.rs lines 47-52): overwrite the stored
value, then call reset_cache on every node of the dependents list.  There is
no equality short-circuit.  Only input nodes have set; on any other index the
state is returned unchanged (the operation does not exist there). -/
def setF (fuel : Nat) (s : GState α) (i : Nat) (v : α) : GState α :=
  match s[i]? with
  | some ⟨Kind.input _, ds⟩ => ds.foldl (resetF fuel) (s.set i ⟨Kind.input v, ds⟩)
  | _ => s

/-- Constructor calls of the public building API: InputNode::from_val and the
Node::add / add_var / sub / mul / pow / sin constructors (node.rs 38-91).
A construction program is a list of these; the node built by the k-th entry
gets arena index k, and its operand fields refer to earlier indices. -/
inductive Ctor (α : Type) where
  | input (v : α)
  | add (x y : Nat)
  | addVar (args : List Nat)
  | sub (x y : Nat)
  | mul (x y : Nat)
  | pow (x : Nat) (e : α)
  | sin (x : Nat)
deriving DecidableEq

/-- Operand handles a constructor wires itself to (in the order the Rust
constructors call add_dependency). -/
def ctorOperands : Ctor α → List Nat
  | Ctor.input _ => []
  | Ctor.add x y => [x, y]
  | Ctor.addVar args => args
  | Ctor.sub x y => [x, y]
  | Ctor.mul x y => [x, y]
  | Ctor.pow x _ => [x]
  | Ctor.sin x => [x]

/-- The freshly allocated node for a constructor: inputs store the value,
expression constructors allocate with cache = None (node.rs from_opp). -/
def ctorKind : Ctor α → Kind α
  | Ctor.input v => Kind.input v
  | Ctor.add x y => Kind.expr none (Op.add x y)
  | Ctor.addVar args => Kind.expr none (Op.addVar args)
  | Ctor.sub x y => Kind.expr none (Op.sub x y)
  | Ctor.mul x y => Kind.expr none (Op.mul x y)
  | Ctor.pow x e => Kind.expr none (Op.pow x e)
  | Ctor.sin x => Kind.expr none (Op.sin x)

/-- Embedding of add_dependency (node.rs 106-108 / input.rs 37-39): append n
to the dependents list of node j. -/
def addDep (s : GState α) (j n : Nat) : GState α :=
  match s[j]? with
  | some nd => s.set j ⟨nd.kind, nd.deps ++ [n]⟩
  | none => s

/-- One constructor call: allocate the node at the end of the arena, then
register it as a dependent of each of its operands, in declared order. -/
def buildStep (s : GState α) (c : Ctor α) : GState α :=
  (ctorOperands c).foldl (fun st j => addDep st j s.length)
    (s ++ [⟨ctorKind c, []⟩])

/-- Run a whole construction program from the empty arena. -/
def build (p : List (Ctor α)) : GState α := p.foldl buildStep []

/-- A program is valid when every constructor refers only to already-built
nodes, which is forced in Rust by the constructors taking live handles. -/
def validProgB : Nat → List (Ctor α) → Bool
  | _, [] => true
  | n, c :: p => (ctorOperands c).all (· < n) && validProgB (n + 1) p

/-- Runtime operations available on handles after construction. -/
inductive Act (α : Type) where
  | compute (i : Nat)
  | set (i : Nat) (v : α)
deriving DecidableEq

/-- Execute one runtime call.  Fuel s.length + 1 and s.length dominate the
recursion depth of any well-formed graph, so these are the exact Rust
semantics on graphs built by the constructors. -/
def stepAct (S : ScalarOps α) (s : GState α) : Act α → GState α
  | Act.compute i => (computeF S (s.length + 1) s i).1
  | Act.set i v => setF s.length s i v

/-- Execute a sequence of runtime calls. -/
def runActs (S : ScalarOps α) (s : GState α) (acts : List (Act α)) : GState α :=
  acts.foldl (stepAct S) s

/-- Pure denotation of node i: the operation applied recursively to the
current values of the leaves below it, ignoring all caches.  This is the
specification value a non-stale cache must agree with. -/
def denoteF (S : ScalarOps α) : Nat → GState α → Nat → α
  | 0, _, _ => S.zero
  | fuel + 1, s, i =>
    match s[i]? with
    | none => S.zero
    | some nd =>
      match nd.kind with
      | Kind.input v => v
      | Kind.expr _ opp =>
        match opp with
        | Op.add x y => S.add (denoteF S fuel s x) (denoteF S fuel s y)
        | Op.addVar args =>
          args.foldl (fun acc a => S.add acc (denoteF S fuel s a)) S.zero
        | Op.sub x y => S.sub (denoteF S fuel s x) (denoteF S fuel s y)
        | Op.mul x y => S.mul (denoteF S fuel s x) (denoteF S fuel s y)
        | Op.pow x e => S.powf (denoteF S fuel s x) e
        | Op.sin x => S.sinf (denoteF S fuel s x)

/-- Canonical denotation: fuel i + 1 always suffices because operand indices
point strictly downwards in constructed graphs. -/
def denote (S : ScalarOps α) (s : GState α) (i : Nat) : α := denoteF S (i + 1) s i

/-- Denotation of an operation: combine the denotations of its operands. -/
def opDenote (S : ScalarOps α) (s : GState α) : Op α → α
  | Op.add x y => S.add (denote S s x) (denote S s y)
  | Op.addVar args => args.foldl (fun acc a => S.add acc (denote S s a)) S.zero
  | Op.sub x y => S.sub (denote S s x) (denote S s y)
  | Op.mul x y => S.mul (denote S s x) (denote S s y)
  | Op.pow x e => S.powf (denote S s x) e
  | Op.sin x => S.sinf (denote S s x)

/-- Graph structure: for every node its dependents list and, for expression
nodes, the operation (with its operand references).  Everything except caches
and input values. -/
def shape (s : GState α) : List (List Nat × Option (Op α)) :=
  s.map fun nd =>
    (nd.deps, match nd.kind with
      | Kind.input _ => none
      | Kind.expr _ opp => some opp)

/-- Operand indices point strictly downwards. -/
def OpsBelow (s : GState α) : Prop := ∀ i, ∀ j ∈ opsOfIdx s i, j < i

/-- Dependents indices point strictly upwards and stay in range. -/
def DepsAbove (s : GState α) : Prop :=
  ∀ i, ∀ d ∈ depsOf s i, i < d ∧ d < s.length

/-- Every operand edge is backed by a dependents edge (the constructors
register the new node with each operand). -/
def Wired (s : GState α) : Prop := ∀ i, ∀ j ∈ opsOfIdx s i, i ∈ depsOf s j

/-- Every dependents edge comes from an operand edge (dependents lists are
only ever filled by the constructors). -/
def CoWired (s : GState α) : Prop := ∀ i, ∀ d ∈ depsOf s i, i ∈ opsOfIdx s d

/-- All structural well-formedness facts of graphs built by the API. -/
def WFS (s : GState α) : Prop := OpsBelow s ∧ DepsAbove s ∧ Wired s ∧ CoWired s

/-- Reachability along dependents edges (the invalidation route). -/
inductive DepReach (s : GState α) : Nat → Nat → Prop where
  | refl (i : Nat) : DepReach s i i
  | head {i d j : Nat} (hd : d ∈ depsOf s i) (h : DepReach s d j) : DepReach s i j

/-- Reachability along operand edges (node j is in the operand subgraph of
node i). -/
inductive OpReach (s : GState α) : Nat → Nat → Prop where
  | refl (i : Nat) : OpReach s i i
  | head {i x j : Nat} (hx : x ∈ opsOfIdx s i) (h : OpReach s x j) : OpReach s i j

/-- Node i is an input (leaf) node. -/
def IsInput (s : GState α) (i : Nat) : Prop := ∃ v ds, s[i]? = some ⟨Kind.input v, ds⟩

/-- Node i is an expression node. -/
def IsExpr (s : GState α) (i : Nat) : Prop :=
  ∃ c opp ds, s[i]? = some ⟨Kind.expr c opp, ds⟩

/-- The cache coherence invariant of the spec: every present cache value is
the denotation of its node over the current leaf values. -/
def CacheInv (S : ScalarOps α) (s : GState α) : Prop :=
  ∀ i v, cacheOf s i = some v → v = denote S s i

/-- Instrumented variant of computeF that additionally records, in call
order, every node index on which compute() is invoked.  The state and value
components follow computeF exactly; the third component is ghost
instrumentation used to observe which operands get recomputed. -/
def computeTF (S : ScalarOps α) : Nat → GState α → Nat → GState α × α × List Nat
  | 0, s, i => (s, S.zero, [i])
  | fuel + 1, s, i =>
    match s[i]? with
    | none => (s, S.zero, [i])
    | some nd =>
      match nd.kind with
      | Kind.input v => (s, v, [i])
      | Kind.expr cache opp =>
        let p : GState α × α × List Nat :=
          match opp with
          | Op.add x y =>
            let px := computeTF S fuel s x
            let py := computeTF S fuel px.1 y
            (py.1, S.add px.2.1 py.2.1, px.2.2 ++ py.2.2)
          | Op.addVar args =>
            args.foldl (fun acc a =>
              let pa := computeTF S fuel acc.1 a
              (pa.1, S.add acc.2.1 pa.2.1, acc.2.2 ++ pa.2.2)) (s, S.zero, [])
          | Op.sub x y =>
            let px := computeTF S fuel s x
            let py := computeTF S fuel px.1 y
            (py.1, S.sub px.2.1 py.2.1, px.2.2 ++ py.2.2)
          | Op.mul x y =>
            let px := computeTF S fuel s x
            let py := computeTF S fuel px.1 y
            (py.1, S.mul px.2.1 py.2.1, px.2.2 ++ py.2.2)
          | Op.pow x e =>
            let px := computeTF S fuel s x
            (px.1, S.powf px.2.1 e, px.2.2)
          | Op.sin x =>
            let px := computeTF S fuel s x
            (px.1, S.sinf px.2.1, px.2.2)
        (setCache p.1 i (some p.2.1), cache.getD p.2.1, i :: p.2.2)

end Teza

namespace Teza.G

/-- Modelled from the spec: the Ops enum used by src/src/graph.rs is not under
src/ (graph.rs imports crate::ops::Ops, while the ops.rs present only defines
Operation).  Variants follow the uses in graph.rs (Ops::Input(f32) plus the
expression constructors) and sections 3 and 4.2 of the spec; the computation
of each variant follows the operator table of the spec (identical to the
Operation enum of src/src/ops.rs) with Input returning the stored value, and
Ops::set overwriting the stored value of the Input variant. -/
inductive Ops (α : Type) where
  | input (v : α)
  | add (x y : Nat)
  | addVar (args : List Nat)
  | sub (x y : Nat)
  | mul (x y : Nat)
  | pow (x : Nat) (e : α)
  | sin (x : Nat)
deriving DecidableEq

/-- Node of src/src/graph.rs: cache, dependents list (field deps) and its
operation (field val). -/
structure GNode (α : Type) where
  cache : Option α
  deps : List Nat
  val : Ops α
deriving DecidableEq

/-- Arena of graph.rs nodes. -/
abbrev St (α : Type) := List (GNode α)

/-- Cache of node i. -/
def cacheOf (s : St α) (i : Nat) : Option α :=
  match s[i]? with
  | some nd => nd.cache
  | none => none

/-- Dependents of node i. -/
def depsOf (s : St α) (i : Nat) : List Nat :=
  match s[i]? with
  | some nd => nd.deps
  | none => []

/-- Operand indices of an Ops value (the Input variant has none). -/
def opsOperands : Ops α → List Nat
  | Ops.input _ => []
  | Ops.add x y => [x, y]
  | Ops.addVar args => args
  | Ops.sub x y => [x, y]
  | Ops.mul x y => [x, y]
  | Ops.pow x _ => [x]
  | Ops.sin x => [x]

/-- Operand indices of node i. -/
def opsOfIdx (s : St α) (i : Nat) : List Nat :=
  match s[i]? with
  | some nd => opsOperands nd.val
  | none => []

/-- Overwrite the cache of node i. -/
def setCache (s : St α) (i : Nat) (c : Option α) : St α :=
  match s[i]? with
  | some nd => s.set i ⟨c, nd.deps, nd.val⟩
  | none => s

/-- Embedding of Node::compute from graph.rs (lines 90-96):
  self.cache.unwrap_or({ let val = self.val.compute(); self.cache = Some(val); val }).
As in node.rs, unwrap_or evaluates its argument eagerly, so the operation is
recomputed and the cache overwritten on every call, and the old cache value,
when present, is returned.  Ops::compute is modelled from the spec (see Ops)
and inlined: Input returns the stored value, the rest evaluate operands left
to right. -/
def computeG (S : Teza.ScalarOps α) : Nat → St α → Nat → St α × α
  | 0, s, _ => (s, S.zero)
  | fuel + 1, s, i =>
    match s[i]? with
    | none => (s, S.zero)
    | some nd =>
      let p : St α × α :=
        match nd.val with
        | Ops.input v => (s, v)
        | Ops.add x y =>
          let px := computeG S fuel s x
          let py := computeG S fuel px.1 y
          (py.1, S.add px.2 py.2)
        | Ops.addVar args =>
          args.foldl (fun acc a =>
            let pa := computeG S fuel acc.1 a
            (pa.1, S.add acc.2 pa.2)) (s, S.zero)
        | Ops.sub x y =>
          let px := computeG S fuel s x
          let py := computeG S fuel px.1 y
          (py.1, S.sub px.2 py.2)
        | Ops.mul x y =>
          let px := computeG S fuel s x
          let py := computeG S fuel px.1 y
          (py.1, S.mul px.2 py.2)
        | Ops.pow x e =>
          let px := computeG S fuel s x
          (px.1, S.powf px.2 e)
        | Ops.sin x =>
          let px := computeG S fuel s x
          (px.1, S.sinf px.2)
      (setCache p.1 i (some p.2), nd.cache.getD p.2)

/-- One fold step of AddVar evaluation in graph.rs. -/
def addStepG (S : Teza.ScalarOps α) (fuel : Nat) (acc : St α × α) (a : Nat) :
    St α × α :=
  let pa := computeG S fuel acc.1 a
  (pa.1, S.add acc.2 pa.2)

/-- Modelled from the spec: Ops::compute of the missing ops module used by
graph.rs, per the operator table of the spec (section 4.2) with Input
returning the stored value.  computeG unfolds to exactly this. -/
def opComputeG (S : Teza.ScalarOps α) (fuel : Nat) (s : St α) :
    Ops α → St α × α
  | Ops.input v => (s, v)
  | Ops.add x y =>
    let px := computeG S fuel s x
    let py := computeG S fuel px.1 y
    (py.1, S.add px.2 py.2)
  | Ops.addVar args => args.foldl (addStepG S fuel) (s, S.zero)
  | Ops.sub x y =>
    let px := computeG S fuel s x
    let py := computeG S fuel px.1 y
    (py.1, S.sub px.2 py.2)
  | Ops.mul x y =>
    let px := computeG S fuel s x
    let py := computeG S fuel px.1 y
    (py.1, S.mul px.2 py.2)
  | Ops.pow x e =>
    let px := computeG S fuel s x
    (px.1, S.powf px.2 e)
  | Ops.sin x =>
    let px := computeG S fuel s x
    (px.1, S.sinf px.2)

/-- Embedding of Node::reset_cache from graph.rs (lines 75-78): set cache to
None, then reset_cache every dependent.  Unlike input.rs, this runs uniformly
on every node kind. -/
def resetG : Nat → St α → Nat → St α
  | 0, s, _ => s
  | fuel + 1, s, i =>
    match s[i]? with
    | none => s
    | some nd => nd.deps.foldl (resetG fuel) (s.set i ⟨none, nd.deps, nd.val⟩)

/-- Embedding of Node::set from graph.rs (lines 80-86): only if the operation
is Ops::Input does it overwrite the stored value (Ops::set, modelled from the
spec), mirror it into the cache, and reset_cache every dependent; on any
other node it does nothing at all. -/
def setG (fuel : Nat) (s : St α) (i : Nat) (v : α) : St α :=
  match s[i]? with
  | some nd =>
    match nd.val with
    | Ops.input _ =>
      nd.deps.foldl (resetG fuel) (s.set i ⟨some v, nd.deps, Ops.input v⟩)
    | _ => s
  | none => s

/-- Constructor calls of graph.rs (Node::input and the expression
constructors, lines 25-69). -/
inductive GCtor (α : Type) where
  | input (v : α)
  | add (x y : Nat)
  | addVar (args : List Nat)
  | sub (x y : Nat)
  | mul (x y : Nat)
  | pow (x : Nat) (e : α)
  | sin (x : Nat)
deriving DecidableEq

/-- The freshly allocated node: Node::input builds with from_ops and then
immediately sets cache = Some(x) (lines 25-29); the expression constructors
leave cache = None (from_ops, lines 17-23). -/
def gctorNode : GCtor α → GNode α
  | GCtor.input v => ⟨some v, [], Ops.input v⟩
  | GCtor.add x y => ⟨none, [], Ops.add x y⟩
  | GCtor.addVar args => ⟨none, [], Ops.addVar args⟩
  | GCtor.sub x y => ⟨none, [], Ops.sub x y⟩
  | GCtor.mul x y => ⟨none, [], Ops.mul x y⟩
  | GCtor.pow x e => ⟨none, [], Ops.pow x e⟩
  | GCtor.sin x => ⟨none, [], Ops.sin x⟩

/-- Operands the constructor wires itself to via add_dep. -/
def gctorOperands (c : GCtor α) : List Nat := opsOperands (gctorNode c).val

/-- Embedding of add_dep (graph.rs lines 71-73). -/
def addDepG (s : St α) (j n : Nat) : St α :=
  match s[j]? with
  | some nd => s.set j ⟨nd.cache, nd.deps ++ [n], nd.val⟩
  | none => s

/-- One constructor call of graph.rs. -/
def buildStepG (s : St α) (c : GCtor α) : St α :=
  (gctorOperands c).foldl (fun st j => addDepG st j s.length) (s ++ [gctorNode c])

/-- Run a construction program from the empty arena. -/
def buildG (p : List (GCtor α)) : St α := p.foldl buildStepG []

/-- Program validity: constructors only mention already built nodes. -/
def validProgBG : Nat → List (GCtor α) → Bool
  | _, [] => true
  | n, c :: p => (gctorOperands c).all (· < n) && validProgBG (n + 1) p

/-- Runtime calls on graph.rs handles. -/
inductive ActG (α : Type) where
  | compute (i : Nat)
  | set (i : Nat) (v : α)
deriving DecidableEq

/-- Execute one runtime call. -/
def stepActG (S : Teza.ScalarOps α) (s : St α) : ActG α → St α
  | ActG.compute i => (computeG S (s.length + 1) s i).1
  | ActG.set i v => setG s.length s i v

/-- Execute a sequence of runtime calls. -/
def runActsG (S : Teza.ScalarOps α) (s : St α) (acts : List (ActG α)) : St α :=
  acts.foldl (stepActG S) s

/-- Graph structure of a graph.rs arena: for every node its dependents, its
operand references, and whether it is an input node.  Caches and stored input
values are excluded (set overwrites the stored value in place). -/
def shapeG (s : St α) : List (List Nat × List Nat × Bool) :=
  s.map fun nd => (nd.deps, opsOperands nd.val,
    match nd.val with
    | Ops.input _ => true
    | _ => false)

/-- Stored value of node i when its operation is the Input variant. -/
def valGOf (s : St α) (i : Nat) : Option α :=
  match s[i]? with
  | some nd =>
    match nd.val with
    | Ops.input w => some w
    | _ => none
  | none => none

/-- Node i is a non-input (expression) node of graph.rs. -/
def IsExprG (s : St α) (i : Nat) : Prop :=
  ∃ nd : GNode α, s[i]? = some nd ∧ ∀ w, nd.val ≠ Ops.input w

/-- Two graph.rs states with the same structure and stored input values;
only caches may differ. -/
def SameSVG (s s' : St α) : Prop :=
  shapeG s = shapeG s' ∧ ∀ j, valGOf s j = valGOf s' j

/-- The graph.rs input-cache invariant: the cache of an input node always
mirrors its stored value. -/
def InputCacheInv (s : St α) : Prop :=
  ∀ (i : Nat) (nd : GNode α), s[i]? = some nd →
    ∀ w, nd.val = Ops.input w → nd.cache = some w

/-- Dependents indices point strictly upwards and stay in range. -/
def DepsAboveG (s : St α) : Prop := ∀ i, ∀ d ∈ depsOf s i, i < d ∧ d < s.length

/-- Every dependents edge comes from an operand edge. -/
def CoWiredG (s : St α) : Prop := ∀ i, ∀ d ∈ depsOf s i, i ∈ opsOfIdx s d

/-- Reachability along dependents edges. -/
inductive DepReachG (s : St α) : Nat → Nat → Prop where
  | refl (i : Nat) : DepReachG s i i
  | head {i d j : Nat} (hd : d ∈ depsOf s i) (h : DepReachG s d j) : DepReachG s i j

/-- Node i is an input node of graph.rs. -/
def IsInputG (s : St α) (i : Nat) : Prop :=
  ∃ nd, s[i]? = some nd ∧ ∃ w, nd.val = Ops.input w

/-- Dependents list and whole operation value (field val) of every node: the
complete graph.rs graph structure with only the cache fields erased.  Unlike
shapeG this keeps the operation variant with all payloads, including the pow
exponent and the stored value of an Input. -/
def structG (s : St α) : List (List Nat × Ops α) :=
  s.map fun nd => (nd.deps, nd.val)

/-- The operation (field val) of node i, none when out of range. -/
def opOfIdx (s : St α) (i : Nat) : Option (Ops α) :=
  match s[i]? with
  | some nd => some nd.val
  | none => none

end Teza.G

namespace Teza

/-- Integer instantiation of the scalars, used to evaluate the structural
claims on concrete graphs (powf and sinf are irrelevant to those claims and
are given placeholder values). -/
def intOps : ScalarOps ℤ :=
  ⟨0, (· + ·), (· - ·), (· * ·), fun x _ => x, fun x => x⟩

/-- Real-number instantiation of the scalars: the exact-arithmetic
idealization of f32, with the mathematical sine and power functions. -/
noncomputable def realOps : ScalarOps ℝ :=
  ⟨0, (· + ·), (· - ·), (· * ·), fun x e => x ^ e, Real.sin⟩

/-- Rust f32::round: round to the nearest integer, ties away from zero
(Mathlib round is ties-up, so negative arguments are negated). -/
def roundAway {K : Type} [LinearOrderedField K] [FloorRing K] (x : K) : ℤ :=
  if 0 ≤ x then round x else -round (-x)

/-- The round helper of src/examples/example.rs and src/src/tests.rs:
round(x, precision) = (x * 10^precision).round() / 10^precision. -/
def roundPrec {K : Type} [LinearOrderedField K] [FloorRing K]
    (x : K) (precision : ℕ) : K :=
  ((roundAway (x * 10 ^ precision) : ℤ) : K) / 10 ^ precision

/-- The construction program of Scenario 1 (src/examples/example.rs lines
9-18): leaves x1 = 1, x2 = 2, x3 = 3 and the graph
x1 + x2 * sin(x2 + x3 ^ 3), built bottom-up.  Node indices: 0 = x1, 1 = x2,
2 = x3, 3 = pow(x3, 3.0), 4 = add(x2, pow), 5 = sin(add), 6 = mul(x2, sin),
7 = the root add(x1, mul). -/
def scenario1Prog : List (Ctor ℝ) :=
  [Ctor.input 1, Ctor.input 2, Ctor.input 3, Ctor.pow 2 3, Ctor.add 1 3,
   Ctor.sin 4, Ctor.mul 1 5, Ctor.add 0 6]

/-- Leaf values of the arena (none on expression nodes), as a list, used to
state which operations leave all stored input values untouched. -/
def vals (s : GState α) : List (Option α) :=
  s.map fun nd =>
    match nd.kind with
    | Kind.input v => some v
    | Kind.expr _ _ => none

/-- Two states with the same structure and the same leaf values; caches are
the only thing allowed to differ. -/
def SameSV (s s' : GState α) : Prop := shape s = shape s' ∧ ∀ j, valOf s j = valOf s' j

end Teza

namespace Teza

variable {α : Type} {S : ScalarOps α}

theorem length_shape (s : GState α) : (shape s).length = s.length :=
  List.length_map ..

theorem getElem?_shape (s : GState α) (i : Nat) :
    (shape s)[i]? = s[i]?.map (fun nd =>
      (nd.deps, match nd.kind with
        | Kind.input _ => none
        | Kind.expr _ opp => some opp)) :=
  List.getElem?_map ..

theorem depsOf_eq_shape (s : GState α) (i : Nat) :
    depsOf s i = ((shape s)[i]?.map Prod.fst).getD [] := by
  rw [getElem?_shape]
  unfold depsOf
  cases s[i]? with
  | none => rfl
  | some nd => rfl

theorem opsOfIdx_eq_shape (s : GState α) (i : Nat) :
    opsOfIdx s i = (((shape s)[i]?.bind Prod.snd).map opOperands).getD [] := by
  rw [getElem?_shape]
  unfold opsOfIdx
  cases h : s[i]? with
  | none => rfl
  | some nd => cases nd with
    | mk k ds => cases k <;> rfl

theorem length_congr {s s' : GState α} (h : shape s = shape s') :
    s.length = s'.length := by
  rw [← length_shape, h, length_shape]

theorem depsOf_congr {s s' : GState α} (h : shape s = shape s') (i : Nat) :
    depsOf s i = depsOf s' i := by
  rw [depsOf_eq_shape, h, ← depsOf_eq_shape]

theorem opsOfIdx_congr {s s' : GState α} (h : shape s = shape s') (i : Nat) :
    opsOfIdx s i = opsOfIdx s' i := by
  rw [opsOfIdx_eq_shape, h, ← opsOfIdx_eq_shape]

theorem depReach_congr {s s' : GState α} (h : shape s = shape s') {i j : Nat}
    (hr : DepReach s i j) : DepReach s' i j := by
  induction hr with
  | refl i => exact DepReach.refl i
  | head hd _ ih => exact DepReach.head (by rwa [← depsOf_congr h]) ih

theorem opReach_congr {s s' : GState α} (h : shape s = shape s') {i j : Nat}
    (hr : OpReach s i j) : OpReach s' i j := by
  induction hr with
  | refl i => exact OpReach.refl i
  | head hx _ ih => exact OpReach.head (by rwa [← opsOfIdx_congr h]) ih

theorem wfs_congr {s s' : GState α} (h : shape s = shape s') (hw : WFS s) : WFS s' := by
  obtain ⟨h1, h2, h3, h4⟩ := hw
  refine ⟨?_, ?_, ?_, ?_⟩
  · intro i j hj; exact h1 i j (by rwa [opsOfIdx_congr h])
  · intro i d hd
    have := h2 i d (by rwa [depsOf_congr h])
    exact ⟨this.1, by rw [← length_congr h]; exact this.2⟩
  · intro i j hj
    rw [← depsOf_congr h]
    exact h3 i j (by rwa [opsOfIdx_congr h])
  · intro i d hd
    rw [← opsOfIdx_congr h]
    exact h4 i d (by rwa [depsOf_congr h])

theorem sameSV_refl (s : GState α) : SameSV s s := ⟨rfl, fun _ => rfl⟩

theorem sameSV_trans {s t u : GState α} (h1 : SameSV s t) (h2 : SameSV t u) :
    SameSV s u :=
  ⟨h1.1.trans h2.1, fun j => (h1.2 j).trans (h2.2 j)⟩

theorem lt_length_of_getElem?_eq_some {s : GState α} {i : Nat} {nd : NodeE α}
    (h : s[i]? = some nd) : i < s.length := by
  by_contra hc
  rw [List.getElem?_eq_none (Nat.le_of_not_lt hc)] at h
  exact Option.noConfusion h

/-- Replacing an expression node by one with the same operation and deps but
another cache leaves shape, leaf values, and all other caches unchanged. -/
theorem update_expr_cache {s : GState α} {i : Nat} {c : Option α} {opp : Op α}
    {ds : List Nat} (h : s[i]? = some ⟨Kind.expr c opp, ds⟩) (c' : Option α) :
    shape (s.set i ⟨Kind.expr c' opp, ds⟩) = shape s ∧
    (∀ j, valOf (s.set i ⟨Kind.expr c' opp, ds⟩) j = valOf s j) ∧
    cacheOf (s.set i ⟨Kind.expr c' opp, ds⟩) i = c' ∧
    (∀ j, j ≠ i → cacheOf (s.set i ⟨Kind.expr c' opp, ds⟩) j = cacheOf s j) := by
  have hlen := lt_length_of_getElem?_eq_some h
  refine ⟨?_, ?_, ?_, ?_⟩
  · apply List.ext_getElem?
    intro j
    rw [getElem?_shape, getElem?_shape, List.getElem?_set]
    by_cases hij : i = j
    · subst hij; simp [hlen, h]
    · simp [hij]
  · intro j
    unfold valOf
    rw [List.getElem?_set]
    by_cases hij : i = j
    · subst hij; simp [hlen, h]
    · simp [hij]
  · unfold cacheOf
    rw [List.getElem?_set]
    simp [hlen]
  · intro j hj
    unfold cacheOf
    rw [List.getElem?_set]
    rw [if_neg (fun hc => hj hc.symm)]

/-- Replacing an input node by one with another stored value leaves shape and
all caches unchanged, and leaf values unchanged except at the node itself. -/
theorem update_input_val {s : GState α} {i : Nat} {w : α} {ds : List Nat}
    (h : s[i]? = some ⟨Kind.input w, ds⟩) (v : α) :
    shape (s.set i ⟨Kind.input v, ds⟩) = shape s ∧
    (∀ j, j ≠ i → valOf (s.set i ⟨Kind.input v, ds⟩) j = valOf s j) ∧
    valOf (s.set i ⟨Kind.input v, ds⟩) i = some v ∧
    (∀ j, cacheOf (s.set i ⟨Kind.input v, ds⟩) j = cacheOf s j) := by
  have hlen := lt_length_of_getElem?_eq_some h
  refine ⟨?_, ?_, ?_, ?_⟩
  · apply List.ext_getElem?
    intro j
    rw [getElem?_shape, getElem?_shape, List.getElem?_set]
    by_cases hij : i = j
    · subst hij; simp [hlen, h]
    · simp [hij]
  · intro j hj
    unfold valOf
    rw [List.getElem?_set]
    rw [if_neg (fun hc => hj hc.symm)]
  · unfold valOf
    rw [List.getElem?_set]
    simp [hlen]
  · intro j
    unfold cacheOf
    rw [List.getElem?_set]
    by_cases hij : i = j
    · subst hij; simp [hlen, h]
    · simp [hij]

/-- setCache changes nothing but the cache of the target node. -/
theorem setCache_spec (s : GState α) (i : Nat) (c : Option α) :
    SameSV (setCache s i c) s ∧
    (∀ j, j ≠ i → cacheOf (setCache s i c) j = cacheOf s j) := by
  unfold setCache
  cases h : s[i]? with
  | none => exact ⟨sameSV_refl s, fun _ _ => rfl⟩
  | some nd =>
    cases nd with
    | mk k ds =>
      cases k with
      | input v => exact ⟨sameSV_refl s, fun _ _ => rfl⟩
      | expr c0 opp =>
        obtain ⟨h1, h2, _, h4⟩ := update_expr_cache h c
        exact ⟨⟨h1, h2⟩, h4⟩

/-- setCache on an expression node installs the new cache there. -/
theorem cacheOf_setCache_self {s : GState α} {i : Nat} {c0 : Option α}
    {opp : Op α} {ds : List Nat} (h : s[i]? = some ⟨Kind.expr c0 opp, ds⟩)
    (c : Option α) : cacheOf (setCache s i c) i = c := by
  unfold setCache
  rw [h]
  exact (update_expr_cache h c).2.2.1

theorem foldl_sameSV_pair {β : Type} {f : GState α × β → Nat → GState α × β}
    (hf : ∀ acc a, SameSV (f acc a).1 acc.1) :
    ∀ (args : List Nat) (init : GState α × β),
      SameSV ((args.foldl f init).1) init.1 := by
  intro args
  induction args with
  | nil => intro init; exact sameSV_refl _
  | cons a as ih =>
    intro init
    exact sameSV_trans (ih (f init a)) (hf init a)

theorem foldl_sameSV {f : GState α → Nat → GState α}
    (hf : ∀ st a, SameSV (f st a) st) :
    ∀ (args : List Nat) (init : GState α),
      SameSV (args.foldl f init) init := by
  intro args
  induction args with
  | nil => intro init; exact sameSV_refl _
  | cons a as ih =>
    intro init
    exact sameSV_trans (ih (f init a)) (hf init a)

/-- Unfolding lemma: computeF on an expression node is the cache write and
eager unwrap_or around Operation::compute. -/
theorem computeF_succ_expr {s : GState α} {i : Nat} {c : Option α} {opp : Op α}
    {ds : List Nat} (S : ScalarOps α) (fuel : Nat)
    (h : s[i]? = some ⟨Kind.expr c opp, ds⟩) :
    computeF S (fuel + 1) s i =
      (setCache (opComputeF S fuel s opp).1 i (some (opComputeF S fuel s opp).2),
        c.getD (opComputeF S fuel s opp).2) := by
  cases opp <;> (simp only [computeF, h]; rfl)

theorem computeF_succ_input {s : GState α} {i : Nat} {v : α} {ds : List Nat}
    (S : ScalarOps α) (fuel : Nat) (h : s[i]? = some ⟨Kind.input v, ds⟩) :
    computeF S (fuel + 1) s i = (s, v) := by
  simp [computeF, h]

theorem computeF_succ_none {s : GState α} {i : Nat} (S : ScalarOps α)
    (fuel : Nat) (h : s[i]? = none) :
    computeF S (fuel + 1) s i = (s, S.zero) := by
  simp [computeF, h]

/-- Operation::compute never changes the graph structure or any stored leaf
value, assuming compute() at the given fuel does not. -/
theorem opComputeF_sameSV (S : ScalarOps α) (f : Nat)
    (ihc : ∀ (s : GState α) (i : Nat), SameSV (computeF S f s i).1 s) :
    ∀ (s : GState α) (opp : Op α), SameSV (opComputeF S f s opp).1 s := by
  intro s opp
  cases opp with
  | add x y =>
    simp only [opComputeF]
    exact sameSV_trans (ihc (computeF S f s x).1 y) (ihc s x)
  | addVar args =>
    simp only [opComputeF]
    exact foldl_sameSV_pair (f := addStepF S f) (fun acc a => ihc acc.1 a)
      args (s, S.zero)
  | sub x y =>
    simp only [opComputeF]
    exact sameSV_trans (ihc (computeF S f s x).1 y) (ihc s x)
  | mul x y =>
    simp only [opComputeF]
    exact sameSV_trans (ihc (computeF S f s x).1 y) (ihc s x)
  | pow x e =>
    simp only [opComputeF]
    exact ihc s x
  | sin x =>
    simp only [opComputeF]
    exact ihc s x

/-- compute() never changes the graph structure or any stored leaf value:
only caches move. -/
theorem computeF_sameSV (S : ScalarOps α) :
    ∀ (fuel : Nat) (s : GState α) (i : Nat), SameSV (computeF S fuel s i).1 s := by
  intro fuel
  induction fuel with
  | zero => intro s i; exact sameSV_refl s
  | succ f ih =>
    intro s i
    cases h : s[i]? with
    | none => rw [computeF_succ_none S f h]; exact sameSV_refl s
    | some nd =>
      cases nd with
      | mk k ds =>
        cases k with
        | input v => rw [computeF_succ_input S f h]; exact sameSV_refl s
        | expr c opp =>
          rw [computeF_succ_expr S f h]
          exact sameSV_trans (setCache_spec _ i _).1 (opComputeF_sameSV S f ih s opp)

/-- reset_cache() never changes the graph structure or any stored leaf
value. -/
theorem resetF_sameSV :
    ∀ (fuel : Nat) (s : GState α) (i : Nat), SameSV (resetF fuel s i) s := by
  intro fuel
  induction fuel with
  | zero => intro s i; exact sameSV_refl s
  | succ f ih =>
    intro s i
    show SameSV (resetF (f + 1) s i) s
    unfold resetF
    cases h : s[i]? with
    | none => exact sameSV_refl s
    | some nd =>
      cases nd with
      | mk k ds =>
        cases k with
        | input v => exact sameSV_refl s
        | expr c opp =>
          have h1 := update_expr_cache h (none : Option α)
          exact sameSV_trans (foldl_sameSV (fun st a => ih st a) ds _)
            ⟨h1.1, h1.2.1⟩

/-- set() never changes the graph structure; it changes the stored value only
at the leaf it is called on. -/
theorem setF_spec (fuel : Nat) (s : GState α) (i : Nat) (v : α) :
    shape (setF fuel s i v) = shape s ∧
    ∀ j, j ≠ i → valOf (setF fuel s i v) j = valOf s j := by
  unfold setF
  cases h : s[i]? with
  | none => exact ⟨rfl, fun _ _ => rfl⟩
  | some nd =>
    cases nd with
    | mk k ds =>
      cases k with
      | expr c opp => exact ⟨rfl, fun _ _ => rfl⟩
      | input w =>
        have h1 := update_input_val h v
        have h2 := foldl_sameSV (fun st a => resetF_sameSV fuel st a) ds
          (s.set i ⟨Kind.input v, ds⟩)
        refine ⟨h2.1.trans h1.1, fun j hj => (h2.2 j).trans (h1.2.1 j hj)⟩

theorem depReach_trans {s : GState α} {i j k : Nat} (h1 : DepReach s i j)
    (h2 : DepReach s j k) : DepReach s i k := by
  induction h1 with
  | refl i => exact h2
  | head hd _ ih => exact DepReach.head hd (ih h2)

theorem opReach_trans {s : GState α} {i j k : Nat} (h1 : OpReach s i j)
    (h2 : OpReach s j k) : OpReach s i k := by
  induction h1 with
  | refl i => exact h2
  | head hx _ ih => exact OpReach.head hx (ih h2)

/-- Operand reachability from N down to L reverses to dependents reachability
from L up to N, because every operand edge is registered backwards. -/
theorem opReach_rev {s : GState α} (hw : Wired s) {N L : Nat}
    (h : OpReach s N L) : DepReach s L N := by
  induction h with
  | refl i => exact DepReach.refl i
  | head hx _ ih =>
    exact depReach_trans ih (DepReach.head (hw _ _ hx) (DepReach.refl _))

/-- Dependents reachability from L up to N reverses to operand reachability
from N down to L, because every dependents edge is an operand edge backwards. -/
theorem depReach_rev {s : GState α} (hc : CoWired s) {L N : Nat}
    (h : DepReach s L N) : OpReach s N L := by
  induction h with
  | refl i => exact OpReach.refl i
  | head hd _ ih =>
    exact opReach_trans ih (OpReach.head (hc _ _ hd) (OpReach.refl _))

theorem depsAbove_congr {s s' : GState α} (h : shape s = shape s')
    (hw : DepsAbove s) : DepsAbove s' := by
  intro i d hd
  have := hw i d (by rwa [depsOf_congr h])
  exact ⟨this.1, by rw [← length_congr h]; exact this.2⟩

theorem coWired_congr {s s' : GState α} (h : shape s = shape s')
    (hw : CoWired s) : CoWired s' := by
  intro i d hd
  rw [← opsOfIdx_congr h]
  exact hw i d (by rwa [depsOf_congr h])

theorem isExpr_congr {s s' : GState α} (h : shape s = shape s') {i : Nat}
    (he : IsExpr s i) : IsExpr s' i := by
  obtain ⟨c, opp, ds, hi⟩ := he
  have hs : (shape s')[i]? = some (ds, some opp) := by
    rw [← h, getElem?_shape, hi]; rfl
  rw [getElem?_shape] at hs
  cases hi' : s'[i]? with
  | none => rw [hi'] at hs; exact Option.noConfusion hs
  | some nd =>
    rw [hi'] at hs
    cases nd with
    | mk k ds' =>
      cases k with
      | input v => simp at hs
      | expr c' opp' =>
        simp at hs
        exact ⟨c', opp', ds', by rw [hi', hs.1, hs.2]⟩

theorem isInput_congr {s s' : GState α} (h : shape s = shape s') {i : Nat}
    (he : IsInput s i) : IsInput s' i := by
  obtain ⟨v, ds, hi⟩ := he
  have hs : (shape s')[i]? = some (ds, none) := by
    rw [← h, getElem?_shape, hi]; rfl
  rw [getElem?_shape] at hs
  cases hi' : s'[i]? with
  | none => rw [hi'] at hs; exact Option.noConfusion hs
  | some nd =>
    rw [hi'] at hs
    cases nd with
    | mk k ds' =>
      cases k with
      | expr c' opp' => simp at hs
      | input v' => exact ⟨v', ds', by rw [hi']⟩

theorem cacheOf_eq_none_of_isInput {s : GState α} {i : Nat} (h : IsInput s i) :
    cacheOf s i = none := by
  obtain ⟨v, ds, hi⟩ := h
  unfold cacheOf
  rw [hi]

/-- Any node that occurs as the operand owner of an edge is an expression
node (input nodes have no operands). -/
theorem isExpr_of_mem_opsOfIdx {s : GState α} {i d : Nat}
    (h : i ∈ opsOfIdx s d) : IsExpr s d := by
  unfold opsOfIdx at h
  cases hd : s[d]? with
  | none => rw [hd] at h; exact absurd h (List.not_mem_nil i)
  | some nd =>
    rw [hd] at h
    cases nd with
    | mk k ds =>
      cases k with
      | input v => exact absurd h (List.not_mem_nil i)
      | expr c opp => exact ⟨c, opp, ds, hd⟩

/-- reset_cache only ever clears caches: every cache is either untouched or
None afterwards. -/
theorem resetF_cache_or :
    ∀ (fuel : Nat) (s : GState α) (i j : Nat),
      cacheOf (resetF fuel s i) j = cacheOf s j ∨
      cacheOf (resetF fuel s i) j = none := by
  intro fuel
  induction fuel with
  | zero => intro s i j; exact Or.inl rfl
  | succ f ih =>
    intro s i j
    show cacheOf (resetF (f + 1) s i) j = _ ∨ _
    unfold resetF
    cases h : s[i]? with
    | none => exact Or.inl rfl
    | some nd =>
      cases nd with
      | mk k ds =>
        cases k with
        | input v => exact Or.inl rfl
        | expr c opp =>
          have hfold :
              ∀ (l : List Nat) (st : GState α),
                cacheOf (l.foldl (resetF f) st) j = cacheOf st j ∨
                cacheOf (l.foldl (resetF f) st) j = none := by
            intro l
            induction l with
            | nil => intro st; exact Or.inl rfl
            | cons d rest ihl =>
              intro st
              rcases ihl (resetF f st d) with h1 | h1 <;>
                rcases ih st d j with h2 | h2 <;>
                  simp only [List.foldl_cons] <;> rw [h1] <;> simp [h2]
          rcases hfold ds (s.set i ⟨Kind.expr none opp, ds⟩) with h1 | h1
          · rw [h1]
            by_cases hij : j = i
            · subst hij
              exact Or.inr (update_expr_cache h (none : Option α)).2.2.1
            · exact Or.inl ((update_expr_cache h (none : Option α)).2.2.2 j hij)
          · exact Or.inr h1

/-- reset_cache touches no cache outside the dependents-reachable set of its
start node. -/
theorem resetF_untouched :
    ∀ (fuel : Nat) (s : GState α) (i j : Nat), ¬ DepReach s i j →
      cacheOf (resetF fuel s i) j = cacheOf s j := by
  intro fuel
  induction fuel with
  | zero => intro s i j _; rfl
  | succ f ih =>
    intro s i j hnr
    show cacheOf (resetF (f + 1) s i) j = _
    unfold resetF
    cases h : s[i]? with
    | none => rfl
    | some nd =>
      cases nd with
      | mk k ds =>
        cases k with
        | input v => rfl
        | expr c opp =>
          have hji : j ≠ i := fun hc => hnr (by rw [hc]; exact DepReach.refl i)
          have hds : ds = depsOf s i := by unfold depsOf; rw [h]
          have hnr2 : ∀ d ∈ ds, ¬ DepReach s d j := by
            intro d hd hr
            exact hnr (DepReach.head (hds ▸ hd) hr)
          have hfold :
              ∀ (l : List Nat) (st : GState α), shape st = shape s →
                (∀ d ∈ l, ¬ DepReach s d j) →
                cacheOf (l.foldl (resetF f) st) j = cacheOf st j := by
            intro l
            induction l with
            | nil => intro st _ _; rfl
            | cons d rest ihl =>
              intro st hsh hl
              have hstep : cacheOf (resetF f st d) j = cacheOf st j := by
                apply ih
                intro hr
                exact hl d (List.mem_cons_self d rest)
                  (depReach_congr (hsh.symm ▸ rfl : shape st = shape s) hr)
              simp only [List.foldl_cons]
              rw [ihl (resetF f st d)
                ((resetF_sameSV f st d).1.trans hsh)
                (fun d' hd' => hl d' (List.mem_cons_of_mem d hd')), hstep]
          rw [hfold ds (s.set i ⟨Kind.expr none opp, ds⟩)
            (update_expr_cache h (none : Option α)).1
            hnr2]
          exact (update_expr_cache h (none : Option α)).2.2.2 j hji

theorem resetFold_cache_or (fuel : Nat) :
    ∀ (l : List Nat) (st : GState α) (j : Nat),
      cacheOf (l.foldl (resetF fuel) st) j = cacheOf st j ∨
      cacheOf (l.foldl (resetF fuel) st) j = none := by
  intro l
  induction l with
  | nil => intro st j; exact Or.inl rfl
  | cons d rest ihl =>
    intro st j
    rcases ihl (resetF fuel st d) j with h1 | h1 <;>
      rcases resetF_cache_or fuel st d j with h2 | h2 <;>
        simp only [List.foldl_cons] <;> rw [h1] <;> simp [h2]

theorem resetFold_none_mono (fuel : Nat) (l : List Nat) (st : GState α)
    (j : Nat) (h : cacheOf st j = none) :
    cacheOf (l.foldl (resetF fuel) st) j = none := by
  rcases resetFold_cache_or fuel l st j with h1 | h1
  · rw [h1, h]
  · exact h1

/-- reset_cache clears the cache of every node reachable from its start along
dependents edges, given enough fuel.  In a well-formed graph dependents point
strictly upwards, so fuel + start covering the arena size suffices. -/
theorem resetF_clears :
    ∀ (fuel : Nat) (s : GState α) (i j : Nat), DepsAbove s → CoWired s →
      s.length ≤ fuel + i → IsExpr s i → DepReach s i j →
      cacheOf (resetF fuel s i) j = none := by
  intro fuel
  induction fuel with
  | zero =>
    intro s i j _ _ hlen he _
    obtain ⟨c, opp, ds, h⟩ := he
    exact absurd (lt_length_of_getElem?_eq_some h)
      (Nat.not_lt.mpr (by simpa using hlen))
  | succ f ih =>
    intro s i j hda hcw hlen he hr
    obtain ⟨c, opp, ds, h⟩ := he
    show cacheOf (resetF (f + 1) s i) j = none
    unfold resetF
    rw [h]
    have hup := update_expr_cache h (none : Option α)
    have hsh : shape (s.set i ⟨Kind.expr none opp, ds⟩) = shape s := hup.1
    have hds : depsOf s i = ds := by unfold depsOf; rw [h]
    have hfold :
        ∀ (l : List Nat) (st : GState α), shape st = shape s →
          (∀ e ∈ l, e ∈ depsOf s i) →
          ((∃ d ∈ l, DepReach st d j) ∨ cacheOf st j = none) →
          cacheOf (l.foldl (resetF f) st) j = none := by
      intro l
      induction l with
      | nil =>
        intro st _ _ hw
        rcases hw with ⟨d, hd, _⟩ | hw
        · exact absurd hd (List.not_mem_nil d)
        · exact hw
      | cons d rest ihl =>
        intro st hshst hmem hw
        simp only [List.foldl_cons]
        have hmem' : ∀ e ∈ rest, e ∈ depsOf s i :=
          fun e he => hmem e (List.mem_cons_of_mem d he)
        have hdmem : d ∈ depsOf s i := hmem d (List.mem_cons_self d rest)
        have hshd : shape (resetF f st d) = shape s :=
          (resetF_sameSV f st d).1.trans hshst
        rcases hw with ⟨d', hd', hrd⟩ | hw
        · rcases List.mem_cons.mp hd' with hdd | hdrest
          · have hstep : cacheOf (resetF f st d) j = none := by
              apply ih st d j (depsAbove_congr hshst.symm hda)
                (coWired_congr hshst.symm hcw)
              · rw [length_congr hshst]
                have hid : i < d := (hda i d hdmem).1
                omega
              · exact isExpr_congr hshst.symm
                  (isExpr_of_mem_opsOfIdx (hcw i d hdmem))
              · exact hdd ▸ hrd
            exact ihl (resetF f st d) hshd hmem' (Or.inr hstep)
          · refine ihl (resetF f st d) hshd hmem' (Or.inl ⟨d', hdrest, ?_⟩)
            exact depReach_congr (resetF_sameSV f st d).1.symm hrd
        · refine ihl (resetF f st d) hshd hmem' (Or.inr ?_)
          rcases resetF_cache_or f st d j with h1 | h1
          · rw [h1]; exact hw
          · exact h1
    cases hr with
    | refl =>
      exact hfold ds (s.set i ⟨Kind.expr none opp, ds⟩) hsh
        (fun e he => hds ▸ he) (Or.inr hup.2.2.1)
    | head hd hr' =>
      rename_i d
      refine hfold ds (s.set i ⟨Kind.expr none opp, ds⟩) hsh
        (fun e he => hds ▸ he) (Or.inl ⟨d, hds ▸ hd, ?_⟩)
      exact depReach_congr hsh.symm hr'

theorem resetFold_clears (fuel : Nat) :
    ∀ (l : List Nat) (st : GState α) (j : Nat), DepsAbove st → CoWired st →
      (∃ d ∈ l, st.length ≤ fuel + d ∧ IsExpr st d ∧ DepReach st d j) →
      cacheOf (l.foldl (resetF fuel) st) j = none := by
  intro l
  induction l with
  | nil =>
    intro st j _ _ hex
    obtain ⟨d, hd, _⟩ := hex
    exact absurd hd (List.not_mem_nil d)
  | cons d rest ihl =>
    intro st j hda hcw hex
    simp only [List.foldl_cons]
    have hsh : shape (resetF fuel st d) = shape st := (resetF_sameSV fuel st d).1
    obtain ⟨d', hd', hlen', hex', hr'⟩ := hex
    rcases List.mem_cons.mp hd' with hdd | hdrest
    · subst hdd
      exact resetFold_none_mono fuel rest _ j
        (resetF_clears fuel st d' j hda hcw hlen' hex' hr')
    · apply ihl (resetF fuel st d) j (depsAbove_congr hsh.symm hda)
        (coWired_congr hsh.symm hcw)
      exact ⟨d', hdrest, by rw [length_congr hsh]; exact hlen',
        isExpr_congr hsh.symm hex', depReach_congr hsh.symm hr'⟩

theorem resetFold_untouched (fuel : Nat) :
    ∀ (l : List Nat) (st : GState α) (j : Nat),
      (∀ d ∈ l, ¬ DepReach st d j) →
      cacheOf (l.foldl (resetF fuel) st) j = cacheOf st j := by
  intro l
  induction l with
  | nil => intro st j _; rfl
  | cons d rest ihl =>
    intro st j hl
    simp only [List.foldl_cons]
    have hsh : shape (resetF fuel st d) = shape st := (resetF_sameSV fuel st d).1
    rw [ihl (resetF fuel st d) j
      (fun d' hd' hr => hl d' (List.mem_cons_of_mem d hd') (depReach_congr hsh hr))]
    exact resetF_untouched fuel st d j (hl d (List.mem_cons_self d rest))

/-- set(v) on a leaf clears the cache of every node that reaches the leaf
through operand edges. -/
theorem setF_clears {s : GState α} (hw : WFS s) {L N : Nat}
    (hL : IsInput s L) (hr : OpReach s N L) (fuel : Nat)
    (hfuel : s.length ≤ fuel) (v : α) : cacheOf (setF fuel s L v) N = none := by
  obtain ⟨v0, ds, h⟩ := hL
  unfold setF
  rw [h]
  have hup := update_input_val h v
  have hsh : shape (s.set L ⟨Kind.input v, ds⟩) = shape s := hup.1
  have hdr : DepReach s L N := opReach_rev hw.2.2.1 hr
  have hds : depsOf s L = ds := by unfold depsOf; rw [h]
  cases hdr with
  | refl =>
    apply resetFold_none_mono
    rw [hup.2.2.2 L]
    exact cacheOf_eq_none_of_isInput ⟨v0, ds, h⟩
  | head hd hr' =>
    rename_i d
    apply resetFold_clears fuel ds _ N
      (depsAbove_congr hsh.symm hw.2.1) (coWired_congr hsh.symm hw.2.2.2)
    refine ⟨d, hds ▸ hd, ?_, ?_, ?_⟩
    · rw [length_congr hsh]; omega
    · exact isExpr_congr hsh.symm
        (isExpr_of_mem_opsOfIdx (hw.2.2.2 L d hd))
    · exact depReach_congr hsh.symm hr'

/-- set(v) on a leaf does not touch the cache of any node that does not reach
the leaf through operand edges. -/
theorem setF_untouched {s : GState α} (hc : CoWired s) {L N : Nat}
    (hnr : ¬ OpReach s N L) (fuel : Nat) (v : α) :
    cacheOf (setF fuel s L v) N = cacheOf s N := by
  unfold setF
  cases h : s[L]? with
  | none => rfl
  | some nd =>
    cases nd with
    | mk k ds =>
      cases k with
      | expr c opp => rfl
      | input w =>
        have hup := update_input_val h v
        have hsh : shape (s.set L ⟨Kind.input v, ds⟩) = shape s := hup.1
        have hds : depsOf s L = ds := by unfold depsOf; rw [h]
        rw [resetFold_untouched fuel ds _ N ?_, hup.2.2.2 N]
        intro d hd hrd
        have hrd' : DepReach s d N := depReach_congr hsh hrd
        have h1 : OpReach s N d := depReach_rev hc hrd'
        have h2 : OpReach s d L :=
          OpReach.head (hc L d (hds ▸ hd)) (OpReach.refl L)
        exact hnr (opReach_trans h1 h2)

/-- Effect of registering a new dependent n with every node of js: each node
keeps its kind and gets one copy of n appended per occurrence in js. -/
theorem fold_addDep_spec (n : Nat) :
    ∀ (js : List Nat) (s : GState α) (i : Nat),
      (js.foldl (fun st j => addDep st j n) s)[i]? =
        (s[i]?).map (fun nd => ⟨nd.kind, nd.deps ++ List.replicate (js.count i) n⟩) := by
  intro js
  induction js with
  | nil =>
    intro s i
    cases h : s[i]? with
    | none => simp [h]
    | some nd => simp [h]
  | cons j js ih =>
    intro s i
    simp only [List.foldl_cons]
    rw [ih (addDep s j n) i]
    unfold addDep
    cases hj : s[j]? with
    | none =>
      by_cases hji : j = i
      · subst hji
        rw [hj]
        simp
      · rw [List.count_cons]
        simp [hji]
    | some nd =>
      have hjlen := lt_length_of_getElem?_eq_some hj
      rw [List.getElem?_set]
      by_cases hji : j = i
      · subst hji
        rw [if_pos rfl, if_pos hjlen, hj, List.count_cons]
        simp only [Option.map_some']
        simp [← List.replicate_succ, ← List.replicate_succ', List.append_assoc]
      · rw [if_neg hji, List.count_cons]
        simp [hji]

theorem fold_addDep_length (n : Nat) :
    ∀ (js : List Nat) (s : GState α),
      (js.foldl (fun st j => addDep st j n) s).length = s.length := by
  intro js
  induction js with
  | nil => intro s; rfl
  | cons j js ih =>
    intro s
    simp only [List.foldl_cons]
    rw [ih (addDep s j n)]
    unfold addDep
    cases hj : s[j]? with
    | none => rfl
    | some nd => exact List.length_set ..

theorem length_buildStep (s : GState α) (c : Ctor α) :
    (buildStep s c).length = s.length + 1 := by
  unfold buildStep
  rw [fold_addDep_length]
  simp

theorem opOperands_ctorKind (c : Ctor α) :
    (match ctorKind c with
      | Kind.input _ => []
      | Kind.expr _ opp => opOperands opp) = ctorOperands c := by
  cases c <;> rfl

/-- Lookup in a freshly built step, old index. -/
theorem buildStep_getElem?_old {s : GState α} {c : Ctor α} {i : Nat}
    (hi : i < s.length) :
    (buildStep s c)[i]? = (s[i]?).map
      (fun nd => ⟨nd.kind, nd.deps ++
        List.replicate ((ctorOperands c).count i) s.length⟩) := by
  unfold buildStep
  rw [fold_addDep_spec]
  rw [List.getElem?_append]
  simp [hi]

/-- Lookup in a freshly built step, the new node. -/
theorem buildStep_getElem?_new (s : GState α) (c : Ctor α) :
    (buildStep s c)[s.length]? = some ⟨ctorKind c,
      List.replicate ((ctorOperands c).count s.length) s.length⟩ := by
  unfold buildStep
  rw [fold_addDep_spec]
  rw [List.getElem?_append]
  simp

/-- Lookup in a freshly built step, out of range. -/
theorem buildStep_getElem?_big {s : GState α} {c : Ctor α} {i : Nat}
    (hi : s.length + 1 ≤ i) : (buildStep s c)[i]? = none := by
  apply List.getElem?_eq_none
  rw [length_buildStep]
  exact hi

theorem depsOf_buildStep_old {s : GState α} {c : Ctor α} {i : Nat}
    (hi : i < s.length) :
    depsOf (buildStep s c) i =
      depsOf s i ++ List.replicate ((ctorOperands c).count i) s.length := by
  unfold depsOf
  rw [buildStep_getElem?_old hi]
  cases h : s[i]? with
  | none => exact absurd h (by simp [List.getElem?_eq_getElem hi])
  | some nd => simp

theorem depsOf_buildStep_new (s : GState α) (c : Ctor α) :
    depsOf (buildStep s c) s.length =
      List.replicate ((ctorOperands c).count s.length) s.length := by
  unfold depsOf
  rw [buildStep_getElem?_new]

theorem opsOfIdx_buildStep_old {s : GState α} {c : Ctor α} {i : Nat}
    (hi : i < s.length) : opsOfIdx (buildStep s c) i = opsOfIdx s i := by
  unfold opsOfIdx
  rw [buildStep_getElem?_old hi]
  cases h : s[i]? with
  | none => rfl
  | some nd =>
    cases nd with
    | mk k ds => cases k <;> rfl

theorem opsOfIdx_buildStep_new (s : GState α) (c : Ctor α) :
    opsOfIdx (buildStep s c) s.length = ctorOperands c := by
  unfold opsOfIdx
  rw [buildStep_getElem?_new]
  rw [← opOperands_ctorKind c]
  cases hc : ctorKind c <;> rfl

theorem depsOf_big {s : GState α} {i : Nat} (hi : s.length ≤ i) :
    depsOf s i = [] := by
  unfold depsOf
  rw [List.getElem?_eq_none hi]

theorem opsOfIdx_big {s : GState α} {i : Nat} (hi : s.length ≤ i) :
    opsOfIdx s i = [] := by
  unfold opsOfIdx
  rw [List.getElem?_eq_none hi]

/-- One constructor call with in-range operands preserves well-formedness. -/
theorem buildStep_WFS {s : GState α} {c : Ctor α} (hw : WFS s)
    (hc : ∀ j ∈ ctorOperands c, j < s.length) : WFS (buildStep s c) := by
  obtain ⟨h1, h2, h3, h4⟩ := hw
  have hcnt0 : (ctorOperands c).count s.length = 0 :=
    List.count_eq_zero.mpr (fun hm => Nat.lt_irrefl _ (hc _ hm))
  refine ⟨?_, ?_, ?_, ?_⟩
  · intro i j hj
    rcases Nat.lt_trichotomy i s.length with hi | hi | hi
    · rw [opsOfIdx_buildStep_old hi] at hj
      exact h1 i j hj
    · subst hi
      rw [opsOfIdx_buildStep_new] at hj
      exact hc j hj
    · rw [opsOfIdx_big (by rw [length_buildStep]; omega)] at hj
      exact absurd hj (List.not_mem_nil j)
  · intro i d hd
    rw [length_buildStep]
    rcases Nat.lt_trichotomy i s.length with hi | hi | hi
    · rw [depsOf_buildStep_old hi] at hd
      rcases List.mem_append.mp hd with hold | hnew
      · have := h2 i d hold
        omega
      · have := List.eq_of_mem_replicate hnew
        omega
    · subst hi
      rw [depsOf_buildStep_new, hcnt0] at hd
      exact absurd hd (List.not_mem_nil d)
    · rw [depsOf_big (by rw [length_buildStep]; omega)] at hd
      exact absurd hd (List.not_mem_nil d)
  · intro i j hj
    rcases Nat.lt_trichotomy i s.length with hi | hi | hi
    · rw [opsOfIdx_buildStep_old hi] at hj
      have hji : j < i := h1 i j hj
      rw [depsOf_buildStep_old (by omega)]
      exact List.mem_append_left _ (h3 i j hj)
    · subst hi
      rw [opsOfIdx_buildStep_new] at hj
      rw [depsOf_buildStep_old (hc j hj)]
      apply List.mem_append_right
      exact List.mem_replicate.mpr
        ⟨fun h0 => (List.count_eq_zero.mp h0) hj, rfl⟩
    · rw [opsOfIdx_big (by rw [length_buildStep]; omega)] at hj
      exact absurd hj (List.not_mem_nil j)
  · intro i d hd
    rcases Nat.lt_trichotomy i s.length with hi | hi | hi
    · rw [depsOf_buildStep_old hi] at hd
      rcases List.mem_append.mp hd with hold | hnew
      · have hdlen : d < s.length := (h2 i d hold).2
        rw [opsOfIdx_buildStep_old hdlen]
        exact h4 i d hold
      · have hdeq : d = s.length := List.eq_of_mem_replicate hnew
        subst hdeq
        rw [opsOfIdx_buildStep_new]
        by_contra hmem
        rw [List.count_eq_zero.mpr hmem] at hnew
        exact absurd hnew (by simp)
    · subst hi
      rw [depsOf_buildStep_new, hcnt0] at hd
      exact absurd hd (List.not_mem_nil d)
    · rw [depsOf_big (by rw [length_buildStep]; omega)] at hd
      exact absurd hd (List.not_mem_nil d)

/-- Any graph built by a valid construction program is well-formed. -/
theorem buildFold_WFS :
    ∀ (p : List (Ctor α)) (s : GState α), validProgB s.length p = true →
      WFS s → WFS (p.foldl buildStep s) := by
  intro p
  induction p with
  | nil => intro s _ hw; exact hw
  | cons c p ih =>
    intro s hv hw
    simp only [validProgB, Bool.and_eq_true] at hv
    simp only [List.foldl_cons]
    have hops : ∀ j ∈ ctorOperands c, j < s.length := by
      intro j hj
      have := List.all_eq_true.mp hv.1 j hj
      simpa using this
    apply ih (buildStep s c)
    · rw [length_buildStep]; exact hv.2
    · exact buildStep_WFS hw hops

theorem build_WFS {p : List (Ctor α)} (hv : validProgB 0 p = true) :
    WFS (build p) := by
  apply buildFold_WFS p [] hv
  exact ⟨fun i j hj => absurd hj (by rw [opsOfIdx_big (by simp)]; simp),
    fun i d hd => absurd hd (by rw [depsOf_big (by simp)]; simp),
    fun i j hj => absurd hj (by rw [opsOfIdx_big (by simp)]; simp),
    fun i d hd => absurd hd (by rw [depsOf_big (by simp)]; simp)⟩

theorem cacheOf_buildStep (s : GState α) (c : Ctor α) (i : Nat) :
    cacheOf (buildStep s c) i = cacheOf s i ∨
    cacheOf (buildStep s c) i = none := by
  rcases Nat.lt_trichotomy i s.length with hi | hi | hi
  · left
    unfold cacheOf
    rw [buildStep_getElem?_old hi]
    cases h : s[i]? with
    | none => rfl
    | some nd =>
      cases nd with
      | mk k ds => cases k <;> rfl
  · right
    subst hi
    unfold cacheOf
    rw [buildStep_getElem?_new]
    cases c <;> rfl
  · right
    unfold cacheOf
    rw [buildStep_getElem?_big (by omega)]

/-- Construction never installs a cache: the built graph is fully uncached. -/
theorem build_cache_none (p : List (Ctor α)) (i : Nat) :
    cacheOf (build p) i = none := by
  suffices h : ∀ (q : List (Ctor α)) (s : GState α),
      (∀ j, cacheOf s j = none) → ∀ j, cacheOf (q.foldl buildStep s) j = none by
    exact h p [] (fun j => rfl) i
  intro q
  induction q with
  | nil => intro s hs j; exact hs j
  | cons c q ih =>
    intro s hs j
    simp only [List.foldl_cons]
    apply ih (buildStep s c)
    intro j'
    rcases cacheOf_buildStep s c j' with h1 | h1
    · rw [h1]; exact hs j'
    · exact h1

theorem stepAct_shape (S : ScalarOps α) (s : GState α) (a : Act α) :
    shape (stepAct S s a) = shape s := by
  cases a with
  | compute i => exact (computeF_sameSV S (s.length + 1) s i).1
  | set i v => exact (setF_spec s.length s i v).1

theorem runActs_shape (S : ScalarOps α) (s : GState α) (acts : List (Act α)) :
    shape (runActs S s acts) = shape s := by
  induction acts generalizing s with
  | nil => rfl
  | cons a acts ih =>
    show shape (runActs S (stepAct S s a) acts) = shape s
    rw [ih (stepAct S s a), stepAct_shape]

theorem runActs_WFS (S : ScalarOps α) {s : GState α} (hw : WFS s)
    (acts : List (Act α)) : WFS (runActs S s acts) :=
  wfs_congr (runActs_shape S s acts).symm hw

theorem opsBelow_congr {s s' : GState α} (h : shape s = shape s')
    (hw : OpsBelow s) : OpsBelow s' := by
  intro i j hj
  exact hw i j (by rwa [opsOfIdx_congr h])

theorem opsOfIdx_expr {s : GState α} {i : Nat} {c : Option α} {opp : Op α}
    {ds : List Nat} (h : s[i]? = some ⟨Kind.expr c opp, ds⟩) :
    opsOfIdx s i = opOperands opp := by
  unfold opsOfIdx
  rw [h]

/-- The denotation does not depend on the fuel, as long as the fuel exceeds
the node index (operands point strictly downwards). -/
theorem denoteF_irrel (S : ScalarOps α) :
    ∀ (fuel : Nat) (s : GState α) (i f' : Nat), OpsBelow s → i < fuel →
      i < f' → denoteF S fuel s i = denoteF S f' s i := by
  intro fuel
  induction fuel with
  | zero => intro s i f' _ hi _; exact absurd hi (Nat.not_lt_zero i)
  | succ f ih =>
    intro s i f' hob hi hif'
    cases f' with
    | zero => exact absurd hif' (Nat.not_lt_zero i)
    | succ f2 =>
      show denoteF S (f + 1) s i = denoteF S (f2 + 1) s i
      unfold denoteF
      cases h : s[i]? with
      | none => rfl
      | some nd =>
        cases nd with
        | mk k ds =>
          cases k with
          | input v => rfl
          | expr c opp =>
            have hops : ∀ x ∈ opOperands opp, x < i := by
              intro x hx
              exact hob i x (by rwa [opsOfIdx_expr h])
            have hrec : ∀ x ∈ opOperands opp,
                denoteF S f s x = denoteF S f2 s x := by
              intro x hx
              have hxi := hops x hx
              exact ih s x f2 hob (by omega) (by omega)
            cases opp with
            | add x y =>
              show S.add (denoteF S f s x) (denoteF S f s y) =
                S.add (denoteF S f2 s x) (denoteF S f2 s y)
              rw [hrec x (by simp [opOperands]), hrec y (by simp [opOperands])]
            | addVar args =>
              show args.foldl (fun acc a => S.add acc (denoteF S f s a)) S.zero =
                args.foldl (fun acc a => S.add acc (denoteF S f2 s a)) S.zero
              apply List.foldl_ext
              intro acc a ha
              rw [hrec a ha]
            | sub x y =>
              show S.sub (denoteF S f s x) (denoteF S f s y) =
                S.sub (denoteF S f2 s x) (denoteF S f2 s y)
              rw [hrec x (by simp [opOperands]), hrec y (by simp [opOperands])]
            | mul x y =>
              show S.mul (denoteF S f s x) (denoteF S f s y) =
                S.mul (denoteF S f2 s x) (denoteF S f2 s y)
              rw [hrec x (by simp [opOperands]), hrec y (by simp [opOperands])]
            | pow x e =>
              show S.powf (denoteF S f s x) e = S.powf (denoteF S f2 s x) e
              rw [hrec x (by simp [opOperands])]
            | sin x =>
              show S.sinf (denoteF S f s x) = S.sinf (denoteF S f2 s x)
              rw [hrec x (by simp [opOperands])]

theorem denote_input {s : GState α} {i : Nat} {v : α} {ds : List Nat}
    (h : s[i]? = some ⟨Kind.input v, ds⟩) (S : ScalarOps α) :
    denote S s i = v := by
  unfold denote denoteF
  rw [h]

theorem denote_none {s : GState α} {i : Nat} (h : s[i]? = none)
    (S : ScalarOps α) : denote S s i = S.zero := by
  unfold denote denoteF
  rw [h]

/-- On an expression node the denotation unfolds to the operation applied to
the denotations of the operands. -/
theorem denote_expr {s : GState α} {i : Nat} {c : Option α} {opp : Op α}
    {ds : List Nat} (S : ScalarOps α) (hob : OpsBelow s)
    (h : s[i]? = some ⟨Kind.expr c opp, ds⟩) :
    denote S s i = opDenote S s opp := by
  have hops : ∀ x ∈ opOperands opp, x < i := by
    intro x hx
    exact hob i x (by rwa [opsOfIdx_expr h])
  show denoteF S (i + 1) s i = _
  unfold denoteF
  rw [h]
  have hrec : ∀ x ∈ opOperands opp, denoteF S i s x = denote S s x := by
    intro x hx
    exact denoteF_irrel S i s x (x + 1) hob (hops x hx) (Nat.lt_succ_self x)
  cases opp with
  | add x y =>
    show S.add (denoteF S i s x) (denoteF S i s y) = _
    rw [hrec x (by simp [opOperands]), hrec y (by simp [opOperands])]
    rfl
  | addVar args =>
    show args.foldl (fun acc a => S.add acc (denoteF S i s a)) S.zero = _
    unfold opDenote
    apply List.foldl_ext
    intro acc a ha
    rw [hrec a ha]
  | sub x y =>
    show S.sub (denoteF S i s x) (denoteF S i s y) = _
    rw [hrec x (by simp [opOperands]), hrec y (by simp [opOperands])]
    rfl
  | mul x y =>
    show S.mul (denoteF S i s x) (denoteF S i s y) = _
    rw [hrec x (by simp [opOperands]), hrec y (by simp [opOperands])]
    rfl
  | pow x e =>
    show S.powf (denoteF S i s x) e = _
    rw [hrec x (by simp [opOperands])]
    rfl
  | sin x =>
    show S.sinf (denoteF S i s x) = _
    rw [hrec x (by simp [opOperands])]
    rfl

theorem shape_entry_none {s s' : GState α} (hsh : shape s = shape s') {i : Nat}
    (h : s[i]? = none) : s'[i]? = none := by
  have h1 : (shape s')[i]? = none := by rw [← hsh, getElem?_shape, h]; rfl
  rw [getElem?_shape] at h1
  exact Option.map_eq_none'.mp h1

theorem shape_entry_expr {s s' : GState α} (hsh : shape s = shape s') {i : Nat}
    {c : Option α} {opp : Op α} {ds : List Nat}
    (h : s[i]? = some ⟨Kind.expr c opp, ds⟩) :
    ∃ c', s'[i]? = some ⟨Kind.expr c' opp, ds⟩ := by
  have h1 : (shape s')[i]? = some (ds, some opp) := by
    rw [← hsh, getElem?_shape, h]; rfl
  rw [getElem?_shape] at h1
  cases h2 : s'[i]? with
  | none => rw [h2] at h1; exact Option.noConfusion h1
  | some nd =>
    rw [h2] at h1
    cases nd with
    | mk k ds' =>
      cases k with
      | input v => simp at h1
      | expr c' opp' =>
        simp at h1
        obtain ⟨hds, hopp⟩ := h1
        subst hds; subst hopp
        exact ⟨c', rfl⟩

theorem shape_entry_input {s s' : GState α} (hsh : shape s = shape s') {i : Nat}
    {v : α} {ds : List Nat} (h : s[i]? = some ⟨Kind.input v, ds⟩) :
    ∃ w, s'[i]? = some ⟨Kind.input w, ds⟩ := by
  have h1 : (shape s')[i]? = some (ds, none) := by
    rw [← hsh, getElem?_shape, h]; rfl
  rw [getElem?_shape] at h1
  cases h2 : s'[i]? with
  | none => rw [h2] at h1; exact Option.noConfusion h1
  | some nd =>
    rw [h2] at h1
    cases nd with
    | mk k ds' =>
      cases k with
      | expr c' opp' => simp at h1
      | input w =>
        simp at h1
        subst h1
        exact ⟨w, rfl⟩

/-- The denotation of node i only depends on the structure and on the leaf
values inside the operand closure of i. -/
theorem denoteF_congr (S : ScalarOps α) :
    ∀ (fuel : Nat) (s s' : GState α) (i : Nat), shape s = shape s' →
      (∀ j, OpReach s i j → valOf s j = valOf s' j) →
      denoteF S fuel s i = denoteF S fuel s' i := by
  intro fuel
  induction fuel with
  | zero => intro s s' i _ _; rfl
  | succ f ih =>
    intro s s' i hsh hvals
    show denoteF S (f + 1) s i = denoteF S (f + 1) s' i
    cases h : s[i]? with
    | none =>
      unfold denoteF
      rw [h, shape_entry_none hsh h]
    | some nd =>
      cases nd with
      | mk k ds =>
        cases k with
        | input v =>
          obtain ⟨w, h'⟩ := shape_entry_input hsh h
          have hv : valOf s i = valOf s' i := hvals i (OpReach.refl i)
          unfold valOf at hv
          rw [h, h'] at hv
          simp at hv
          unfold denoteF
          rw [h, h', hv]
        | expr c opp =>
          obtain ⟨c', h'⟩ := shape_entry_expr hsh h
          have hrec : ∀ x ∈ opOperands opp,
              denoteF S f s x = denoteF S f s' x := by
            intro x hx
            apply ih s s' x hsh
            intro j hj
            exact hvals j (OpReach.head (by rwa [opsOfIdx_expr h]) hj)
          unfold denoteF
          rw [h, h']
          cases opp with
          | add x y =>
            show S.add (denoteF S f s x) (denoteF S f s y) =
              S.add (denoteF S f s' x) (denoteF S f s' y)
            rw [hrec x (by simp [opOperands]), hrec y (by simp [opOperands])]
          | addVar args =>
            show args.foldl (fun acc a => S.add acc (denoteF S f s a)) S.zero =
              args.foldl (fun acc a => S.add acc (denoteF S f s' a)) S.zero
            apply List.foldl_ext
            intro acc a ha
            rw [hrec a ha]
          | sub x y =>
            show S.sub (denoteF S f s x) (denoteF S f s y) =
              S.sub (denoteF S f s' x) (denoteF S f s' y)
            rw [hrec x (by simp [opOperands]), hrec y (by simp [opOperands])]
          | mul x y =>
            show S.mul (denoteF S f s x) (denoteF S f s y) =
              S.mul (denoteF S f s' x) (denoteF S f s' y)
            rw [hrec x (by simp [opOperands]), hrec y (by simp [opOperands])]
          | pow x e =>
            show S.powf (denoteF S f s x) e = S.powf (denoteF S f s' x) e
            rw [hrec x (by simp [opOperands])]
          | sin x =>
            show S.sinf (denoteF S f s x) = S.sinf (denoteF S f s' x)
            rw [hrec x (by simp [opOperands])]

/-- The denotation is untouched by cache movement. -/
theorem denote_sameSV (S : ScalarOps α) {s s' : GState α} (h : SameSV s s')
    (i : Nat) : denote S s i = denote S s' i :=
  denoteF_congr S (i + 1) s s' i h.1 (fun j _ => h.2 j)

/-- Transport of the cache coherence invariant along a computation that only
moves caches, and only to values that agree with the denotation. -/
theorem cacheInv_of_or (S : ScalarOps α) {s s' : GState α} (hsv : SameSV s' s)
    (hinv : CacheInv S s)
    (hor : ∀ j, cacheOf s' j = cacheOf s j ∨
      cacheOf s' j = some (denote S s j)) : CacheInv S s' := by
  intro j v hj
  rcases hor j with h1 | h1
  · rw [hj] at h1
    rw [denote_sameSV S hsv j]
    exact hinv j v h1.symm
  · rw [hj] at h1
    rw [denote_sameSV S hsv j]
    exact Option.some_inj.mp h1

theorem orCache_trans (S : ScalarOps α) {s s1 s2 : GState α}
    (hsv1 : SameSV s1 s)
    (h1 : ∀ j, cacheOf s1 j = cacheOf s j ∨ cacheOf s1 j = some (denote S s j))
    (h2 : ∀ j, cacheOf s2 j = cacheOf s1 j ∨
      cacheOf s2 j = some (denote S s1 j)) :
    ∀ j, cacheOf s2 j = cacheOf s j ∨ cacheOf s2 j = some (denote S s j) := by
  intro j
  rcases h2 j with ha | ha
  · rcases h1 j with hb | hb
    · exact Or.inl (ha.trans hb)
    · exact Or.inr (ha.trans hb)
  · exact Or.inr (ha.trans (by rw [denote_sameSV S hsv1 j]))

/-- Main functional correctness of compute(): on a coherent graph it returns
the denotation of the node, and every cache it writes holds the denotation of
its own node.  This holds although compute() recomputes eagerly under a
present cache: the recomputed value coincides with the coherent cache. -/
theorem computeF_correct (S : ScalarOps α) :
    ∀ (fuel : Nat) (s : GState α) (i : Nat), OpsBelow s → CacheInv S s →
      i < fuel →
      (computeF S fuel s i).2 = denote S s i ∧
      (∀ j, cacheOf (computeF S fuel s i).1 j = cacheOf s j ∨
        cacheOf (computeF S fuel s i).1 j = some (denote S s j)) := by
  intro fuel
  induction fuel with
  | zero => intro s i _ _ hi; exact absurd hi (Nat.not_lt_zero i)
  | succ f ih =>
    intro s i hob hinv hi
    cases h : s[i]? with
    | none =>
      rw [computeF_succ_none S f h]
      exact ⟨(denote_none h S).symm, fun j => Or.inl rfl⟩
    | some nd =>
      cases nd with
      | mk k ds =>
        cases k with
        | input v =>
          rw [computeF_succ_input S f h]
          exact ⟨(denote_input h S).symm, fun j => Or.inl rfl⟩
        | expr c opp =>
          rw [computeF_succ_expr S f h]
          have hops : ∀ x ∈ opOperands opp, x < i := by
            intro x hx
            exact hob i x (by rwa [opsOfIdx_expr h])
          have hopc :
              (opComputeF S f s opp).2 = opDenote S s opp ∧
              (∀ j, cacheOf (opComputeF S f s opp).1 j = cacheOf s j ∨
                cacheOf (opComputeF S f s opp).1 j = some (denote S s j)) := by
            cases opp with
            | add x y =>
              have hx : x < f := by have := hops x (by simp [opOperands]); omega
              have hy : y < f := by have := hops y (by simp [opOperands]); omega
              have h1 := ih s x hob hinv hx
              have hsv1 : SameSV (computeF S f s x).1 s := computeF_sameSV S f s x
              have h2 := ih (computeF S f s x).1 y
                (opsBelow_congr hsv1.1.symm hob)
                (cacheInv_of_or S hsv1 hinv h1.2) hy
              constructor
              · show S.add (computeF S f s x).2
                  (computeF S f (computeF S f s x).1 y).2 = _
                rw [h1.1, h2.1, denote_sameSV S hsv1 y]
                rfl
              · exact orCache_trans S hsv1 h1.2 h2.2
            | addVar args =>
              have hfold : ∀ (l : List Nat), (∀ a ∈ l, a < f) →
                  ∀ (s0 : GState α) (acc : α), SameSV s0 s → CacheInv S s0 →
                  (∀ j, cacheOf s0 j = cacheOf s j ∨
                    cacheOf s0 j = some (denote S s j)) →
                  (l.foldl (addStepF S f) (s0, acc)).2 =
                    l.foldl (fun ac a => S.add ac (denote S s a)) acc ∧
                  SameSV (l.foldl (addStepF S f) (s0, acc)).1 s ∧
                  (∀ j, cacheOf (l.foldl (addStepF S f) (s0, acc)).1 j =
                      cacheOf s j ∨
                    cacheOf (l.foldl (addStepF S f) (s0, acc)).1 j =
                      some (denote S s j)) := by
                intro l
                induction l with
                | nil =>
                  intro _ s0 acc hsv0 _ hor0
                  exact ⟨rfl, hsv0, hor0⟩
                | cons a rest ihl =>
                  intro hlt s0 acc hsv0 hinv0 hor0
                  simp only [List.foldl_cons, addStepF]
                  have ha := ih s0 a (opsBelow_congr hsv0.1.symm hob) hinv0
                    (hlt a (List.mem_cons_self a rest))
                  have hsva : SameSV (computeF S f s0 a).1 s :=
                    sameSV_trans (computeF_sameSV S f s0 a) hsv0
                  have hora := orCache_trans S hsv0 hor0 ha.2
                  have hinva : CacheInv S (computeF S f s0 a).1 :=
                    cacheInv_of_or S (computeF_sameSV S f s0 a) hinv0 ha.2
                  have hrest := ihl (fun a' ha' => hlt a' (List.mem_cons_of_mem a ha'))
                    (computeF S f s0 a).1 (S.add acc (computeF S f s0 a).2)
                    hsva hinva hora
                  refine ⟨?_, hrest.2.1, hrest.2.2⟩
                  rw [hrest.1, ha.1, denote_sameSV S hsv0 a]
              have hlt : ∀ a ∈ args, a < f := by
                intro a ha
                have := hops a ha
                omega
              have := hfold args hlt s S.zero (sameSV_refl s) hinv
                (fun j => Or.inl rfl)
              exact ⟨this.1, this.2.2⟩
            | sub x y =>
              have hx : x < f := by have := hops x (by simp [opOperands]); omega
              have hy : y < f := by have := hops y (by simp [opOperands]); omega
              have h1 := ih s x hob hinv hx
              have hsv1 : SameSV (computeF S f s x).1 s := computeF_sameSV S f s x
              have h2 := ih (computeF S f s x).1 y
                (opsBelow_congr hsv1.1.symm hob)
                (cacheInv_of_or S hsv1 hinv h1.2) hy
              constructor
              · show S.sub (computeF S f s x).2
                  (computeF S f (computeF S f s x).1 y).2 = _
                rw [h1.1, h2.1, denote_sameSV S hsv1 y]
                rfl
              · exact orCache_trans S hsv1 h1.2 h2.2
            | mul x y =>
              have hx : x < f := by have := hops x (by simp [opOperands]); omega
              have hy : y < f := by have := hops y (by simp [opOperands]); omega
              have h1 := ih s x hob hinv hx
              have hsv1 : SameSV (computeF S f s x).1 s := computeF_sameSV S f s x
              have h2 := ih (computeF S f s x).1 y
                (opsBelow_congr hsv1.1.symm hob)
                (cacheInv_of_or S hsv1 hinv h1.2) hy
              constructor
              · show S.mul (computeF S f s x).2
                  (computeF S f (computeF S f s x).1 y).2 = _
                rw [h1.1, h2.1, denote_sameSV S hsv1 y]
                rfl
              · exact orCache_trans S hsv1 h1.2 h2.2
            | pow x e =>
              have hx : x < f := by have := hops x (by simp [opOperands]); omega
              have h1 := ih s x hob hinv hx
              constructor
              · show S.powf (computeF S f s x).2 e = _
                rw [h1.1]
                rfl
              · exact h1.2
            | sin x =>
              have hx : x < f := by have := hops x (by simp [opOperands]); omega
              have h1 := ih s x hob hinv hx
              constructor
              · show S.sinf (computeF S f s x).2 = _
                rw [h1.1]
                rfl
              · exact h1.2
          have hsvp : SameSV (opComputeF S f s opp).1 s :=
            opComputeF_sameSV S f (fun s' i' => computeF_sameSV S f s' i') s opp
          constructor
          · show c.getD (opComputeF S f s opp).2 = denote S s i
            cases c with
            | none =>
              show (opComputeF S f s opp).2 = _
              rw [hopc.1, denote_expr S hob h]
            | some v =>
              show v = _
              exact hinv i v (by unfold cacheOf; rw [h])
          · intro j
            by_cases hji : j = i
            · subst hji
              obtain ⟨c2, hp⟩ := shape_entry_expr hsvp.1.symm h
              right
              rw [cacheOf_setCache_self hp, hopc.1, denote_expr S hob h]
            · rw [(setCache_spec (opComputeF S f s opp).1 i
                (some (opComputeF S f s opp).2)).2 j hji]
              exact hopc.2 j

/-- compute() preserves cache coherence. -/
theorem computeF_cacheInv (S : ScalarOps α) {s : GState α} (hob : OpsBelow s)
    (hinv : CacheInv S s) {fuel i : Nat} (hi : i < fuel) :
    CacheInv S (computeF S fuel s i).1 :=
  cacheInv_of_or S (computeF_sameSV S fuel s i) hinv
    (computeF_correct S fuel s i hob hinv hi).2

/-- set() preserves cache coherence: every cache whose denotation may have
changed is cleared, every other cache keeps its (still valid) value. -/
theorem setF_cacheInv (S : ScalarOps α) {s : GState α} (hw : WFS s)
    (hinv : CacheInv S s) {fuel : Nat} (hfuel : s.length ≤ fuel) (L : Nat)
    (v : α) : CacheInv S (setF fuel s L v) := by
  cases h : s[L]? with
  | none =>
    intro j u hj
    unfold setF at hj
    rw [h] at hj
    rw [show setF fuel s L v = s by unfold setF; rw [h]]
    exact hinv j u hj
  | some nd =>
    cases nd with
    | mk k ds =>
      cases k with
      | expr c opp =>
        intro j u hj
        unfold setF at hj
        rw [h] at hj
        rw [show setF fuel s L v = s by unfold setF; rw [h]]
        exact hinv j u hj
      | input w =>
        have hin : IsInput s L := ⟨w, ds, h⟩
        intro j u hj
        by_cases hreach : OpReach s j L
        · by_cases hjL : j = L
          · have hfin : IsInput (setF fuel s L v) L :=
              isInput_congr (setF_spec fuel s L v).1.symm hin
            rw [hjL, cacheOf_eq_none_of_isInput hfin] at hj
            exact Option.noConfusion hj
          · rw [setF_clears hw hin hreach fuel hfuel v] at hj
            exact Option.noConfusion hj
        · rw [setF_untouched hw.2.2.2 hreach fuel v] at hj
          have hu : u = denote S s j := hinv j u hj
          rw [hu]
          show denote S s j = denote S (setF fuel s L v) j
          apply denoteF_congr S (j + 1) s (setF fuel s L v) j
            (setF_spec fuel s L v).1.symm
          intro j' hj'
          by_cases hj'L : j' = L
          · subst hj'L
            exact absurd hj' hreach
          · exact ((setF_spec fuel s L v).2 j' hj'L).symm

/-- Every runtime call preserves cache coherence. -/
theorem stepAct_cacheInv (S : ScalarOps α) {s : GState α} (hw : WFS s)
    (hinv : CacheInv S s) (a : Act α) : CacheInv S (stepAct S s a) := by
  cases a with
  | compute i =>
    show CacheInv S (computeF S (s.length + 1) s i).1
    by_cases hi : i < s.length + 1
    · exact computeF_cacheInv S hw.1 hinv hi
    · rw [computeF_succ_none S s.length
        (List.getElem?_eq_none (by omega))]
      exact hinv
  | set i v => exact setF_cacheInv S hw hinv (Nat.le_refl s.length) i v

theorem runActs_cacheInv (S : ScalarOps α) :
    ∀ (acts : List (Act α)) (s : GState α), WFS s → CacheInv S s →
      CacheInv S (runActs S s acts) := by
  intro acts
  induction acts with
  | nil => intro s _ hinv; exact hinv
  | cons a acts ih =>
    intro s hw hinv
    show CacheInv S (runActs S (stepAct S s a) acts)
    exact ih (stepAct S s a)
      (wfs_congr (stepAct_shape S s a).symm hw)
      (stepAct_cacheInv S hw hinv a)

/-- A freshly built graph is coherent (all caches are empty). -/
theorem build_cacheInv (S : ScalarOps α) (p : List (Ctor α)) :
    CacheInv S (build p) := by
  intro i v h
  rw [build_cache_none p i] at h
  exact Option.noConfusion h

end Teza

namespace Teza.G

variable {α : Type} {S : Teza.ScalarOps α}

theorem lt_lengthG {s : St α} {i : Nat} {nd : GNode α}
    (h : s[i]? = some nd) : i < s.length := by
  by_contra hc
  rw [List.getElem?_eq_none (Nat.le_of_not_lt hc)] at h
  exact Option.noConfusion h

theorem length_shapeG (s : St α) : (shapeG s).length = s.length :=
  List.length_map ..

theorem getElem?_shapeG (s : St α) (i : Nat) :
    (shapeG s)[i]? = s[i]?.map (fun nd => (nd.deps, opsOperands nd.val,
      match nd.val with
      | Ops.input _ => true
      | _ => false)) :=
  List.getElem?_map ..

theorem depsOfG_eq_shapeG (s : St α) (i : Nat) :
    depsOf s i = ((shapeG s)[i]?.map Prod.fst).getD [] := by
  rw [getElem?_shapeG]
  unfold depsOf
  cases s[i]? with
  | none => rfl
  | some nd => rfl

theorem opsOfIdxG_eq_shapeG (s : St α) (i : Nat) :
    opsOfIdx s i = ((shapeG s)[i]?.map (fun q => q.2.1)).getD [] := by
  rw [getElem?_shapeG]
  unfold opsOfIdx
  cases s[i]? with
  | none => rfl
  | some nd => rfl

theorem length_congrG {s s' : St α} (h : shapeG s = shapeG s') :
    s.length = s'.length := by
  rw [← length_shapeG, h, length_shapeG]

theorem depsOfG_congr {s s' : St α} (h : shapeG s = shapeG s') (i : Nat) :
    depsOf s i = depsOf s' i := by
  rw [depsOfG_eq_shapeG, h, ← depsOfG_eq_shapeG]

theorem opsOfIdxG_congr {s s' : St α} (h : shapeG s = shapeG s') (i : Nat) :
    opsOfIdx s i = opsOfIdx s' i := by
  rw [opsOfIdxG_eq_shapeG, h, ← opsOfIdxG_eq_shapeG]

theorem depReachG_congr {s s' : St α} (h : shapeG s = shapeG s') {i j : Nat}
    (hr : DepReachG s i j) : DepReachG s' i j := by
  induction hr with
  | refl i => exact DepReachG.refl i
  | head hd _ ih => exact DepReachG.head (by rwa [← depsOfG_congr h]) ih

theorem depsAboveG_congr {s s' : St α} (h : shapeG s = shapeG s')
    (hw : DepsAboveG s) : DepsAboveG s' := by
  intro i d hd
  have := hw i d (by rwa [depsOfG_congr h])
  exact ⟨this.1, by rw [← length_congrG h]; exact this.2⟩

theorem coWiredG_congr {s s' : St α} (h : shapeG s = shapeG s')
    (hw : CoWiredG s) : CoWiredG s' := by
  intro i d hd
  rw [← opsOfIdxG_congr h]
  exact hw i d (by rwa [depsOfG_congr h])

theorem isInputG_shapeG {s : St α} {i : Nat} (hin : IsInputG s i) :
    ∃ q : List Nat × List Nat × Bool,
      (shapeG s)[i]? = some q ∧ q.2.2 = true := by
  obtain ⟨nd, h, w, hw⟩ := hin
  refine ⟨(nd.deps, opsOperands nd.val, true), ?_, rfl⟩
  rw [getElem?_shapeG, h, hw]
  simp [hw]

theorem isInputG_congr {s s' : St α} (h : shapeG s = shapeG s') {i : Nat}
    (hin : IsInputG s i) : IsInputG s' i := by
  obtain ⟨q, hq, hb⟩ := isInputG_shapeG hin
  rw [h, getElem?_shapeG] at hq
  cases h2 : s'[i]? with
  | none => rw [h2] at hq; exact Option.noConfusion hq
  | some nd =>
    rw [h2] at hq
    simp only [Option.map_some'] at hq
    have hqq := Option.some_inj.mp hq
    rw [← hqq] at hb
    simp only [] at hb
    refine ⟨nd, h2, ?_⟩
    cases hv : nd.val with
    | input w => exact ⟨w, rfl⟩
    | add x y => rw [hv] at hb; simp at hb
    | addVar args => rw [hv] at hb; simp at hb
    | sub x y => rw [hv] at hb; simp at hb
    | mul x y => rw [hv] at hb; simp at hb
    | pow x e => rw [hv] at hb; simp at hb
    | sin x => rw [hv] at hb; simp at hb

theorem sameSVG_refl (s : St α) : SameSVG s s := ⟨rfl, fun _ => rfl⟩

theorem sameSVG_trans {s t u : St α} (h1 : SameSVG s t) (h2 : SameSVG t u) :
    SameSVG s u :=
  ⟨h1.1.trans h2.1, fun j => (h1.2 j).trans (h2.2 j)⟩

theorem foldl_sameSVG_pair {β : Type} {f : St α × β → Nat → St α × β}
    (hf : ∀ acc a, SameSVG (f acc a).1 acc.1) :
    ∀ (args : List Nat) (init : St α × β),
      SameSVG ((args.foldl f init).1) init.1 := by
  intro args
  induction args with
  | nil => intro init; exact sameSVG_refl _
  | cons a as ih =>
    intro init
    exact sameSVG_trans (ih (f init a)) (hf init a)

theorem foldl_sameSVG {f : St α → Nat → St α}
    (hf : ∀ st a, SameSVG (f st a) st) :
    ∀ (args : List Nat) (init : St α),
      SameSVG (args.foldl f init) init := by
  intro args
  induction args with
  | nil => intro init; exact sameSVG_refl _
  | cons a as ih =>
    intro init
    exact sameSVG_trans (ih (f init a)) (hf init a)

/-- Replacing a node by one with the same deps and operation but another
cache leaves structure, stored values, and all other caches unchanged. -/
theorem updateG_cache {s : St α} {i : Nat} {nd : GNode α}
    (h : s[i]? = some nd) (c' : Option α) :
    shapeG (s.set i ⟨c', nd.deps, nd.val⟩) = shapeG s ∧
    (∀ j, valGOf (s.set i ⟨c', nd.deps, nd.val⟩) j = valGOf s j) ∧
    cacheOf (s.set i ⟨c', nd.deps, nd.val⟩) i = c' ∧
    (∀ j, j ≠ i → cacheOf (s.set i ⟨c', nd.deps, nd.val⟩) j = cacheOf s j) := by
  have hlen := lt_lengthG h
  refine ⟨?_, ?_, ?_, ?_⟩
  · apply List.ext_getElem?
    intro j
    rw [getElem?_shapeG, getElem?_shapeG, List.getElem?_set]
    by_cases hij : i = j
    · subst hij; simp [hlen, h]
    · simp [hij]
  · intro j
    unfold valGOf
    rw [List.getElem?_set]
    by_cases hij : i = j
    · subst hij; simp [hlen, h]
    · simp [hij]
  · unfold cacheOf
    rw [List.getElem?_set]
    simp [hlen]
  · intro j hj
    unfold cacheOf
    rw [List.getElem?_set]
    rw [if_neg (fun hc => hj hc.symm)]

/-- Effect of the set() body on the target input node: stored value and cache
both become v, the structure is unchanged. -/
theorem updateG_setInput {s : St α} {i : Nat} {nd : GNode α} {w : α}
    (h : s[i]? = some nd) (hw : nd.val = Ops.input w) (v : α) :
    shapeG (s.set i ⟨some v, nd.deps, Ops.input v⟩) = shapeG s ∧
    (∀ j, j ≠ i → valGOf (s.set i ⟨some v, nd.deps, Ops.input v⟩) j = valGOf s j) ∧
    valGOf (s.set i ⟨some v, nd.deps, Ops.input v⟩) i = some v ∧
    cacheOf (s.set i ⟨some v, nd.deps, Ops.input v⟩) i = some v ∧
    (∀ j, j ≠ i → cacheOf (s.set i ⟨some v, nd.deps, Ops.input v⟩) j = cacheOf s j) := by
  have hlen := lt_lengthG h
  refine ⟨?_, ?_, ?_, ?_, ?_⟩
  · apply List.ext_getElem?
    intro j
    rw [getElem?_shapeG, getElem?_shapeG, List.getElem?_set]
    by_cases hij : i = j
    · subst hij; simp [hlen, h, hw, opsOperands]
    · simp [hij]
  · intro j hj
    unfold valGOf
    rw [List.getElem?_set]
    rw [if_neg (fun hc => hj hc.symm)]
  · unfold valGOf
    rw [List.getElem?_set]
    simp [hlen]
  · unfold cacheOf
    rw [List.getElem?_set]
    simp [hlen]
  · intro j hj
    unfold cacheOf
    rw [List.getElem?_set]
    rw [if_neg (fun hc => hj hc.symm)]

theorem setCacheG_spec (s : St α) (i : Nat) (c : Option α) :
    SameSVG (setCache s i c) s ∧
    (∀ j, j ≠ i → cacheOf (setCache s i c) j = cacheOf s j) := by
  unfold setCache
  cases h : s[i]? with
  | none => exact ⟨sameSVG_refl s, fun _ _ => rfl⟩
  | some nd =>
    obtain ⟨h1, h2, _, h4⟩ := updateG_cache h c
    exact ⟨⟨h1, h2⟩, h4⟩

theorem cacheOf_setCacheG_self {s : St α} {i : Nat} {nd : GNode α}
    (h : s[i]? = some nd) (c : Option α) : cacheOf (setCache s i c) i = c := by
  unfold setCache
  rw [h]
  exact (updateG_cache h c).2.2.1

/-- Unfolding of graph.rs compute() on any existing node. -/
theorem computeG_succ {s : St α} {i : Nat} {nd : GNode α}
    (S : Teza.ScalarOps α) (fuel : Nat) (h : s[i]? = some nd) :
    computeG S (fuel + 1) s i =
      (setCache (opComputeG S fuel s nd.val).1 i
        (some (opComputeG S fuel s nd.val).2),
        nd.cache.getD (opComputeG S fuel s nd.val).2) := by
  obtain ⟨c, ds, val⟩ := nd
  cases val <;> (simp only [computeG, h]; rfl)

theorem computeG_succ_none {s : St α} {i : Nat} (S : Teza.ScalarOps α)
    (fuel : Nat) (h : s[i]? = none) :
    computeG S (fuel + 1) s i = (s, S.zero) := by
  simp [computeG, h]

theorem opComputeG_sameSVG (S : Teza.ScalarOps α) (f : Nat)
    (ihc : ∀ (s : St α) (i : Nat), SameSVG (computeG S f s i).1 s) :
    ∀ (s : St α) (o : Ops α), SameSVG (opComputeG S f s o).1 s := by
  intro s o
  cases o with
  | input v => exact sameSVG_refl s
  | add x y =>
    simp only [opComputeG]
    exact sameSVG_trans (ihc (computeG S f s x).1 y) (ihc s x)
  | addVar args =>
    simp only [opComputeG]
    exact foldl_sameSVG_pair (f := addStepG S f) (fun acc a => ihc acc.1 a)
      args (s, S.zero)
  | sub x y =>
    simp only [opComputeG]
    exact sameSVG_trans (ihc (computeG S f s x).1 y) (ihc s x)
  | mul x y =>
    simp only [opComputeG]
    exact sameSVG_trans (ihc (computeG S f s x).1 y) (ihc s x)
  | pow x e =>
    simp only [opComputeG]
    exact ihc s x
  | sin x =>
    simp only [opComputeG]
    exact ihc s x

theorem computeG_sameSVG (S : Teza.ScalarOps α) :
    ∀ (fuel : Nat) (s : St α) (i : Nat), SameSVG (computeG S fuel s i).1 s := by
  intro fuel
  induction fuel with
  | zero => intro s i; exact sameSVG_refl s
  | succ f ih =>
    intro s i
    cases h : s[i]? with
    | none => rw [computeG_succ_none S f h]; exact sameSVG_refl s
    | some nd =>
      rw [computeG_succ S f h]
      exact sameSVG_trans (setCacheG_spec _ i _).1 (opComputeG_sameSVG S f ih s nd.val)

theorem resetG_sameSVG :
    ∀ (fuel : Nat) (s : St α) (i : Nat), SameSVG (resetG fuel s i) s := by
  intro fuel
  induction fuel with
  | zero => intro s i; exact sameSVG_refl s
  | succ f ih =>
    intro s i
    show SameSVG (resetG (f + 1) s i) s
    unfold resetG
    cases h : s[i]? with
    | none => exact sameSVG_refl s
    | some nd =>
      have h1 := updateG_cache h (none : Option α)
      exact sameSVG_trans (foldl_sameSVG (fun st a => ih st a) nd.deps _)
        ⟨h1.1, h1.2.1⟩

theorem setG_spec (fuel : Nat) (s : St α) (i : Nat) (v : α) :
    shapeG (setG fuel s i v) = shapeG s ∧
    ∀ j, j ≠ i → valGOf (setG fuel s i v) j = valGOf s j := by
  unfold setG
  cases h : s[i]? with
  | none => exact ⟨rfl, fun _ _ => rfl⟩
  | some nd =>
    obtain ⟨c, ds, val⟩ := nd
    cases val with
    | input w =>
      have h1 := updateG_setInput h rfl v
      have h2 := foldl_sameSVG (fun st a => resetG_sameSVG fuel st a) ds
        (s.set i ⟨some v, ds, Ops.input v⟩)
      exact ⟨h2.1.trans h1.1, fun j hj => (h2.2 j).trans (h1.2.1 j hj)⟩
    | add x y => exact ⟨rfl, fun _ _ => rfl⟩
    | addVar args => exact ⟨rfl, fun _ _ => rfl⟩
    | sub x y => exact ⟨rfl, fun _ _ => rfl⟩
    | mul x y => exact ⟨rfl, fun _ _ => rfl⟩
    | pow x e => exact ⟨rfl, fun _ _ => rfl⟩
    | sin x => exact ⟨rfl, fun _ _ => rfl⟩

theorem resetG_cache_or :
    ∀ (fuel : Nat) (s : St α) (i j : Nat),
      cacheOf (resetG fuel s i) j = cacheOf s j ∨
      cacheOf (resetG fuel s i) j = none := by
  intro fuel
  induction fuel with
  | zero => intro s i j; exact Or.inl rfl
  | succ f ih =>
    intro s i j
    show cacheOf (resetG (f + 1) s i) j = _ ∨ _
    unfold resetG
    cases h : s[i]? with
    | none => exact Or.inl rfl
    | some nd =>
      have hfold :
          ∀ (l : List Nat) (st : St α),
            cacheOf (l.foldl (resetG f) st) j = cacheOf st j ∨
            cacheOf (l.foldl (resetG f) st) j = none := by
        intro l
        induction l with
        | nil => intro st; exact Or.inl rfl
        | cons d rest ihl =>
          intro st
          rcases ihl (resetG f st d) with h1 | h1 <;>
            rcases ih st d j with h2 | h2 <;>
              simp only [List.foldl_cons] <;> rw [h1] <;> simp [h2]
      rcases hfold nd.deps (s.set i ⟨none, nd.deps, nd.val⟩) with h1 | h1
      · rw [h1]
        by_cases hij : j = i
        · subst hij
          exact Or.inr (updateG_cache h (none : Option α)).2.2.1
        · exact Or.inl ((updateG_cache h (none : Option α)).2.2.2 j hij)
      · exact Or.inr h1

theorem resetFoldG_cache_or (fuel : Nat) :
    ∀ (l : List Nat) (st : St α) (j : Nat),
      cacheOf (l.foldl (resetG fuel) st) j = cacheOf st j ∨
      cacheOf (l.foldl (resetG fuel) st) j = none := by
  intro l
  induction l with
  | nil => intro st j; exact Or.inl rfl
  | cons d rest ihl =>
    intro st j
    rcases ihl (resetG fuel st d) j with h1 | h1 <;>
      rcases resetG_cache_or fuel st d j with h2 | h2 <;>
        simp only [List.foldl_cons] <;> rw [h1] <;> simp [h2]

theorem resetFoldG_none_mono (fuel : Nat) (l : List Nat) (st : St α)
    (j : Nat) (h : cacheOf st j = none) :
    cacheOf (l.foldl (resetG fuel) st) j = none := by
  rcases resetFoldG_cache_or fuel l st j with h1 | h1
  · rw [h1, h]
  · exact h1

theorem resetG_untouched :
    ∀ (fuel : Nat) (s : St α) (i j : Nat), ¬ DepReachG s i j →
      cacheOf (resetG fuel s i) j = cacheOf s j := by
  intro fuel
  induction fuel with
  | zero => intro s i j _; rfl
  | succ f ih =>
    intro s i j hnr
    show cacheOf (resetG (f + 1) s i) j = _
    unfold resetG
    cases h : s[i]? with
    | none => rfl
    | some nd =>
      have hji : j ≠ i := fun hc => hnr (by rw [hc]; exact DepReachG.refl i)
      have hds : nd.deps = depsOf s i := by unfold depsOf; rw [h]
      have hnr2 : ∀ d ∈ nd.deps, ¬ DepReachG s d j := by
        intro d hd hr
        exact hnr (DepReachG.head (hds ▸ hd) hr)
      have hfold :
          ∀ (l : List Nat) (st : St α), shapeG st = shapeG s →
            (∀ d ∈ l, ¬ DepReachG s d j) →
            cacheOf (l.foldl (resetG f) st) j = cacheOf st j := by
        intro l
        induction l with
        | nil => intro st _ _; rfl
        | cons d rest ihl =>
          intro st hsh hl
          have hstep : cacheOf (resetG f st d) j = cacheOf st j := by
            apply ih
            intro hr
            exact hl d (List.mem_cons_self d rest)
              (depReachG_congr (hsh.symm ▸ rfl : shapeG st = shapeG s) hr)
          simp only [List.foldl_cons]
          rw [ihl (resetG f st d)
            ((resetG_sameSVG f st d).1.trans hsh)
            (fun d' hd' => hl d' (List.mem_cons_of_mem d hd')), hstep]
      rw [hfold nd.deps (s.set i ⟨none, nd.deps, nd.val⟩)
        (updateG_cache h (none : Option α)).1
        hnr2]
      exact (updateG_cache h (none : Option α)).2.2.2 j hji

/-- graph.rs reset_cache clears all dependents-reachable caches, given enough
fuel. -/
theorem resetG_clears :
    ∀ (fuel : Nat) (s : St α) (i j : Nat), DepsAboveG s →
      s.length ≤ fuel + i → DepReachG s i j →
      cacheOf (resetG fuel s i) j = none := by
  intro fuel
  induction fuel with
  | zero =>
    intro s i j _ hlen hr
    cases h : s[i]? with
    | some nd => exact absurd (lt_lengthG h) (Nat.not_lt.mpr (by simpa using hlen))
    | none =>
      cases hr with
      | refl =>
        show cacheOf (resetG 0 s i) i = none
        unfold cacheOf
        rw [show (resetG 0 s i) = s from rfl, h]
      | head hd hr' =>
        rw [show depsOf s i = [] from by unfold depsOf; rw [h]] at hd
        exact absurd hd (List.not_mem_nil _)
  | succ f ih =>
    intro s i j hda hlen hr
    show cacheOf (resetG (f + 1) s i) j = none
    unfold resetG
    cases h : s[i]? with
    | none =>
      cases hr with
      | refl =>
        unfold cacheOf
        rw [h]
      | head hd hr' =>
        rw [show depsOf s i = [] from by unfold depsOf; rw [h]] at hd
        exact absurd hd (List.not_mem_nil _)
    | some nd =>
      have hup := updateG_cache h (none : Option α)
      have hsh : shapeG (s.set i ⟨none, nd.deps, nd.val⟩) = shapeG s := hup.1
      have hds : depsOf s i = nd.deps := by unfold depsOf; rw [h]
      have hfold :
          ∀ (l : List Nat) (st : St α), shapeG st = shapeG s →
            (∀ e ∈ l, e ∈ depsOf s i) →
            ((∃ d ∈ l, DepReachG st d j) ∨ cacheOf st j = none) →
            cacheOf (l.foldl (resetG f) st) j = none := by
        intro l
        induction l with
        | nil =>
          intro st _ _ hw
          rcases hw with ⟨d, hd, _⟩ | hw
          · exact absurd hd (List.not_mem_nil d)
          · exact hw
        | cons d rest ihl =>
          intro st hshst hmem hw
          simp only [List.foldl_cons]
          have hmem' : ∀ e ∈ rest, e ∈ depsOf s i :=
            fun e he => hmem e (List.mem_cons_of_mem d he)
          have hdmem : d ∈ depsOf s i := hmem d (List.mem_cons_self d rest)
          have hshd : shapeG (resetG f st d) = shapeG s :=
            (resetG_sameSVG f st d).1.trans hshst
          rcases hw with ⟨d', hd', hrd⟩ | hw
          · rcases List.mem_cons.mp hd' with hdd | hdrest
            · have hstep : cacheOf (resetG f st d) j = none := by
                apply ih st d j (depsAboveG_congr hshst.symm hda)
                · rw [length_congrG hshst]
                  have hid : i < d := (hda i d hdmem).1
                  omega
                · exact hdd ▸ hrd
              exact ihl (resetG f st d) hshd hmem' (Or.inr hstep)
            · refine ihl (resetG f st d) hshd hmem' (Or.inl ⟨d', hdrest, ?_⟩)
              exact depReachG_congr (resetG_sameSVG f st d).1.symm hrd
          · refine ihl (resetG f st d) hshd hmem' (Or.inr ?_)
            rcases resetG_cache_or f st d j with h1 | h1
            · rw [h1]; exact hw
            · exact h1
      cases hr with
      | refl =>
        exact hfold nd.deps (s.set i ⟨none, nd.deps, nd.val⟩) hsh
          (fun e he => hds ▸ he) (Or.inr hup.2.2.1)
      | head hd hr' =>
        rename_i d
        refine hfold nd.deps (s.set i ⟨none, nd.deps, nd.val⟩) hsh
          (fun e he => hds ▸ he) (Or.inl ⟨d, hds ▸ hd, ?_⟩)
        exact depReachG_congr hsh.symm hr'

theorem resetFoldG_clears (fuel : Nat) :
    ∀ (l : List Nat) (st : St α) (j : Nat), DepsAboveG st →
      (∃ d ∈ l, st.length ≤ fuel + d ∧ DepReachG st d j) →
      cacheOf (l.foldl (resetG fuel) st) j = none := by
  intro l
  induction l with
  | nil =>
    intro st j _ hex
    obtain ⟨d, hd, _⟩ := hex
    exact absurd hd (List.not_mem_nil d)
  | cons d rest ihl =>
    intro st j hda hex
    simp only [List.foldl_cons]
    have hsh : shapeG (resetG fuel st d) = shapeG st := (resetG_sameSVG fuel st d).1
    obtain ⟨d', hd', hlen', hr'⟩ := hex
    rcases List.mem_cons.mp hd' with hdd | hdrest
    · subst hdd
      exact resetFoldG_none_mono fuel rest _ j
        (resetG_clears fuel st d' j hda hlen' hr')
    · apply ihl (resetG fuel st d) j (depsAboveG_congr hsh.symm hda)
      exact ⟨d', hdrest, by rw [length_congrG hsh]; exact hlen',
        depReachG_congr hsh.symm hr'⟩

theorem resetFoldG_untouched (fuel : Nat) :
    ∀ (l : List Nat) (st : St α) (j : Nat),
      (∀ d ∈ l, ¬ DepReachG st d j) →
      cacheOf (l.foldl (resetG fuel) st) j = cacheOf st j := by
  intro l
  induction l with
  | nil => intro st j _; rfl
  | cons d rest ihl =>
    intro st j hl
    simp only [List.foldl_cons]
    have hsh : shapeG (resetG fuel st d) = shapeG st := (resetG_sameSVG fuel st d).1
    rw [ihl (resetG fuel st d) j
      (fun d' hd' hr => hl d' (List.mem_cons_of_mem d hd') (depReachG_congr hsh hr))]
    exact resetG_untouched fuel st d j (hl d (List.mem_cons_self d rest))

theorem depReachG_le {s : St α} (hda : DepsAboveG s) {i j : Nat}
    (hr : DepReachG s i j) : i ≤ j := by
  induction hr with
  | refl i => exact Nat.le_refl i
  | head hd _ ih => exact le_trans (Nat.le_of_lt (hda _ _ hd).1) ih

/-- Full behavior of graph.rs Node::set on an input node: the stored value
and the cache both become v, every dependents-reachable node is cleared, and
nothing else is touched. -/
theorem setG_input_spec {s : St α} (hda : DepsAboveG s) {L : Nat}
    {nd : GNode α} (h : s[L]? = some nd) {w : α} (hv : nd.val = Ops.input w)
    {fuel : Nat} (hfuel : s.length ≤ fuel) (v : α) :
    valGOf (setG fuel s L v) L = some v ∧
    cacheOf (setG fuel s L v) L = some v ∧
    (∀ j, j ≠ L → DepReachG s L j → cacheOf (setG fuel s L v) j = none) ∧
    (∀ j, ¬ DepReachG s L j → cacheOf (setG fuel s L v) j = cacheOf s j) := by
  obtain ⟨c, ds, val⟩ := nd
  cases hv
  unfold setG
  rw [h]
  show valGOf (ds.foldl (resetG fuel) (s.set L ⟨some v, ds, Ops.input v⟩)) L = some v ∧ _
  have hup := updateG_setInput h rfl v
  have hsh : shapeG (s.set L ⟨some v, ds, Ops.input v⟩) = shapeG s := hup.1
  have hds : depsOf s L = ds := by unfold depsOf; rw [h]
  have hda1 : DepsAboveG (s.set L ⟨some v, ds, Ops.input v⟩) :=
    depsAboveG_congr hsh.symm hda
  have hnotL : ∀ d ∈ ds, ¬ DepReachG (s.set L ⟨some v, ds, Ops.input v⟩) d L := by
    intro d hd hr
    have hdL : L < d := (hda L d (hds ▸ hd)).1
    have := depReachG_le hda1 hr
    omega
  refine ⟨?_, ?_, ?_, ?_⟩
  · exact (foldl_sameSVG (fun st a => resetG_sameSVG fuel st a) ds _).2 L |>.trans
      hup.2.2.1
  · rw [resetFoldG_untouched fuel ds _ L hnotL]
    exact hup.2.2.2.1
  · intro j hjL hr
    cases hr with
    | refl => exact absurd rfl hjL
    | head hd hr' =>
      rename_i d
      apply resetFoldG_clears fuel ds _ j hda1
      refine ⟨d, hds ▸ hd, ?_, ?_⟩
      · rw [length_congrG hsh]
        omega
      · exact depReachG_congr hsh.symm hr'
  · intro j hnr
    have hjL : j ≠ L := fun hc => hnr (by rw [hc]; exact DepReachG.refl L)
    rw [resetFoldG_untouched fuel ds _ j ?_, hup.2.2.2.2 j hjL]
    intro d hd hr
    exact hnr (DepReachG.head (hds ▸ hd) (depReachG_congr hsh hr))

theorem memOpsG_isExprG {s : St α} {i d : Nat} (h : i ∈ opsOfIdx s d) :
    IsExprG s d := by
  unfold opsOfIdx at h
  cases hd : s[d]? with
  | none => rw [hd] at h; exact absurd h (List.not_mem_nil i)
  | some nd =>
    obtain ⟨cc, dds, vv⟩ := nd
    rw [hd] at h
    dsimp only at h
    refine ⟨⟨cc, dds, vv⟩, hd, ?_⟩
    intro w hw
    dsimp only at hw
    rw [hw] at h
    exact absurd h (by simp [opsOperands])

/-- Dependents chains starting at an expression node never reach an input
node, because dependents edges always point at expression nodes. -/
theorem notReachG_input {s : St α} (hcw : CoWiredG s) :
    ∀ {d j : Nat}, DepReachG s d j → IsInputG s j → IsExprG s d → False := by
  intro d j hr
  induction hr with
  | refl i =>
    intro hj he
    obtain ⟨nd, hnd, hne⟩ := he
    obtain ⟨nd', hnd', w, hw⟩ := hj
    rw [hnd] at hnd'
    cases Option.some_inj.mp hnd'
    exact hne w hw
  | head hd _ ih =>
    intro hj _
    exact ih hj (memOpsG_isExprG (hcw _ _ hd))

theorem fold_addDepG_spec (n : Nat) :
    ∀ (js : List Nat) (s : St α) (i : Nat),
      (js.foldl (fun st j => addDepG st j n) s)[i]? =
        (s[i]?).map (fun nd =>
          ⟨nd.cache, nd.deps ++ List.replicate (js.count i) n, nd.val⟩) := by
  intro js
  induction js with
  | nil =>
    intro s i
    cases h : s[i]? with
    | none => simp [h]
    | some nd => simp [h]
  | cons j js ih =>
    intro s i
    simp only [List.foldl_cons]
    rw [ih (addDepG s j n) i]
    unfold addDepG
    cases hj : s[j]? with
    | none =>
      by_cases hji : j = i
      · subst hji
        rw [hj]
        simp
      · rw [List.count_cons]
        simp [hji]
    | some nd =>
      have hjlen := lt_lengthG hj
      rw [List.getElem?_set]
      by_cases hji : j = i
      · subst hji
        rw [if_pos rfl, if_pos hjlen, hj, List.count_cons]
        simp only [Option.map_some']
        simp [← List.replicate_succ, ← List.replicate_succ', List.append_assoc]
      · rw [if_neg hji, List.count_cons]
        simp [hji]

theorem fold_addDepG_length (n : Nat) :
    ∀ (js : List Nat) (s : St α),
      (js.foldl (fun st j => addDepG st j n) s).length = s.length := by
  intro js
  induction js with
  | nil => intro s; rfl
  | cons j js ih =>
    intro s
    simp only [List.foldl_cons]
    rw [ih (addDepG s j n)]
    unfold addDepG
    cases hj : s[j]? with
    | none => rfl
    | some nd => exact List.length_set ..

theorem length_buildStepG (s : St α) (c : GCtor α) :
    (buildStepG s c).length = s.length + 1 := by
  unfold buildStepG
  rw [fold_addDepG_length]
  simp

theorem buildStepG_getElem?_old {s : St α} {c : GCtor α} {i : Nat}
    (hi : i < s.length) :
    (buildStepG s c)[i]? = (s[i]?).map
      (fun nd => ⟨nd.cache, nd.deps ++
        List.replicate ((gctorOperands c).count i) s.length, nd.val⟩) := by
  unfold buildStepG
  rw [fold_addDepG_spec]
  rw [List.getElem?_append]
  simp [hi]

theorem buildStepG_getElem?_new (s : St α) (c : GCtor α) :
    (buildStepG s c)[s.length]? = some ⟨(gctorNode c).cache,
      List.replicate ((gctorOperands c).count s.length) s.length,
      (gctorNode c).val⟩ := by
  have hnil : (gctorNode c).deps = [] := by cases c <;> rfl
  unfold buildStepG
  rw [fold_addDepG_spec]
  rw [List.getElem?_append]
  simp [hnil]

theorem buildStepG_getElem?_big {s : St α} {c : GCtor α} {i : Nat}
    (hi : s.length + 1 ≤ i) : (buildStepG s c)[i]? = none := by
  apply List.getElem?_eq_none
  rw [length_buildStepG]
  exact hi

theorem depsOfG_buildStep_old {s : St α} {c : GCtor α} {i : Nat}
    (hi : i < s.length) :
    depsOf (buildStepG s c) i =
      depsOf s i ++ List.replicate ((gctorOperands c).count i) s.length := by
  unfold depsOf
  rw [buildStepG_getElem?_old hi]
  cases h : s[i]? with
  | none => exact absurd h (by simp [List.getElem?_eq_getElem hi])
  | some nd => simp

theorem depsOfG_buildStep_new (s : St α) (c : GCtor α) :
    depsOf (buildStepG s c) s.length =
      List.replicate ((gctorOperands c).count s.length) s.length := by
  unfold depsOf
  rw [buildStepG_getElem?_new]

theorem opsOfIdxG_buildStep_old {s : St α} {c : GCtor α} {i : Nat}
    (hi : i < s.length) : opsOfIdx (buildStepG s c) i = opsOfIdx s i := by
  unfold opsOfIdx
  rw [buildStepG_getElem?_old hi]
  cases h : s[i]? with
  | none => rfl
  | some nd => rfl

theorem opsOfIdxG_buildStep_new (s : St α) (c : GCtor α) :
    opsOfIdx (buildStepG s c) s.length = gctorOperands c := by
  unfold opsOfIdx
  rw [buildStepG_getElem?_new]
  rfl

theorem depsOfG_big {s : St α} {i : Nat} (hi : s.length ≤ i) :
    depsOf s i = [] := by
  unfold depsOf
  rw [List.getElem?_eq_none hi]

theorem opsOfIdxG_big {s : St α} {i : Nat} (hi : s.length ≤ i) :
    opsOfIdx s i = [] := by
  unfold opsOfIdx
  rw [List.getElem?_eq_none hi]

theorem buildStepG_WF {s : St α} {c : GCtor α}
    (hda : DepsAboveG s) (hcw : CoWiredG s)
    (hc : ∀ j ∈ gctorOperands c, j < s.length) :
    DepsAboveG (buildStepG s c) ∧ CoWiredG (buildStepG s c) := by
  have hcnt0 : (gctorOperands c).count s.length = 0 :=
    List.count_eq_zero.mpr (fun hm => Nat.lt_irrefl _ (hc _ hm))
  constructor
  · intro i d hd
    rw [length_buildStepG]
    rcases Nat.lt_trichotomy i s.length with hi | hi | hi
    · rw [depsOfG_buildStep_old hi] at hd
      rcases List.mem_append.mp hd with hold | hnew
      · have := hda i d hold
        omega
      · have := List.eq_of_mem_replicate hnew
        omega
    · subst hi
      rw [depsOfG_buildStep_new, hcnt0] at hd
      exact absurd hd (List.not_mem_nil d)
    · rw [depsOfG_big (by rw [length_buildStepG]; omega)] at hd
      exact absurd hd (List.not_mem_nil d)
  · intro i d hd
    rcases Nat.lt_trichotomy i s.length with hi | hi | hi
    · rw [depsOfG_buildStep_old hi] at hd
      rcases List.mem_append.mp hd with hold | hnew
      · have hdlen : d < s.length := (hda i d hold).2
        rw [opsOfIdxG_buildStep_old hdlen]
        exact hcw i d hold
      · have hdeq : d = s.length := List.eq_of_mem_replicate hnew
        subst hdeq
        rw [opsOfIdxG_buildStep_new]
        by_contra hmem
        rw [List.count_eq_zero.mpr hmem] at hnew
        exact absurd hnew (by simp)
    · subst hi
      rw [depsOfG_buildStep_new, hcnt0] at hd
      exact absurd hd (List.not_mem_nil d)
    · rw [depsOfG_big (by rw [length_buildStepG]; omega)] at hd
      exact absurd hd (List.not_mem_nil d)

theorem buildFoldG_WF :
    ∀ (p : List (GCtor α)) (s : St α), validProgBG s.length p = true →
      DepsAboveG s → CoWiredG s →
      DepsAboveG (p.foldl buildStepG s) ∧ CoWiredG (p.foldl buildStepG s) := by
  intro p
  induction p with
  | nil => intro s _ hda hcw; exact ⟨hda, hcw⟩
  | cons c p ih =>
    intro s hv hda hcw
    simp only [validProgBG, Bool.and_eq_true] at hv
    simp only [List.foldl_cons]
    have hops : ∀ j ∈ gctorOperands c, j < s.length := by
      intro j hj
      have := List.all_eq_true.mp hv.1 j hj
      simpa using this
    have hstep := buildStepG_WF hda hcw hops
    apply ih (buildStepG s c)
    · rw [length_buildStepG]; exact hv.2
    · exact hstep.1
    · exact hstep.2

theorem buildG_WF {p : List (GCtor α)} (hv : validProgBG 0 p = true) :
    DepsAboveG (buildG p) ∧ CoWiredG (buildG p) := by
  apply buildFoldG_WF p [] hv
  · intro i d hd
    rw [depsOfG_big (by simp)] at hd
    exact absurd hd (List.not_mem_nil d)
  · intro i d hd
    rw [depsOfG_big (by simp)] at hd
    exact absurd hd (List.not_mem_nil d)

theorem foldl_presG_pair {β : Type} {P : St α → Prop}
    {f : St α × β → Nat → St α × β}
    (hf : ∀ acc a, P acc.1 → P (f acc a).1) :
    ∀ (args : List Nat) (init : St α × β), P init.1 →
      P ((args.foldl f init).1) := by
  intro args
  induction args with
  | nil => intro init h; exact h
  | cons a as ih => intro init h; exact ih (f init a) (hf init a h)

/-- compute() preserves the input-cache invariant: the only value it ever
writes into the cache of an input node is that node's own stored value. -/
theorem computeG_inputCache (S : Teza.ScalarOps α) :
    ∀ (fuel : Nat) (s : St α) (i : Nat),
      (∀ k w, valGOf s k = some w → cacheOf s k = some w) →
      (∀ k w, valGOf (computeG S fuel s i).1 k = some w →
        cacheOf (computeG S fuel s i).1 k = some w) := by
  intro fuel
  induction fuel with
  | zero => intro s i h; exact h
  | succ f ih =>
    intro s i hI
    cases h : s[i]? with
    | none => rw [computeG_succ_none S f h]; exact hI
    | some nd =>
      obtain ⟨cc, dds, vval⟩ := nd
      rw [computeG_succ S f h]
      dsimp only
      have hopI : ∀ (o : Ops α) (s0 : St α),
          (∀ k w, valGOf s0 k = some w → cacheOf s0 k = some w) →
          (∀ k w, valGOf (opComputeG S f s0 o).1 k = some w →
            cacheOf (opComputeG S f s0 o).1 k = some w) := by
        intro o
        cases o with
        | input v => intro s0 h0; exact h0
        | add x y =>
          intro s0 h0
          exact ih (computeG S f s0 x).1 y (ih s0 x h0)
        | addVar args =>
          intro s0 h0
          refine foldl_presG_pair (f := addStepG S f)
            (P := fun st => ∀ k w, valGOf st k = some w → cacheOf st k = some w)
            ?_ args (s0, S.zero) h0
          intro acc a hacc
          exact ih acc.1 a hacc
        | sub x y =>
          intro s0 h0
          exact ih (computeG S f s0 x).1 y (ih s0 x h0)
        | mul x y =>
          intro s0 h0
          exact ih (computeG S f s0 x).1 y (ih s0 x h0)
        | pow x e => intro s0 h0; exact ih s0 x h0
        | sin x => intro s0 h0; exact ih s0 x h0
      have hP := hopI vval s hI
      have hsv : SameSVG (opComputeG S f s vval).1 s :=
        opComputeG_sameSVG S f (fun s' i' => computeG_sameSVG S f s' i') s vval
      intro k w hk
      by_cases hki : k = i
      · subst hki
        have hvk : valGOf s k = some w := by
          rw [(setCacheG_spec (opComputeG S f s vval).1 k
            (some (opComputeG S f s vval).2)).1.2 k, hsv.2 k] at hk
          exact hk
        have hndval : vval = Ops.input w := by
          unfold valGOf at hvk
          rw [h] at hvk
          cases hv : vval with
          | input u => rw [hv] at hvk; simp at hvk; rw [hvk]
          | add x y => rw [hv] at hvk; simp at hvk
          | addVar args => rw [hv] at hvk; simp at hvk
          | sub x y => rw [hv] at hvk; simp at hvk
          | mul x y => rw [hv] at hvk; simp at hvk
          | pow x e => rw [hv] at hvk; simp at hvk
          | sin x => rw [hv] at hvk; simp at hvk
        have hval2 : (opComputeG S f s vval).2 = w := by
          rw [hndval]
          rfl
        have hkl : k < (opComputeG S f s vval).1.length := by
          rw [length_congrG hsv.1]
          exact lt_lengthG h
        obtain ⟨nd2, hnd2⟩ : ∃ nd2, (opComputeG S f s vval).1[k]? = some nd2 := by
          rw [List.getElem?_eq_getElem hkl]
          exact ⟨_, rfl⟩
        rw [cacheOf_setCacheG_self hnd2, hval2]
      · rw [(setCacheG_spec (opComputeG S f s vval).1 i
          (some (opComputeG S f s vval).2)).2 k hki]
        apply hP
        rw [(setCacheG_spec (opComputeG S f s vval).1 i
          (some (opComputeG S f s vval).2)).1.2 k] at hk
        exact hk

theorem valGOf_isInputG {s : St α} {k : Nat} {w : α}
    (h : valGOf s k = some w) : IsInputG s k := by
  unfold valGOf at h
  cases hk : s[k]? with
  | none => rw [hk] at h; exact Option.noConfusion h
  | some nd =>
    obtain ⟨cc, dds, vv⟩ := nd
    rw [hk] at h
    dsimp only at h
    refine ⟨⟨cc, dds, vv⟩, hk, ?_⟩
    cases hv : vv with
    | input u => exact ⟨u, rfl⟩
    | add x y => rw [hv] at h; exact Option.noConfusion h
    | addVar args => rw [hv] at h; exact Option.noConfusion h
    | sub x y => rw [hv] at h; exact Option.noConfusion h
    | mul x y => rw [hv] at h; exact Option.noConfusion h
    | pow x e => rw [hv] at h; exact Option.noConfusion h
    | sin x => rw [hv] at h; exact Option.noConfusion h

/-- Node::set of graph.rs does nothing at all on a node whose operation is
not the Input variant. -/
theorem setG_not_input {s : St α} {L : Nat} {nd : GNode α}
    (h : s[L]? = some nd) (hne : ∀ w, nd.val ≠ Ops.input w) (fuel : Nat)
    (v : α) : setG fuel s L v = s := by
  obtain ⟨cc, dds, vv⟩ := nd
  unfold setG
  rw [h]
  cases vv with
  | input w => exact absurd rfl (hne w)
  | add x y => rfl
  | addVar args => rfl
  | sub x y => rfl
  | mul x y => rfl
  | pow x e => rfl
  | sin x => rfl

/-- set() preserves the input-cache invariant. -/
theorem setG_inputCache {s : St α} (hda : DepsAboveG s) (hcw : CoWiredG s)
    (hI : ∀ k w, valGOf s k = some w → cacheOf s k = some w)
    {fuel : Nat} (hfuel : s.length ≤ fuel) (L : Nat) (v : α) :
    ∀ k w, valGOf (setG fuel s L v) k = some w →
      cacheOf (setG fuel s L v) k = some w := by
  cases h : s[L]? with
  | none =>
    intro k w hk
    rw [show setG fuel s L v = s from by unfold setG; rw [h]] at hk ⊢
    exact hI k w hk
  | some nd =>
    by_cases hin : ∃ w0, nd.val = Ops.input w0
    · obtain ⟨w0, hv⟩ := hin
      have hspec := setG_input_spec hda h hv hfuel v
      intro k w hk
      by_cases hkL : k = L
      · subst hkL
        rw [hspec.1] at hk
        rw [hspec.2.1, Option.some_inj.mp hk]
      · have hval : valGOf s k = some w := by
          rw [(setG_spec fuel s L v).2 k hkL] at hk
          exact hk
        have hink : IsInputG s k := valGOf_isInputG hval
        have hnr : ¬ DepReachG s L k := by
          intro hr
          cases hr with
          | refl => exact hkL rfl
          | head hd hr' =>
            exact notReachG_input hcw hr' hink
              (memOpsG_isExprG (hcw L _ hd))
        rw [hspec.2.2.2 k hnr]
        exact hI k w hval
    · intro k w hk
      rw [setG_not_input h (fun w0 hw0 => hin ⟨w0, hw0⟩) fuel v] at hk ⊢
      exact hI k w hk

theorem stepActG_shapeG (S : Teza.ScalarOps α) (s : St α) (a : ActG α) :
    shapeG (stepActG S s a) = shapeG s := by
  cases a with
  | compute i => exact (computeG_sameSVG S (s.length + 1) s i).1
  | set i v => exact (setG_spec s.length s i v).1

theorem stepActG_inputCache (S : Teza.ScalarOps α) {s : St α}
    (hda : DepsAboveG s) (hcw : CoWiredG s)
    (hI : ∀ k w, valGOf s k = some w → cacheOf s k = some w) (a : ActG α) :
    ∀ k w, valGOf (stepActG S s a) k = some w →
      cacheOf (stepActG S s a) k = some w := by
  cases a with
  | compute i => exact computeG_inputCache S (s.length + 1) s i hI
  | set i v => exact setG_inputCache hda hcw hI (Nat.le_refl s.length) i v

theorem runActsG_inputCache (S : Teza.ScalarOps α) :
    ∀ (acts : List (ActG α)) (s : St α), DepsAboveG s → CoWiredG s →
      (∀ k w, valGOf s k = some w → cacheOf s k = some w) →
      (∀ k w, valGOf (runActsG S s acts) k = some w →
        cacheOf (runActsG S s acts) k = some w) := by
  intro acts
  induction acts with
  | nil => intro s _ _ hI; exact hI
  | cons a acts ih =>
    intro s hda hcw hI
    show ∀ k w, valGOf (runActsG S (stepActG S s a) acts) k = some w → _
    exact ih (stepActG S s a)
      (depsAboveG_congr (stepActG_shapeG S s a).symm hda)
      (coWiredG_congr (stepActG_shapeG S s a).symm hcw)
      (stepActG_inputCache S hda hcw hI a)

theorem runActsG_shapeG (S : Teza.ScalarOps α) (s : St α)
    (acts : List (ActG α)) : shapeG (runActsG S s acts) = shapeG s := by
  induction acts generalizing s with
  | nil => rfl
  | cons a acts ih =>
    show shapeG (runActsG S (stepActG S s a) acts) = shapeG s
    rw [ih (stepActG S s a), stepActG_shapeG]

theorem valcache_buildStepG_old {s : St α} {c : GCtor α} {k : Nat}
    (hk : k < s.length) :
    valGOf (buildStepG s c) k = valGOf s k ∧
    cacheOf (buildStepG s c) k = cacheOf s k := by
  constructor
  · unfold valGOf
    rw [buildStepG_getElem?_old hk]
    cases h : s[k]? with
    | none => rfl
    | some nd => rfl
  · unfold cacheOf
    rw [buildStepG_getElem?_old hk]
    cases h : s[k]? with
    | none => rfl
    | some nd => rfl

theorem buildStepG_inputCache {s : St α} {c : GCtor α}
    (hI : ∀ k w, valGOf s k = some w → cacheOf s k = some w) :
    ∀ k w, valGOf (buildStepG s c) k = some w →
      cacheOf (buildStepG s c) k = some w := by
  intro k w hk
  rcases Nat.lt_trichotomy k s.length with hlt | heq | hgt
  · rw [(valcache_buildStepG_old hlt).1] at hk
    rw [(valcache_buildStepG_old hlt).2]
    exact hI k w hk
  · subst heq
    unfold valGOf at hk
    unfold cacheOf
    rw [buildStepG_getElem?_new] at hk ⊢
    cases c with
    | input x =>
      simp only at hk ⊢
      cases hk
      rfl
    | add a b => exact Option.noConfusion hk
    | addVar args => exact Option.noConfusion hk
    | sub a b => exact Option.noConfusion hk
    | mul a b => exact Option.noConfusion hk
    | pow a e => exact Option.noConfusion hk
    | sin a => exact Option.noConfusion hk
  · unfold valGOf at hk
    rw [buildStepG_getElem?_big (by omega)] at hk
    exact Option.noConfusion hk

theorem buildG_inputCache (p : List (GCtor α)) :
    ∀ k w, valGOf (buildG p) k = some w → cacheOf (buildG p) k = some w := by
  suffices h : ∀ (q : List (GCtor α)) (s : St α),
      (∀ k w, valGOf s k = some w → cacheOf s k = some w) →
      (∀ k w, valGOf (q.foldl buildStepG s) k = some w →
        cacheOf (q.foldl buildStepG s) k = some w) by
    refine h p [] ?_
    intro k w hk
    unfold valGOf at hk
    simp at hk
  intro q
  induction q with
  | nil => intro s hI; exact hI
  | cons c q ih =>
    intro s hI
    simp only [List.foldl_cons]
    exact ih (buildStepG s c) (buildStepG_inputCache hI)

theorem getElem?_structG (s : St α) (i : Nat) :
    (structG s)[i]? = s[i]?.map (fun nd => (nd.deps, nd.val)) :=
  List.getElem?_map ..

theorem opOfIdx_eq_structG (s : St α) (j : Nat) :
    opOfIdx s j = ((structG s)[j]?).map Prod.snd := by
  rw [getElem?_structG]
  unfold opOfIdx
  cases s[j]? <;> rfl

theorem opOfIdx_congr_structG {s s' : St α} (h : structG s = structG s')
    (j : Nat) : opOfIdx s j = opOfIdx s' j := by
  rw [opOfIdx_eq_structG, opOfIdx_eq_structG, h]

/-- Replacing a node by one with the same deps and operation but another
cache leaves the full structure (dependents and operation values) unchanged. -/
theorem structG_update_cache {s : St α} {i : Nat} {nd : GNode α}
    (h : s[i]? = some nd) (c' : Option α) :
    structG (s.set i ⟨c', nd.deps, nd.val⟩) = structG s := by
  have hlen := lt_lengthG h
  apply List.ext_getElem?
  intro j
  rw [getElem?_structG, getElem?_structG, List.getElem?_set]
  by_cases hij : i = j
  · subst hij; simp [hlen, h]
  · simp [hij]

theorem structG_setCacheG (s : St α) (i : Nat) (c : Option α) :
    structG (setCache s i c) = structG s := by
  unfold setCache
  cases h : s[i]? with
  | none => rfl
  | some nd => exact structG_update_cache h c

theorem opOfIdx_set_ne {s : St α} {i j : Nat} (a : GNode α) (hj : j ≠ i) :
    opOfIdx (s.set i a) j = opOfIdx s j := by
  unfold opOfIdx
  rw [List.getElem?_set, if_neg (fun hc => hj hc.symm)]

theorem opOfIdx_set_self {s : St α} {i : Nat} {nd : GNode α}
    (h : s[i]? = some nd) (a : GNode α) :
    opOfIdx (s.set i a) i = some a.val := by
  have hlen := lt_lengthG h
  unfold opOfIdx
  rw [List.getElem?_set]
  simp [hlen]

theorem foldl_structG {f : St α → Nat → St α}
    (hf : ∀ st a, structG (f st a) = structG st) :
    ∀ (args : List Nat) (init : St α),
      structG (args.foldl f init) = structG init := by
  intro args
  induction args with
  | nil => intro init; rfl
  | cons a as ih => intro init; exact (ih (f init a)).trans (hf init a)

theorem foldl_structG_pair {β : Type} {f : St α × β → Nat → St α × β}
    (hf : ∀ acc a, structG (f acc a).1 = structG acc.1) :
    ∀ (args : List Nat) (init : St α × β),
      structG ((args.foldl f init).1) = structG init.1 := by
  intro args
  induction args with
  | nil => intro init; rfl
  | cons a as ih => intro init; exact (ih (f init a)).trans (hf init a)

theorem opComputeG_structG (S : Teza.ScalarOps α) (f : Nat)
    (ihc : ∀ (s : St α) (i : Nat), structG (computeG S f s i).1 = structG s) :
    ∀ (s : St α) (o : Ops α), structG (opComputeG S f s o).1 = structG s := by
  intro s o
  cases o with
  | input v => rfl
  | add x y =>
    simp only [opComputeG]
    exact (ihc (computeG S f s x).1 y).trans (ihc s x)
  | addVar args =>
    simp only [opComputeG]
    exact foldl_structG_pair (f := addStepG S f) (fun acc a => ihc acc.1 a)
      args (s, S.zero)
  | sub x y =>
    simp only [opComputeG]
    exact (ihc (computeG S f s x).1 y).trans (ihc s x)
  | mul x y =>
    simp only [opComputeG]
    exact (ihc (computeG S f s x).1 y).trans (ihc s x)
  | pow x e =>
    simp only [opComputeG]
    exact ihc s x
  | sin x =>
    simp only [opComputeG]
    exact ihc s x

/-- graph.rs compute() never touches a deps or val field: the full structure
including every operation value survives, whatever the fuel. -/
theorem computeG_structG (S : Teza.ScalarOps α) :
    ∀ (fuel : Nat) (s : St α) (i : Nat),
      structG (computeG S fuel s i).1 = structG s := by
  intro fuel
  induction fuel with
  | zero => intro s i; rfl
  | succ f ih =>
    intro s i
    cases h : s[i]? with
    | none => rw [computeG_succ_none S f h]
    | some nd =>
      rw [computeG_succ S f h]
      exact (structG_setCacheG _ i _).trans (opComputeG_structG S f ih s nd.val)

/-- graph.rs reset_cache() never touches a deps or val field. -/
theorem resetG_structG :
    ∀ (fuel : Nat) (s : St α) (i : Nat),
      structG (resetG fuel s i) = structG s := by
  intro fuel
  induction fuel with
  | zero => intro s i; rfl
  | succ f ih =>
    intro s i
    show structG (resetG (f + 1) s i) = structG s
    unfold resetG
    cases h : s[i]? with
    | none => rfl
    | some nd =>
      exact (foldl_structG (fun st a => ih st a) nd.deps _).trans
        (structG_update_cache h none)

/-- Exact effect of graph.rs set() on the operation fields: every other
node's operation is untouched, and the call either leaves the state
completely unchanged (non-input target) or rewrites the target's operation
from Ops.input w to Ops.input v - the stored-value overwrite. -/
theorem setG_structSpec (fuel : Nat) (s : St α) (i : Nat) (v : α) :
    (∀ j, j ≠ i → opOfIdx (setG fuel s i v) j = opOfIdx s j) ∧
    (setG fuel s i v = s ∨
      ∃ w, opOfIdx s i = some (Ops.input w) ∧
        opOfIdx (setG fuel s i v) i = some (Ops.input v)) := by
  unfold setG
  cases h : s[i]? with
  | none => exact ⟨fun _ _ => rfl, Or.inl rfl⟩
  | some nd =>
    obtain ⟨c, ds, val⟩ := nd
    cases val with
    | input w =>
      have hfold : structG (ds.foldl (resetG fuel)
          (s.set i ⟨some v, ds, Ops.input v⟩)) =
          structG (s.set i ⟨some v, ds, Ops.input v⟩) :=
        foldl_structG (fun st a => resetG_structG fuel st a) ds _
      constructor
      · intro j hj
        exact (opOfIdx_congr_structG hfold j).trans
          (opOfIdx_set_ne ⟨some v, ds, Ops.input v⟩ hj)
      · right
        refine ⟨w, ?_, ?_⟩
        · unfold opOfIdx
          rw [h]
        · exact (opOfIdx_congr_structG hfold i).trans
            (opOfIdx_set_self h ⟨some v, ds, Ops.input v⟩)
    | add x y => exact ⟨fun _ _ => rfl, Or.inl rfl⟩
    | addVar args => exact ⟨fun _ _ => rfl, Or.inl rfl⟩
    | sub x y => exact ⟨fun _ _ => rfl, Or.inl rfl⟩
    | mul x y => exact ⟨fun _ _ => rfl, Or.inl rfl⟩
    | pow x e => exact ⟨fun _ _ => rfl, Or.inl rfl⟩
    | sin x => exact ⟨fun _ _ => rfl, Or.inl rfl⟩

end Teza.G

namespace Teza

/-- C1: the claim says that compute() on an Expression node whose cache is
Some(v) returns v without invoking any operand's compute() and without
changing any node state.  The code contradicts this: both node.rs line 98 and
graph.rs line 91 use Option::unwrap_or, whose argument Rust evaluates
eagerly, so the operation is recomputed (invoking every operand's compute())
and the cache overwritten on every call even when a cached value is present.
This theorem evaluates the code at the failing input: after building
add(input 1, input 2) and computing once, the root's cache is Some(3), yet a
second compute() still enters compute() on both operands (the instrumented
call trace is [2, 0, 1]: the root, then operand 0, then operand 1), while
returning the cached 3. -/
theorem claim_C1_cached_compute_invokes_operands :
    cacheOf ((computeF intOps 4
      (build [Ctor.input 1, Ctor.input 2, Ctor.add 0 1]) 2).1) 2 = some 3 ∧
    (computeTF intOps 4 ((computeF intOps 4
      (build [Ctor.input 1, Ctor.input 2, Ctor.add 0 1]) 2).1) 2).2.2 =
      [2, 0, 1] ∧
    (computeTF intOps 4 ((computeF intOps 4
      (build [Ctor.input 1, Ctor.input 2, Ctor.add 0 1]) 2).1) 2).2.1 = 3 := by
  decide

/-- C2: for every leaf L and every node N that reaches L through operand
edges, in any state reachable by building a valid construction program and
running any sequence of compute/set calls, set(v) on L (for any v, with no
equality short-circuit: setF never compares the old and new value) clears
the memoized cache of N, so the next compute() on N cannot return a
memoized value and must recompute. -/
theorem claim_C2_set_invalidates_reachable {α : Type} (S : ScalarOps α)
    (p : List (Ctor α)) (acts : List (Act α)) (hv : validProgB 0 p = true)
    (s : GState α) (hs : s = runActs S (build p) acts) (L N : Nat) (v : α)
    (hL : IsInput s L) (hR : OpReach s N L) :
    cacheOf (setF s.length s L v) N = none := by
  subst hs
  exact setF_clears (runActs_WFS S (build_WFS hv) acts) hL hR
    (runActs S (build p) acts).length (Nat.le_refl _) v

/-- C3: invariant preserved by every sequence of construction and
compute/set calls: whenever an Expression node's cache is Some(v), v equals
the node's operation applied (recursively) to the current leaf values of its
operand subgraph - the cache is fresh or cleared, never silently stale. -/
theorem claim_C3_cache_never_stale {α : Type} (S : ScalarOps α)
    (p : List (Ctor α)) (acts : List (Act α)) (hv : validProgB 0 p = true)
    (s : GState α) (hs : s = runActs S (build p) acts) (i : Nat) (v : α)
    (hc : cacheOf s i = some v) : v = denote S s i := by
  subst hs
  exact runActs_cacheInv S acts (build p) (build_WFS hv) (build_cacheInv S p)
    i v hc

/-- C5: locality of invalidation: in any reachable state, set(v) on node L
does not touch the cache of any node N that does not reach L through operand
edges. -/
theorem claim_C5_set_locality {α : Type} (S : ScalarOps α)
    (p : List (Ctor α)) (acts : List (Act α)) (hv : validProgB 0 p = true)
    (s : GState α) (hs : s = runActs S (build p) acts) (L N : Nat) (v : α)
    (hnr : ¬ OpReach s N L) :
    cacheOf (setF s.length s L v) N = cacheOf s N := by
  subst hs
  exact setF_untouched (runActs_WFS S (build_WFS hv) acts).2.2.2 hnr _ v

/-- C6: an AddVar node evaluates to the left fold of + over its operands
with seed 0.0 in declared order: with an empty operand list compute()
returns 0.0; with a single operand a it returns exactly what a.compute()
returns (when 0.0 is a left identity of the scalar addition, as for IEEE
and exact arithmetic); and in any coherent reachable state its value is the
left fold of the operand denotations. -/
theorem claim_C6_addVar_fold {α : Type} (S : ScalarOps α) :
    (∀ (fuel : Nat) (s : GState α) (i : Nat) (ds : List Nat),
      s[i]? = some ⟨Kind.expr none (Op.addVar []), ds⟩ →
      (computeF S (fuel + 1) s i).2 = S.zero) ∧
    (∀ (fuel : Nat) (s : GState α) (i a : Nat) (ds : List Nat),
      (∀ x, S.add S.zero x = x) →
      s[i]? = some ⟨Kind.expr none (Op.addVar [a]), ds⟩ →
      (computeF S (fuel + 1) s i).2 = (computeF S fuel s a).2) ∧
    (∀ (p : List (Ctor α)) (acts : List (Act α)),
      validProgB 0 p = true →
      ∀ (s : GState α), s = runActs S (build p) acts →
      ∀ (i : Nat) (c : Option α) (args ds : List Nat),
        s[i]? = some ⟨Kind.expr c (Op.addVar args), ds⟩ →
        (computeF S (s.length + 1) s i).2 =
          args.foldl (fun acc a => S.add acc (denote S s a)) S.zero) := by
  refine ⟨?_, ?_, ?_⟩
  · intro fuel s i ds h
    rw [computeF_succ_expr S fuel h]
    rfl
  · intro fuel s i a ds hAdd h
    rw [computeF_succ_expr S fuel h]
    show Option.getD none _ = _
    simp only [Option.getD]
    show (List.foldl (addStepF S fuel) (s, S.zero) [a]).2 = _
    simp only [List.foldl_cons, List.foldl_nil, addStepF]
    exact hAdd _
  · intro p acts hv s hs i c args ds h
    have hw : WFS s := hs ▸ runActs_WFS S (build_WFS hv) acts
    have hinv : CacheInv S s := hs ▸
      runActs_cacheInv S acts (build p) (build_WFS hv) (build_cacheInv S p)
    have hi : i < s.length + 1 := Nat.lt_succ_of_lt (lt_length_of_getElem?_eq_some h)
    rw [(computeF_correct S (s.length + 1) s i hw.1 hinv hi).1,
      denote_expr S hw.1 h]
    rfl

/-- C9 counterexample: in graph.rs, set() on an input node rewrites the
node's operation field in place (self.val becomes Ops::Input(v)): on the
one-node arena built by Node::input(1), set(2) changes the node's operation
value from Ops.input 1 to Ops.input 2, so read literally the clause that
no runtime call ever changes any node's operation is false there. -/
theorem claim_C9_counterexample :
    G.opOfIdx (G.buildG [G.GCtor.input (1 : ℤ)]) 0 = some (G.Ops.input 1) ∧
    G.opOfIdx (G.setG (G.buildG [G.GCtor.input (1 : ℤ)]).length
        (G.buildG [G.GCtor.input (1 : ℤ)]) 0 2) 0 = some (G.Ops.input 2) := by
  decide

/-- C9 (amended): no runtime operation modifies graph structure after
construction, in any state and with any fuel; only the constructors and
add_dependency (exercised by buildStep and buildStepG) touch dependents
lists.  In the node.rs engine, compute(), reset_cache() and set() preserve
the full structural projection (every dependents list, operation and operand
reference, the leaf values being fields outside the operations).  In the
graph.rs engine, compute() and reset_cache() preserve every deps and val
field outright, and set() preserves every dependents list and operand
reference, leaves the operation of every other node untouched, and either
changes nothing at all or rewrites only the target's operation from
Ops.input w to Ops.input v - the stored-value overwrite inside the Input
payload, the one exception to operation immutability. -/
theorem claim_C9_structure_immutable {α : Type} (S : ScalarOps α)
    (fuel : Nat) :
    (∀ (s : GState α) (i : Nat) (v : α),
      shape (computeF S fuel s i).1 = shape s ∧
      shape (resetF fuel s i) = shape s ∧
      shape (setF fuel s i v) = shape s) ∧
    (∀ (s : G.St α) (i : Nat),
      G.structG (G.computeG S fuel s i).1 = G.structG s ∧
      G.structG (G.resetG fuel s i) = G.structG s) ∧
    (∀ (s : G.St α) (i : Nat) (v : α),
      G.shapeG (G.setG fuel s i v) = G.shapeG s ∧
      (∀ j, j ≠ i → G.opOfIdx (G.setG fuel s i v) j = G.opOfIdx s j) ∧
      (G.setG fuel s i v = s ∨
        ∃ w, G.opOfIdx s i = some (G.Ops.input w) ∧
          G.opOfIdx (G.setG fuel s i v) i = some (G.Ops.input v))) := by
  refine ⟨?_, ?_, ?_⟩
  · intro s i v
    exact ⟨(computeF_sameSV S fuel s i).1, (resetF_sameSV fuel s i).1,
      (setF_spec fuel s i v).1⟩
  · intro s i
    exact ⟨G.computeG_structG S fuel s i, G.resetG_structG fuel s i⟩
  · intro s i v
    exact ⟨(G.setG_spec fuel s i v).1, (G.setG_structSpec fuel s i v).1,
      (G.setG_structSpec fuel s i v).2⟩

/-- C8: calling set(v) on a non-leaf handle of graph.rs is a silent no-op:
the guard if let Ops::Input(.) fails, the function returns normally, and the
entire graph state - every node's cache, operation, stored values, and
dependents - is exactly as before the call. -/
theorem claim_C8_set_non_input_noop {α : Type} (s : G.St α) (i : Nat)
    (v : α) (nd : G.GNode α) (h : s[i]? = some nd)
    (hne : ∀ w, nd.val ≠ G.Ops.input w) (fuel : Nat) :
    G.setG fuel s i v = s :=
  G.setG_not_input h hne fuel v

/-- C10: in graph.rs an input node's cache always holds its current value:
Node::input(x) allocates the node with cache Some(x) while the expression
constructors allocate with cache None; in every reachable state a node whose
operation is Input(w) has cache Some(w); and set(v) on an input node leaves
its own cache equal to Some(v) while clearing exactly the caches of its
transitive dependents and touching nothing else. -/
theorem claim_C10_input_cache_mirrors_value {α : Type} (S : ScalarOps α) :
    (∀ (s : G.St α) (x : α),
      (G.buildStepG s (G.GCtor.input x))[s.length]? =
        some ⟨some x, [], G.Ops.input x⟩) ∧
    (∀ (s : G.St α) (c : G.GCtor α), (∀ w, c ≠ G.GCtor.input w) →
      (G.buildStepG s c)[s.length]? =
        some ⟨none,
          List.replicate ((G.gctorOperands c).count s.length) s.length,
          (G.gctorNode c).val⟩) ∧
    (∀ (p : List (G.GCtor α)) (acts : List (G.ActG α)),
      G.validProgBG 0 p = true →
      ∀ k w, G.valGOf (G.runActsG S (G.buildG p) acts) k = some w →
        G.cacheOf (G.runActsG S (G.buildG p) acts) k = some w) ∧
    (∀ (p : List (G.GCtor α)) (acts : List (G.ActG α)),
      G.validProgBG 0 p = true →
      ∀ (s : G.St α), s = G.runActsG S (G.buildG p) acts →
      ∀ (L : Nat) (nd : G.GNode α) (w : α), s[L]? = some nd →
        nd.val = G.Ops.input w → ∀ v : α,
        G.cacheOf (G.setG s.length s L v) L = some v ∧
        (∀ j, j ≠ L → G.DepReachG s L j →
          G.cacheOf (G.setG s.length s L v) j = none) ∧
        (∀ j, ¬ G.DepReachG s L j →
          G.cacheOf (G.setG s.length s L v) j = G.cacheOf s j)) := by
  refine ⟨?_, ?_, ?_, ?_⟩
  · intro s x
    rw [G.buildStepG_getElem?_new]
    rfl
  · intro s c hne
    rw [G.buildStepG_getElem?_new]
    cases c with
    | input w => exact absurd rfl (hne w)
    | add x y => rfl
    | addVar args => rfl
    | sub x y => rfl
    | mul x y => rfl
    | pow x e => rfl
    | sin x => rfl
  · intro p acts hv
    obtain ⟨hda, hcw⟩ := G.buildG_WF hv
    exact G.runActsG_inputCache S acts (G.buildG p) hda hcw
      (G.buildG_inputCache p)
  · intro p acts hv s hs L nd w h hval v
    obtain ⟨hda0, _⟩ := G.buildG_WF hv
    have hda : G.DepsAboveG s :=
      G.depsAboveG_congr (hs ▸ (G.runActsG_shapeG S (G.buildG p) acts).symm) hda0
    have hspec := G.setG_input_spec hda h hval (Nat.le_refl s.length) v
    exact ⟨hspec.2.1, hspec.2.2.1, hspec.2.2.2⟩

end Teza

namespace Teza

/-- Witness for C2: after building add(input 1, input 2) over the integers
and computing the root, setting leaf 0 clears the cache of the root node 2,
which reaches leaf 0 through its first operand. -/
theorem claim_C2_witness :
    cacheOf (setF (runActs intOps
        (build [Ctor.input 1, Ctor.input 2, Ctor.add 0 1])
        [Act.compute 2]).length
      (runActs intOps (build [Ctor.input 1, Ctor.input 2, Ctor.add 0 1])
        [Act.compute 2]) 0 5) 2 = none :=
  claim_C2_set_invalidates_reachable intOps
    [Ctor.input 1, Ctor.input 2, Ctor.add 0 1] [Act.compute 2] (by decide)
    _ rfl 0 2 5 ⟨1, [2], by decide⟩
    (OpReach.head (by decide) (OpReach.refl 0))

/-- Witness for C3: after computing add(input 2, input 3), the cached 5 at
the root equals its denotation. -/
theorem claim_C3_witness :
    (5 : ℤ) = denote intOps
      (runActs intOps (build [Ctor.input 2, Ctor.input 3, Ctor.add 0 1])
        [Act.compute 2]) 2 :=
  claim_C3_cache_never_stale intOps
    [Ctor.input 2, Ctor.input 3, Ctor.add 0 1] [Act.compute 2] (by decide)
    _ rfl 2 5 (by decide)

/-- Witness for C5: in add(mul(x1, x3), mul(x2, x3)) with all caches filled,
setting x1 (node 0) leaves the cache of mul(x2, x3) (node 4) untouched,
because node 4 does not reach node 0 through operand edges. -/
theorem claim_C5_witness :
    cacheOf (setF (runActs intOps
        (build [Ctor.input 2, Ctor.input 3, Ctor.input 4, Ctor.mul 0 2,
          Ctor.mul 1 2, Ctor.add 3 4]) [Act.compute 5]).length
      (runActs intOps (build [Ctor.input 2, Ctor.input 3, Ctor.input 4,
          Ctor.mul 0 2, Ctor.mul 1 2, Ctor.add 3 4]) [Act.compute 5]) 0 5) 4 =
    cacheOf (runActs intOps (build [Ctor.input 2, Ctor.input 3, Ctor.input 4,
        Ctor.mul 0 2, Ctor.mul 1 2, Ctor.add 3 4]) [Act.compute 5]) 4 :=
  claim_C5_set_locality intOps
    [Ctor.input 2, Ctor.input 3, Ctor.input 4, Ctor.mul 0 2, Ctor.mul 1 2,
      Ctor.add 3 4] [Act.compute 5] (by decide) _ rfl 0 4 5
    (by
      intro h
      cases h with
      | head hx h' =>
        rw [show opsOfIdx (runActs intOps (build [Ctor.input 2, Ctor.input 3,
            Ctor.input 4, Ctor.mul 0 2, Ctor.mul 1 2, Ctor.add 3 4])
            [Act.compute 5]) 4 = [1, 2] from by decide] at hx
        rcases List.mem_cons.mp hx with h1 | hx2
        · subst h1
          cases h' with
          | head hy _ =>
            rw [show opsOfIdx (runActs intOps (build [Ctor.input 2,
                Ctor.input 3, Ctor.input 4, Ctor.mul 0 2, Ctor.mul 1 2,
                Ctor.add 3 4]) [Act.compute 5]) 1 = [] from by decide] at hy
            exact absurd hy (List.not_mem_nil _)
        · rcases List.mem_cons.mp hx2 with h2 | h0
          · subst h2
            cases h' with
            | head hy _ =>
              rw [show opsOfIdx (runActs intOps (build [Ctor.input 2,
                  Ctor.input 3, Ctor.input 4, Ctor.mul 0 2, Ctor.mul 1 2,
                  Ctor.add 3 4]) [Act.compute 5]) 2 = [] from by decide] at hy
              exact absurd hy (List.not_mem_nil _)
          · exact absurd h0 (List.not_mem_nil _))

/-- Witness for C6: on the graph with input 7 and the nodes addVar([]) and
addVar([input]), the empty AddVar computes 0, the singleton AddVar computes
what its operand computes, and the coherent-state fold evaluates through the
denotations. -/
theorem claim_C6_witness :
    (computeF intOps 1 (build [Ctor.input 7, Ctor.addVar [],
      Ctor.addVar [0]]) 1).2 = intOps.zero ∧
    (computeF intOps 2 (build [Ctor.input 7, Ctor.addVar [],
      Ctor.addVar [0]]) 2).2 =
      (computeF intOps 1 (build [Ctor.input 7, Ctor.addVar [],
        Ctor.addVar [0]]) 0).2 ∧
    (computeF intOps ((runActs intOps (build [Ctor.input 7, Ctor.addVar [],
        Ctor.addVar [0]]) []).length + 1)
      (runActs intOps (build [Ctor.input 7, Ctor.addVar [],
        Ctor.addVar [0]]) []) 2).2 =
      ([0] : List Nat).foldl (fun acc a => intOps.add acc
        (denote intOps (runActs intOps (build [Ctor.input 7, Ctor.addVar [],
          Ctor.addVar [0]]) []) a)) intOps.zero :=
  ⟨(claim_C6_addVar_fold intOps).1 0 _ 1 [] (by decide),
    (claim_C6_addVar_fold intOps).2.1 1 _ 2 0 [] (fun x => zero_add x)
      (by decide),
    (claim_C6_addVar_fold intOps).2.2 [Ctor.input 7, Ctor.addVar [],
      Ctor.addVar [0]] [] (by decide) _ rfl 2 none [0] [] (by decide)⟩

/-- Witness for C8: in the three-node graph.rs arena add(input 1, input 2),
calling set on the non-input root node 2 returns the state unchanged. -/
theorem claim_C8_witness :
    G.setG 3 (G.buildG [G.GCtor.input (1 : ℤ), G.GCtor.input 2,
      G.GCtor.add 0 1]) 2 9 =
    G.buildG [G.GCtor.input (1 : ℤ), G.GCtor.input 2, G.GCtor.add 0 1] :=
  claim_C8_set_non_input_noop
    (G.buildG [G.GCtor.input (1 : ℤ), G.GCtor.input 2, G.GCtor.add 0 1])
    2 9 ⟨none, [], G.Ops.add 0 1⟩ (by decide)
    (fun w h => G.Ops.noConfusion h) 3

/-- Witness for C10: Node::input(1) allocates with cache Some(1); the add
constructor allocates with cache None; in the computed graph.rs state the
input node 0 still caches its value 2; and setting input 0 to 7 leaves its
own cache at Some(7). -/
theorem claim_C10_witness :
    (G.buildStepG ([] : G.St ℤ) (G.GCtor.input 1))[(0 : Nat)]? =
      some ⟨some 1, [], G.Ops.input 1⟩ ∧
    (G.buildStepG ([] : G.St ℤ) (G.GCtor.add 0 1))[(0 : Nat)]? =
      some ⟨none, List.replicate
        ((G.gctorOperands (G.GCtor.add (α := ℤ) 0 1)).count 0) 0,
        (G.gctorNode (G.GCtor.add (α := ℤ) 0 1)).val⟩ ∧
    G.cacheOf (G.runActsG intOps (G.buildG [G.GCtor.input (2 : ℤ),
      G.GCtor.input 3, G.GCtor.add 0 1]) [G.ActG.compute 2]) 0 = some 2 ∧
    G.cacheOf (G.setG (G.runActsG intOps (G.buildG [G.GCtor.input (2 : ℤ),
        G.GCtor.input 3, G.GCtor.add 0 1]) []).length
      (G.runActsG intOps (G.buildG [G.GCtor.input (2 : ℤ), G.GCtor.input 3,
        G.GCtor.add 0 1]) []) 0 7) 0 = some 7 :=
  ⟨(claim_C10_input_cache_mirrors_value intOps).1 [] 1,
    (claim_C10_input_cache_mirrors_value intOps).2.1 []
      (G.GCtor.add 0 1) (fun w h => G.GCtor.noConfusion h),
    (claim_C10_input_cache_mirrors_value intOps).2.2.1
      [G.GCtor.input 2, G.GCtor.input 3, G.GCtor.add 0 1]
      [G.ActG.compute 2] (by decide) 0 2 (by decide),
    ((claim_C10_input_cache_mirrors_value intOps).2.2.2
      [G.GCtor.input 2, G.GCtor.input 3, G.GCtor.add 0 1] [] (by decide)
      _ rfl 0 ⟨some 2, [2], G.Ops.input 2⟩ 2 (by decide) rfl 7).1⟩

end Teza

namespace Teza

/-- A function vanishing at 0 with nonnegative derivative on the positive
axis is nonnegative there. -/
theorem sinCos_aux {f g : ℝ → ℝ} (hder : ∀ y, HasDerivAt f (g y) y)
    (h0 : f 0 = 0) (hg : ∀ y, 0 < y → 0 ≤ g y) {x : ℝ} (hx : 0 ≤ x) :
    0 ≤ f x := by
  have hmono : MonotoneOn f (Set.Ici 0) := by
    apply monotoneOn_of_hasDerivWithinAt_nonneg (convex_Ici 0)
      (Continuous.continuousOn (continuous_iff_continuousAt.mpr
        (fun y => (hder y).continuousAt)))
      (fun y _ => ((hder y).hasDerivWithinAt))
      (fun y hy => hg y (by simpa [interior_Ici] using hy))
  have h := hmono Set.left_mem_Ici (Set.mem_Ici.mpr hx) hx
  rwa [h0] at h

theorem sin_ge_p3 {x : ℝ} (hx : 0 ≤ x) : x - x ^ 3 / 6 ≤ Real.sin x := by
  have key : 0 ≤ Real.sin x - (x - x ^ 3 / 6) := by
    apply sinCos_aux (f := fun y => Real.sin y - (y - y ^ 3 / 6))
      (g := fun y => Real.cos y - (1 - y ^ 2 / 2)) ?_ (by norm_num) ?_ hx
    · intro y
      have hp : HasDerivAt (fun y : ℝ => y - y ^ 3 / 6) (1 - y ^ 2 / 2) y := by
        have h4 := (hasDerivAt_id' y).sub ((hasDerivAt_pow 3 y).div_const 6)
        convert h4 using 1
        push_cast
        ring
      exact (Real.hasDerivAt_sin y).sub hp
    · intro y _
      have := Real.one_sub_sq_div_two_le_cos (x := y)
      linarith
  linarith

theorem cos_le_p4 {x : ℝ} (hx : 0 ≤ x) :
    Real.cos x ≤ 1 - x ^ 2 / 2 + x ^ 4 / 24 := by
  have key : 0 ≤ (1 - x ^ 2 / 2 + x ^ 4 / 24) - Real.cos x := by
    apply sinCos_aux (f := fun y => (1 - y ^ 2 / 2 + y ^ 4 / 24) - Real.cos y)
      (g := fun y => Real.sin y - (y - y ^ 3 / 6)) ?_ (by norm_num) ?_ hx
    · intro y
      have hp : HasDerivAt (fun y : ℝ => 1 - y ^ 2 / 2 + y ^ 4 / 24)
          (-y + y ^ 3 / 6) y := by
        have h4 := ((hasDerivAt_const y (1 : ℝ)).sub
          ((hasDerivAt_pow 2 y).div_const 2)).add
          ((hasDerivAt_pow 4 y).div_const 24)
        convert h4 using 1
        push_cast
        ring
      have := hp.sub (Real.hasDerivAt_cos y)
      convert this using 1
      ring
    · intro y hy
      have := sin_ge_p3 (le_of_lt hy)
      linarith
  linarith

theorem sin_le_p5 {x : ℝ} (hx : 0 ≤ x) :
    Real.sin x ≤ x - x ^ 3 / 6 + x ^ 5 / 120 := by
  have key : 0 ≤ (x - x ^ 3 / 6 + x ^ 5 / 120) - Real.sin x := by
    apply sinCos_aux
      (f := fun y => (y - y ^ 3 / 6 + y ^ 5 / 120) - Real.sin y)
      (g := fun y => (1 - y ^ 2 / 2 + y ^ 4 / 24) - Real.cos y) ?_
      (by norm_num) ?_ hx
    · intro y
      have hp : HasDerivAt (fun y : ℝ => y - y ^ 3 / 6 + y ^ 5 / 120)
          (1 - y ^ 2 / 2 + y ^ 4 / 24) y := by
        have h4 := ((hasDerivAt_id' y).sub
          ((hasDerivAt_pow 3 y).div_const 6)).add
          ((hasDerivAt_pow 5 y).div_const 120)
        convert h4 using 1
        push_cast
        ring
      exact hp.sub (Real.hasDerivAt_sin y)
    · intro y hy
      have := cos_le_p4 (le_of_lt hy)
      linarith
  linarith

theorem cos_ge_p6 {x : ℝ} (hx : 0 ≤ x) :
    1 - x ^ 2 / 2 + x ^ 4 / 24 - x ^ 6 / 720 ≤ Real.cos x := by
  have key : 0 ≤ Real.cos x - (1 - x ^ 2 / 2 + x ^ 4 / 24 - x ^ 6 / 720) := by
    apply sinCos_aux
      (f := fun y => Real.cos y - (1 - y ^ 2 / 2 + y ^ 4 / 24 - y ^ 6 / 720))
      (g := fun y => (y - y ^ 3 / 6 + y ^ 5 / 120) - Real.sin y) ?_
      (by norm_num) ?_ hx
    · intro y
      have hp : HasDerivAt
          (fun y : ℝ => 1 - y ^ 2 / 2 + y ^ 4 / 24 - y ^ 6 / 720)
          (-y + y ^ 3 / 6 - y ^ 5 / 120) y := by
        have h4 := (((hasDerivAt_const y (1 : ℝ)).sub
          ((hasDerivAt_pow 2 y).div_const 2)).add
          ((hasDerivAt_pow 4 y).div_const 24)).sub
          ((hasDerivAt_pow 6 y).div_const 720)
        convert h4 using 1
        push_cast
        ring
      have := (Real.hasDerivAt_cos y).sub hp
      convert this using 1
      ring
    · intro y hy
      have := sin_le_p5 (le_of_lt hy)
      linarith
  linarith

theorem sin_ge_p7 {x : ℝ} (hx : 0 ≤ x) :
    x - x ^ 3 / 6 + x ^ 5 / 120 - x ^ 7 / 5040 ≤ Real.sin x := by
  have key : 0 ≤ Real.sin x -
      (x - x ^ 3 / 6 + x ^ 5 / 120 - x ^ 7 / 5040) := by
    apply sinCos_aux
      (f := fun y => Real.sin y - (y - y ^ 3 / 6 + y ^ 5 / 120 - y ^ 7 / 5040))
      (g := fun y => Real.cos y - (1 - y ^ 2 / 2 + y ^ 4 / 24 - y ^ 6 / 720))
      ?_ (by norm_num) ?_ hx
    · intro y
      have hp : HasDerivAt
          (fun y : ℝ => y - y ^ 3 / 6 + y ^ 5 / 120 - y ^ 7 / 5040)
          (1 - y ^ 2 / 2 + y ^ 4 / 24 - y ^ 6 / 720) y := by
        have h4 := (((hasDerivAt_id' y).sub
          ((hasDerivAt_pow 3 y).div_const 6)).add
          ((hasDerivAt_pow 5 y).div_const 120)).sub
          ((hasDerivAt_pow 7 y).div_const 5040)
        convert h4 using 1
        push_cast
        ring
      exact (Real.hasDerivAt_sin y).sub hp
    · intro y hy
      have := cos_ge_p6 (le_of_lt hy)
      linarith
  linarith

theorem cos_le_p8 {x : ℝ} (hx : 0 ≤ x) :
    Real.cos x ≤ 1 - x ^ 2 / 2 + x ^ 4 / 24 - x ^ 6 / 720 + x ^ 8 / 40320 := by
  have key : 0 ≤
      (1 - x ^ 2 / 2 + x ^ 4 / 24 - x ^ 6 / 720 + x ^ 8 / 40320) -
        Real.cos x := by
    apply sinCos_aux
      (f := fun y => (1 - y ^ 2 / 2 + y ^ 4 / 24 - y ^ 6 / 720 +
        y ^ 8 / 40320) - Real.cos y)
      (g := fun y => Real.sin y -
        (y - y ^ 3 / 6 + y ^ 5 / 120 - y ^ 7 / 5040)) ?_ (by norm_num) ?_ hx
    · intro y
      have hp : HasDerivAt
          (fun y : ℝ => 1 - y ^ 2 / 2 + y ^ 4 / 24 - y ^ 6 / 720 +
            y ^ 8 / 40320)
          (-y + y ^ 3 / 6 - y ^ 5 / 120 + y ^ 7 / 5040) y := by
        have h4 := ((((hasDerivAt_const y (1 : ℝ)).sub
          ((hasDerivAt_pow 2 y).div_const 2)).add
          ((hasDerivAt_pow 4 y).div_const 24)).sub
          ((hasDerivAt_pow 6 y).div_const 720)).add
          ((hasDerivAt_pow 8 y).div_const 40320)
        convert h4 using 1
        push_cast
        ring
      have := hp.sub (Real.hasDerivAt_cos y)
      convert this using 1
      ring
    · intro y hy
      have := sin_ge_p7 (le_of_lt hy)
      linarith
  linarith

theorem sin_le_p9 {x : ℝ} (hx : 0 ≤ x) :
    Real.sin x ≤ x - x ^ 3 / 6 + x ^ 5 / 120 - x ^ 7 / 5040 +
      x ^ 9 / 362880 := by
  have key : 0 ≤ (x - x ^ 3 / 6 + x ^ 5 / 120 - x ^ 7 / 5040 +
      x ^ 9 / 362880) - Real.sin x := by
    apply sinCos_aux
      (f := fun y => (y - y ^ 3 / 6 + y ^ 5 / 120 - y ^ 7 / 5040 +
        y ^ 9 / 362880) - Real.sin y)
      (g := fun y => (1 - y ^ 2 / 2 + y ^ 4 / 24 - y ^ 6 / 720 +
        y ^ 8 / 40320) - Real.cos y) ?_ (by norm_num) ?_ hx
    · intro y
      have hp : HasDerivAt
          (fun y : ℝ => y - y ^ 3 / 6 + y ^ 5 / 120 - y ^ 7 / 5040 +
            y ^ 9 / 362880)
          (1 - y ^ 2 / 2 + y ^ 4 / 24 - y ^ 6 / 720 + y ^ 8 / 40320) y := by
        have h4 := ((((hasDerivAt_id' y).sub
          ((hasDerivAt_pow 3 y).div_const 6)).add
          ((hasDerivAt_pow 5 y).div_const 120)).sub
          ((hasDerivAt_pow 7 y).div_const 5040)).add
          ((hasDerivAt_pow 9 y).div_const 362880)
        convert h4 using 1
        push_cast
        ring
      exact hp.sub (Real.hasDerivAt_sin y)
    · intro y hy
      have := cos_le_p8 (le_of_lt hy)
      linarith
  linarith

theorem cos_ge_p10 {x : ℝ} (hx : 0 ≤ x) :
    1 - x ^ 2 / 2 + x ^ 4 / 24 - x ^ 6 / 720 + x ^ 8 / 40320 -
      x ^ 10 / 3628800 ≤ Real.cos x := by
  have key : 0 ≤ Real.cos x - (1 - x ^ 2 / 2 + x ^ 4 / 24 - x ^ 6 / 720 +
      x ^ 8 / 40320 - x ^ 10 / 3628800) := by
    apply sinCos_aux
      (f := fun y => Real.cos y - (1 - y ^ 2 / 2 + y ^ 4 / 24 - y ^ 6 / 720 +
        y ^ 8 / 40320 - y ^ 10 / 3628800))
      (g := fun y => (y - y ^ 3 / 6 + y ^ 5 / 120 - y ^ 7 / 5040 +
        y ^ 9 / 362880) - Real.sin y) ?_ (by norm_num) ?_ hx
    · intro y
      have hp : HasDerivAt
          (fun y : ℝ => 1 - y ^ 2 / 2 + y ^ 4 / 24 - y ^ 6 / 720 +
            y ^ 8 / 40320 - y ^ 10 / 3628800)
          (-y + y ^ 3 / 6 - y ^ 5 / 120 + y ^ 7 / 5040 - y ^ 9 / 362880) y := by
        have h4 := (((((hasDerivAt_const y (1 : ℝ)).sub
          ((hasDerivAt_pow 2 y).div_const 2)).add
          ((hasDerivAt_pow 4 y).div_const 24)).sub
          ((hasDerivAt_pow 6 y).div_const 720)).add
          ((hasDerivAt_pow 8 y).div_const 40320)).sub
          ((hasDerivAt_pow 10 y).div_const 3628800)
        convert h4 using 1
        push_cast
        ring
      have := (Real.hasDerivAt_cos y).sub hp
      convert this using 1
      ring
    · intro y hy
      have := sin_le_p9 (le_of_lt hy)
      linarith
  linarith

theorem sin_ge_p11 {x : ℝ} (hx : 0 ≤ x) :
    x - x ^ 3 / 6 + x ^ 5 / 120 - x ^ 7 / 5040 + x ^ 9 / 362880 -
      x ^ 11 / 39916800 ≤ Real.sin x := by
  have key : 0 ≤ Real.sin x - (x - x ^ 3 / 6 + x ^ 5 / 120 - x ^ 7 / 5040 +
      x ^ 9 / 362880 - x ^ 11 / 39916800) := by
    apply sinCos_aux
      (f := fun y => Real.sin y - (y - y ^ 3 / 6 + y ^ 5 / 120 -
        y ^ 7 / 5040 + y ^ 9 / 362880 - y ^ 11 / 39916800))
      (g := fun y => Real.cos y - (1 - y ^ 2 / 2 + y ^ 4 / 24 - y ^ 6 / 720 +
        y ^ 8 / 40320 - y ^ 10 / 3628800)) ?_ (by norm_num) ?_ hx
    · intro y
      have hp : HasDerivAt
          (fun y : ℝ => y - y ^ 3 / 6 + y ^ 5 / 120 - y ^ 7 / 5040 +
            y ^ 9 / 362880 - y ^ 11 / 39916800)
          (1 - y ^ 2 / 2 + y ^ 4 / 24 - y ^ 6 / 720 + y ^ 8 / 40320 -
            y ^ 10 / 3628800) y := by
        have h4 := (((((hasDerivAt_id' y).sub
          ((hasDerivAt_pow 3 y).div_const 6)).add
          ((hasDerivAt_pow 5 y).div_const 120)).sub
          ((hasDerivAt_pow 7 y).div_const 5040)).add
          ((hasDerivAt_pow 9 y).div_const 362880)).sub
          ((hasDerivAt_pow 11 y).div_const 39916800)
        convert h4 using 1
        push_cast
        ring
      exact (Real.hasDerivAt_sin y).sub hp
    · intro y hy
      have := cos_ge_p10 (le_of_lt hy)
      linarith
  linarith

theorem cos_le_p12 {x : ℝ} (hx : 0 ≤ x) :
    Real.cos x ≤ 1 - x ^ 2 / 2 + x ^ 4 / 24 - x ^ 6 / 720 + x ^ 8 / 40320 -
      x ^ 10 / 3628800 + x ^ 12 / 479001600 := by
  have key : 0 ≤ (1 - x ^ 2 / 2 + x ^ 4 / 24 - x ^ 6 / 720 + x ^ 8 / 40320 -
      x ^ 10 / 3628800 + x ^ 12 / 479001600) - Real.cos x := by
    apply sinCos_aux
      (f := fun y => (1 - y ^ 2 / 2 + y ^ 4 / 24 - y ^ 6 / 720 +
        y ^ 8 / 40320 - y ^ 10 / 3628800 + y ^ 12 / 479001600) - Real.cos y)
      (g := fun y => Real.sin y - (y - y ^ 3 / 6 + y ^ 5 / 120 -
        y ^ 7 / 5040 + y ^ 9 / 362880 - y ^ 11 / 39916800)) ?_
      (by norm_num) ?_ hx
    · intro y
      have hp : HasDerivAt
          (fun y : ℝ => 1 - y ^ 2 / 2 + y ^ 4 / 24 - y ^ 6 / 720 +
            y ^ 8 / 40320 - y ^ 10 / 3628800 + y ^ 12 / 479001600)
          (-y + y ^ 3 / 6 - y ^ 5 / 120 + y ^ 7 / 5040 - y ^ 9 / 362880 +
            y ^ 11 / 39916800) y := by
        have h4 := ((((((hasDerivAt_const y (1 : ℝ)).sub
          ((hasDerivAt_pow 2 y).div_const 2)).add
          ((hasDerivAt_pow 4 y).div_const 24)).sub
          ((hasDerivAt_pow 6 y).div_const 720)).add
          ((hasDerivAt_pow 8 y).div_const 40320)).sub
          ((hasDerivAt_pow 10 y).div_const 3628800)).add
          ((hasDerivAt_pow 12 y).div_const 479001600)
        convert h4 using 1
        push_cast
        ring
      have := hp.sub (Real.hasDerivAt_cos y)
      convert this using 1
      ring
    · intro y hy
      have := sin_ge_p11 (le_of_lt hy)
      linarith
  linarith

theorem sin_le_p13 {x : ℝ} (hx : 0 ≤ x) :
    Real.sin x ≤ x - x ^ 3 / 6 + x ^ 5 / 120 - x ^ 7 / 5040 +
      x ^ 9 / 362880 - x ^ 11 / 39916800 + x ^ 13 / 6227020800 := by
  have key : 0 ≤ (x - x ^ 3 / 6 + x ^ 5 / 120 - x ^ 7 / 5040 +
      x ^ 9 / 362880 - x ^ 11 / 39916800 + x ^ 13 / 6227020800) -
      Real.sin x := by
    apply sinCos_aux
      (f := fun y => (y - y ^ 3 / 6 + y ^ 5 / 120 - y ^ 7 / 5040 +
        y ^ 9 / 362880 - y ^ 11 / 39916800 + y ^ 13 / 6227020800) -
        Real.sin y)
      (g := fun y => (1 - y ^ 2 / 2 + y ^ 4 / 24 - y ^ 6 / 720 +
        y ^ 8 / 40320 - y ^ 10 / 3628800 + y ^ 12 / 479001600) - Real.cos y)
      ?_ (by norm_num) ?_ hx
    · intro y
      have hp : HasDerivAt
          (fun y : ℝ => y - y ^ 3 / 6 + y ^ 5 / 120 - y ^ 7 / 5040 +
            y ^ 9 / 362880 - y ^ 11 / 39916800 + y ^ 13 / 6227020800)
          (1 - y ^ 2 / 2 + y ^ 4 / 24 - y ^ 6 / 720 + y ^ 8 / 40320 -
            y ^ 10 / 3628800 + y ^ 12 / 479001600) y := by
        have h4 := ((((((hasDerivAt_id' y).sub
          ((hasDerivAt_pow 3 y).div_const 6)).add
          ((hasDerivAt_pow 5 y).div_const 120)).sub
          ((hasDerivAt_pow 7 y).div_const 5040)).add
          ((hasDerivAt_pow 9 y).div_const 362880)).sub
          ((hasDerivAt_pow 11 y).div_const 39916800)).add
          ((hasDerivAt_pow 13 y).div_const 6227020800)
        convert h4 using 1
        push_cast
        ring
      exact hp.sub (Real.hasDerivAt_sin y)
    · intro y hy
      have := cos_le_p12 (le_of_lt hy)
      linarith
  linarith

end Teza

namespace Teza

/-- Taylor-bracket enclosure of sin and cos at the chain base 29/32. -/
theorem sc29_0 :
    (787196647287 : ℝ)/10^12 ≤ Real.sin (29/32) ∧
    Real.sin (29/32) ≤ (787196647333 : ℝ)/10^12 ∧
    (616702065541 : ℝ)/10^12 ≤ Real.cos (29/32) ∧
    Real.cos (29/32) ≤ (616702066182 : ℝ)/10^12 := by
  have hx : (0 : ℝ) ≤ 29/32 := by norm_num
  have hs1 := sin_ge_p11 hx
  have hs2 := sin_le_p13 hx
  have hc1 := cos_ge_p10 hx
  have hc2 := cos_le_p12 hx
  norm_num at hs1 hs2 hc1 hc2
  exact ⟨by linarith, by linarith, by linarith, by linarith⟩

/-- Enclosure of sin and cos at 29/16 by angle doubling from 29/32. -/
theorem sc29_1 :
    (970931596737 : ℝ)/10^12 ≤ Real.sin (29/16) ∧
    Real.sin (29/16) ≤ (970931597804 : ℝ)/10^12 ∧
    -(239357123145 : ℝ)/10^12 ≤ Real.cos (29/16) ∧
    Real.cos (29/16) ≤ -(239357122999 : ℝ)/10^12 := by
  obtain ⟨hs1, hs2, hc1, hc2⟩ := sc29_0
  have hsin : Real.sin (29/16 : ℝ) = 2 * Real.sin (29/32) * Real.cos (29/32) := by
    rw [show (29/16 : ℝ) = 2 * (29/32) by norm_num, Real.sin_two_mul]
  have hcos : Real.cos (29/16 : ℝ) = 1 - 2 * Real.sin (29/32) ^ 2 := by
    rw [show (29/16 : ℝ) = 2 * (29/32) by norm_num, Real.cos_two_mul]
    linarith [Real.sin_sq_add_cos_sq ((29/32 : ℝ))]
  refine ⟨?_, ?_, ?_, ?_⟩
  · rw [hsin]
    nlinarith [hs1, hs2, hc1, hc2,
      mul_nonneg (sub_nonneg.mpr hs1) (sub_nonneg.mpr hc1),
      mul_nonneg (sub_nonneg.mpr hs1) (sub_nonneg.mpr hc2),
      mul_nonneg (sub_nonneg.mpr hs2) (sub_nonneg.mpr hc1),
      mul_nonneg (sub_nonneg.mpr hs2) (sub_nonneg.mpr hc2)]
  · rw [hsin]
    nlinarith [hs1, hs2, hc1, hc2,
      mul_nonneg (sub_nonneg.mpr hs1) (sub_nonneg.mpr hc1),
      mul_nonneg (sub_nonneg.mpr hs1) (sub_nonneg.mpr hc2),
      mul_nonneg (sub_nonneg.mpr hs2) (sub_nonneg.mpr hc1),
      mul_nonneg (sub_nonneg.mpr hs2) (sub_nonneg.mpr hc2)]
  · rw [hcos]
    nlinarith [hs1, hs2]
  · rw [hcos]
    nlinarith [hs1, hs2]

/-- Enclosure of sin and cos at 29/8 by angle doubling from 29/16. -/
theorem sc29_2 :
    -(464798788042 : ℝ)/10^12 ≤ Real.sin (29/8) ∧
    Real.sin (29/8) ≤ -(464798787247 : ℝ)/10^12 ∧
    -(885416335229 : ℝ)/10^12 ≤ Real.cos (29/8) ∧
    Real.cos (29/8) ≤ -(885416331084 : ℝ)/10^12 := by
  obtain ⟨hs1, hs2, hc1, hc2⟩ := sc29_1
  have hsin : Real.sin (29/8 : ℝ) = 2 * Real.sin (29/16) * Real.cos (29/16) := by
    rw [show (29/8 : ℝ) = 2 * (29/16) by norm_num, Real.sin_two_mul]
  have hcos : Real.cos (29/8 : ℝ) = 1 - 2 * Real.sin (29/16) ^ 2 := by
    rw [show (29/8 : ℝ) = 2 * (29/16) by norm_num, Real.cos_two_mul]
    linarith [Real.sin_sq_add_cos_sq ((29/16 : ℝ))]
  refine ⟨?_, ?_, ?_, ?_⟩
  · rw [hsin]
    nlinarith [hs1, hs2, hc1, hc2,
      mul_nonneg (sub_nonneg.mpr hs1) (sub_nonneg.mpr hc1),
      mul_nonneg (sub_nonneg.mpr hs1) (sub_nonneg.mpr hc2),
      mul_nonneg (sub_nonneg.mpr hs2) (sub_nonneg.mpr hc1),
      mul_nonneg (sub_nonneg.mpr hs2) (sub_nonneg.mpr hc2)]
  · rw [hsin]
    nlinarith [hs1, hs2, hc1, hc2,
      mul_nonneg (sub_nonneg.mpr hs1) (sub_nonneg.mpr hc1),
      mul_nonneg (sub_nonneg.mpr hs1) (sub_nonneg.mpr hc2),
      mul_nonneg (sub_nonneg.mpr hs2) (sub_nonneg.mpr hc1),
      mul_nonneg (sub_nonneg.mpr hs2) (sub_nonneg.mpr hc2)]
  · rw [hcos]
    nlinarith [hs1, hs2]
  · rw [hcos]
    nlinarith [hs1, hs2]

/-- Enclosure of sin and cos at 29/4 by angle doubling from 29/8. -/
theorem sc29_3 :
    (823080873793 : ℝ)/10^12 ≤ Real.sin (29/4) ∧
    Real.sin (29/4) ≤ (823080879055 : ℝ)/10^12 ∧
    (567924173269 : ℝ)/10^12 ≤ Real.cos (29/4) ∧
    Real.cos (29/4) ≤ (567924174748 : ℝ)/10^12 := by
  obtain ⟨hs1, hs2, hc1, hc2⟩ := sc29_2
  have hsin : Real.sin (29/4 : ℝ) = 2 * Real.sin (29/8) * Real.cos (29/8) := by
    rw [show (29/4 : ℝ) = 2 * (29/8) by norm_num, Real.sin_two_mul]
  have hcos : Real.cos (29/4 : ℝ) = 1 - 2 * Real.sin (29/8) ^ 2 := by
    rw [show (29/4 : ℝ) = 2 * (29/8) by norm_num, Real.cos_two_mul]
    linarith [Real.sin_sq_add_cos_sq ((29/8 : ℝ))]
  refine ⟨?_, ?_, ?_, ?_⟩
  · rw [hsin]
    nlinarith [hs1, hs2, hc1, hc2,
      mul_nonneg (sub_nonneg.mpr hs1) (sub_nonneg.mpr hc1),
      mul_nonneg (sub_nonneg.mpr hs1) (sub_nonneg.mpr hc2),
      mul_nonneg (sub_nonneg.mpr hs2) (sub_nonneg.mpr hc1),
      mul_nonneg (sub_nonneg.mpr hs2) (sub_nonneg.mpr hc2)]
  · rw [hsin]
    nlinarith [hs1, hs2, hc1, hc2,
      mul_nonneg (sub_nonneg.mpr hs1) (sub_nonneg.mpr hc1),
      mul_nonneg (sub_nonneg.mpr hs1) (sub_nonneg.mpr hc2),
      mul_nonneg (sub_nonneg.mpr hs2) (sub_nonneg.mpr hc1),
      mul_nonneg (sub_nonneg.mpr hs2) (sub_nonneg.mpr hc2)]
  · rw [hcos]
    nlinarith [hs1, hs2]
  · rw [hcos]
    nlinarith [hs1, hs2]

/-- Enclosure of sin and cos at 29/2 by angle doubling from 29/4. -/
theorem sc29_4 :
    (934895049564 : ℝ)/10^12 ≤ Real.sin (29/2) ∧
    Real.sin (29/2) ≤ (934895057977 : ℝ)/10^12 ∧
    -(354924266932 : ℝ)/10^12 ≤ Real.cos (29/2) ∧
    Real.cos (29/2) ≤ -(354924249607 : ℝ)/10^12 := by
  obtain ⟨hs1, hs2, hc1, hc2⟩ := sc29_3
  have hsin : Real.sin (29/2 : ℝ) = 2 * Real.sin (29/4) * Real.cos (29/4) := by
    rw [show (29/2 : ℝ) = 2 * (29/4) by norm_num, Real.sin_two_mul]
  have hcos : Real.cos (29/2 : ℝ) = 1 - 2 * Real.sin (29/4) ^ 2 := by
    rw [show (29/2 : ℝ) = 2 * (29/4) by norm_num, Real.cos_two_mul]
    linarith [Real.sin_sq_add_cos_sq ((29/4 : ℝ))]
  refine ⟨?_, ?_, ?_, ?_⟩
  · rw [hsin]
    nlinarith [hs1, hs2, hc1, hc2,
      mul_nonneg (sub_nonneg.mpr hs1) (sub_nonneg.mpr hc1),
      mul_nonneg (sub_nonneg.mpr hs1) (sub_nonneg.mpr hc2),
      mul_nonneg (sub_nonneg.mpr hs2) (sub_nonneg.mpr hc1),
      mul_nonneg (sub_nonneg.mpr hs2) (sub_nonneg.mpr hc2)]
  · rw [hsin]
    nlinarith [hs1, hs2, hc1, hc2,
      mul_nonneg (sub_nonneg.mpr hs1) (sub_nonneg.mpr hc1),
      mul_nonneg (sub_nonneg.mpr hs1) (sub_nonneg.mpr hc2),
      mul_nonneg (sub_nonneg.mpr hs2) (sub_nonneg.mpr hc1),
      mul_nonneg (sub_nonneg.mpr hs2) (sub_nonneg.mpr hc2)]
  · rw [hcos]
    nlinarith [hs1, hs2]
  · rw [hcos]
    nlinarith [hs1, hs2]

/-- Enclosure of sin 29 by angle doubling from 29/2. -/
theorem sc29_5 :
    -(663633886222 : ℝ)/10^12 ≤ Real.sin (29) ∧ Real.sin (29) ≤ -(663633847855 : ℝ)/10^12 := by
  obtain ⟨hs1, hs2, hc1, hc2⟩ := sc29_4
  have hsin : Real.sin (29 : ℝ) = 2 * Real.sin (29/2) * Real.cos (29/2) := by
    have h := Real.sin_two_mul (29/2 : ℝ)
    rw [show 2 * (29/2 : ℝ) = 29 by norm_num] at h
    exact h
  constructor
  · rw [hsin]
    nlinarith [hs1, hs2, hc1, hc2,
      mul_nonneg (sub_nonneg.mpr hs1) (sub_nonneg.mpr hc1),
      mul_nonneg (sub_nonneg.mpr hs1) (sub_nonneg.mpr hc2),
      mul_nonneg (sub_nonneg.mpr hs2) (sub_nonneg.mpr hc1),
      mul_nonneg (sub_nonneg.mpr hs2) (sub_nonneg.mpr hc2)]
  · rw [hsin]
    nlinarith [hs1, hs2, hc1, hc2,
      mul_nonneg (sub_nonneg.mpr hs1) (sub_nonneg.mpr hc1),
      mul_nonneg (sub_nonneg.mpr hs1) (sub_nonneg.mpr hc2),
      mul_nonneg (sub_nonneg.mpr hs2) (sub_nonneg.mpr hc1),
      mul_nonneg (sub_nonneg.mpr hs2) (sub_nonneg.mpr hc2)]

/-- Taylor-bracket enclosure of sin and cos at the chain base 67/64. -/
theorem sc67_0 :
    (865864082848 : ℝ)/10^12 ≤ Real.sin (67/64) ∧
    Real.sin (67/64) ≤ (865864083141 : ℝ)/10^12 ∧
    (500279307919 : ℝ)/10^12 ≤ Real.cos (67/64) ∧
    Real.cos (67/64) ≤ (500279311538 : ℝ)/10^12 := by
  have hx : (0 : ℝ) ≤ 67/64 := by norm_num
  have hs1 := sin_ge_p11 hx
  have hs2 := sin_le_p13 hx
  have hc1 := cos_ge_p10 hx
  have hc2 := cos_le_p12 hx
  norm_num at hs1 hs2 hc1 hc2
  exact ⟨by linarith, by linarith, by linarith, by linarith⟩

/-- Enclosure of sin and cos at 67/32 by angle doubling from 67/64. -/
theorem sc67_1 :
    (866347768238 : ℝ)/10^12 ≤ Real.sin (67/32) ∧
    Real.sin (67/32) ≤ (866347774799 : ℝ)/10^12 ∧
    -(499441220948 : ℝ)/10^12 ≤ Real.cos (67/32) ∧
    Real.cos (67/32) ≤ -(499441219932 : ℝ)/10^12 := by
  obtain ⟨hs1, hs2, hc1, hc2⟩ := sc67_0
  have hsin : Real.sin (67/32 : ℝ) = 2 * Real.sin (67/64) * Real.cos (67/64) := by
    rw [show (67/32 : ℝ) = 2 * (67/64) by norm_num, Real.sin_two_mul]
  have hcos : Real.cos (67/32 : ℝ) = 1 - 2 * Real.sin (67/64) ^ 2 := by
    rw [show (67/32 : ℝ) = 2 * (67/64) by norm_num, Real.cos_two_mul]
    linarith [Real.sin_sq_add_cos_sq ((67/64 : ℝ))]
  refine ⟨?_, ?_, ?_, ?_⟩
  · rw [hsin]
    nlinarith [hs1, hs2, hc1, hc2,
      mul_nonneg (sub_nonneg.mpr hs1) (sub_nonneg.mpr hc1),
      mul_nonneg (sub_nonneg.mpr hs1) (sub_nonneg.mpr hc2),
      mul_nonneg (sub_nonneg.mpr hs2) (sub_nonneg.mpr hc1),
      mul_nonneg (sub_nonneg.mpr hs2) (sub_nonneg.mpr hc2)]
  · rw [hsin]
    nlinarith [hs1, hs2, hc1, hc2,
      mul_nonneg (sub_nonneg.mpr hs1) (sub_nonneg.mpr hc1),
      mul_nonneg (sub_nonneg.mpr hs1) (sub_nonneg.mpr hc2),
      mul_nonneg (sub_nonneg.mpr hs2) (sub_nonneg.mpr hc1),
      mul_nonneg (sub_nonneg.mpr hs2) (sub_nonneg.mpr hc2)]
  · rw [hcos]
    nlinarith [hs1, hs2]
  · rw [hcos]
    nlinarith [hs1, hs2]

/-- Enclosure of sin and cos at 67/16 by angle doubling from 67/32. -/
theorem sc67_2 :
    -(865379580823 : ℝ)/10^12 ≤ Real.sin (67/16) ∧
    Real.sin (67/16) ≤ -(865379572508 : ℝ)/10^12 ∧
    -(501116933799 : ℝ)/10^12 ≤ Real.cos (67/16) ∧
    Real.cos (67/16) ≤ -(501116911061 : ℝ)/10^12 := by
  obtain ⟨hs1, hs2, hc1, hc2⟩ := sc67_1
  have hsin : Real.sin (67/16 : ℝ) = 2 * Real.sin (67/32) * Real.cos (67/32) := by
    rw [show (67/16 : ℝ) = 2 * (67/32) by norm_num, Real.sin_two_mul]
  have hcos : Real.cos (67/16 : ℝ) = 1 - 2 * Real.sin (67/32) ^ 2 := by
    rw [show (67/16 : ℝ) = 2 * (67/32) by norm_num, Real.cos_two_mul]
    linarith [Real.sin_sq_add_cos_sq ((67/32 : ℝ))]
  refine ⟨?_, ?_, ?_, ?_⟩
  · rw [hsin]
    nlinarith [hs1, hs2, hc1, hc2,
      mul_nonneg (sub_nonneg.mpr hs1) (sub_nonneg.mpr hc1),
      mul_nonneg (sub_nonneg.mpr hs1) (sub_nonneg.mpr hc2),
      mul_nonneg (sub_nonneg.mpr hs2) (sub_nonneg.mpr hc1),
      mul_nonneg (sub_nonneg.mpr hs2) (sub_nonneg.mpr hc2)]
  · rw [hsin]
    nlinarith [hs1, hs2, hc1, hc2,
      mul_nonneg (sub_nonneg.mpr hs1) (sub_nonneg.mpr hc1),
      mul_nonneg (sub_nonneg.mpr hs1) (sub_nonneg.mpr hc2),
      mul_nonneg (sub_nonneg.mpr hs2) (sub_nonneg.mpr hc1),
      mul_nonneg (sub_nonneg.mpr hs2) (sub_nonneg.mpr hc2)]
  · rw [hcos]
    nlinarith [hs1, hs2]
  · rw [hcos]
    nlinarith [hs1, hs2]

/-- Enclosure of sin and cos at 67/8 by angle doubling from 67/16. -/
theorem sc67_3 :
    (867312676540 : ℝ)/10^12 ≤ Real.sin (67/8) ∧
    Real.sin (67/8) ≤ (867312724229 : ℝ)/10^12 ∧
    -(497763637811 : ℝ)/10^12 ≤ Real.cos (67/8) ∧
    Real.cos (67/8) ≤ -(497763609028 : ℝ)/10^12 := by
  obtain ⟨hs1, hs2, hc1, hc2⟩ := sc67_2
  have hsin : Real.sin (67/8 : ℝ) = 2 * Real.sin (67/16) * Real.cos (67/16) := by
    rw [show (67/8 : ℝ) = 2 * (67/16) by norm_num, Real.sin_two_mul]
  have hcos : Real.cos (67/8 : ℝ) = 1 - 2 * Real.sin (67/16) ^ 2 := by
    rw [show (67/8 : ℝ) = 2 * (67/16) by norm_num, Real.cos_two_mul]
    linarith [Real.sin_sq_add_cos_sq ((67/16 : ℝ))]
  refine ⟨?_, ?_, ?_, ?_⟩
  · rw [hsin]
    nlinarith [hs1, hs2, hc1, hc2,
      mul_nonneg (sub_nonneg.mpr hs1) (sub_nonneg.mpr hc1),
      mul_nonneg (sub_nonneg.mpr hs1) (sub_nonneg.mpr hc2),
      mul_nonneg (sub_nonneg.mpr hs2) (sub_nonneg.mpr hc1),
      mul_nonneg (sub_nonneg.mpr hs2) (sub_nonneg.mpr hc2)]
  · rw [hsin]
    nlinarith [hs1, hs2, hc1, hc2,
      mul_nonneg (sub_nonneg.mpr hs1) (sub_nonneg.mpr hc1),
      mul_nonneg (sub_nonneg.mpr hs1) (sub_nonneg.mpr hc2),
      mul_nonneg (sub_nonneg.mpr hs2) (sub_nonneg.mpr hc1),
      mul_nonneg (sub_nonneg.mpr hs2) (sub_nonneg.mpr hc2)]
  · rw [hcos]
    nlinarith [hs1, hs2]
  · rw [hcos]
    nlinarith [hs1, hs2]

/-- Enclosure of sin and cos at 67/4 by angle doubling from 67/8. -/
theorem sc67_4 :
    -(863433473464 : ℝ)/10^12 ≤ Real.sin (67/4) ∧
    Real.sin (67/4) ≤ -(863433376060 : ℝ)/10^12 ∧
    -(504462723220 : ℝ)/10^12 ≤ Real.cos (67/4) ∧
    Real.cos (67/4) ≤ -(504462557773 : ℝ)/10^12 := by
  obtain ⟨hs1, hs2, hc1, hc2⟩ := sc67_3
  have hsin : Real.sin (67/4 : ℝ) = 2 * Real.sin (67/8) * Real.cos (67/8) := by
    rw [show (67/4 : ℝ) = 2 * (67/8) by norm_num, Real.sin_two_mul]
  have hcos : Real.cos (67/4 : ℝ) = 1 - 2 * Real.sin (67/8) ^ 2 := by
    rw [show (67/4 : ℝ) = 2 * (67/8) by norm_num, Real.cos_two_mul]
    linarith [Real.sin_sq_add_cos_sq ((67/8 : ℝ))]
  refine ⟨?_, ?_, ?_, ?_⟩
  · rw [hsin]
    nlinarith [hs1, hs2, hc1, hc2,
      mul_nonneg (sub_nonneg.mpr hs1) (sub_nonneg.mpr hc1),
      mul_nonneg (sub_nonneg.mpr hs1) (sub_nonneg.mpr hc2),
      mul_nonneg (sub_nonneg.mpr hs2) (sub_nonneg.mpr hc1),
      mul_nonneg (sub_nonneg.mpr hs2) (sub_nonneg.mpr hc2)]
  · rw [hsin]
    nlinarith [hs1, hs2, hc1, hc2,
      mul_nonneg (sub_nonneg.mpr hs1) (sub_nonneg.mpr hc1),
      mul_nonneg (sub_nonneg.mpr hs1) (sub_nonneg.mpr hc2),
      mul_nonneg (sub_nonneg.mpr hs2) (sub_nonneg.mpr hc1),
      mul_nonneg (sub_nonneg.mpr hs2) (sub_nonneg.mpr hc2)]
  · rw [hcos]
    nlinarith [hs1, hs2]
  · rw [hcos]
    nlinarith [hs1, hs2]

/-- Enclosure of sin and cos at 67/2 by angle doubling from 67/4. -/
theorem sc67_5 :
    (871139618707 : ℝ)/10^12 ≤ Real.sin (67/2) ∧
    Real.sin (67/2) ≤ (871140002686 : ℝ)/10^12 ∧
    -(491034726197 : ℝ)/10^12 ≤ Real.cos (67/2) ∧
    Real.cos (67/2) ≤ -(491034389788 : ℝ)/10^12 := by
  obtain ⟨hs1, hs2, hc1, hc2⟩ := sc67_4
  have hsin : Real.sin (67/2 : ℝ) = 2 * Real.sin (67/4) * Real.cos (67/4) := by
    rw [show (67/2 : ℝ) = 2 * (67/4) by norm_num, Real.sin_two_mul]
  have hcos : Real.cos (67/2 : ℝ) = 1 - 2 * Real.sin (67/4) ^ 2 := by
    rw [show (67/2 : ℝ) = 2 * (67/4) by norm_num, Real.cos_two_mul]
    linarith [Real.sin_sq_add_cos_sq ((67/4 : ℝ))]
  refine ⟨?_, ?_, ?_, ?_⟩
  · rw [hsin]
    nlinarith [hs1, hs2, hc1, hc2,
      mul_nonneg (sub_nonneg.mpr hs1) (sub_nonneg.mpr hc1),
      mul_nonneg (sub_nonneg.mpr hs1) (sub_nonneg.mpr hc2),
      mul_nonneg (sub_nonneg.mpr hs2) (sub_nonneg.mpr hc1),
      mul_nonneg (sub_nonneg.mpr hs2) (sub_nonneg.mpr hc2)]
  · rw [hsin]
    nlinarith [hs1, hs2, hc1, hc2,
      mul_nonneg (sub_nonneg.mpr hs1) (sub_nonneg.mpr hc1),
      mul_nonneg (sub_nonneg.mpr hs1) (sub_nonneg.mpr hc2),
      mul_nonneg (sub_nonneg.mpr hs2) (sub_nonneg.mpr hc1),
      mul_nonneg (sub_nonneg.mpr hs2) (sub_nonneg.mpr hc2)]
  · rw [hcos]
    nlinarith [hs1, hs2]
  · rw [hcos]
    nlinarith [hs1, hs2]

/-- Enclosure of sin 67 by angle doubling from 67/2. -/
theorem sc67_6 :
    -(855519985397 : ℝ)/10^12 ≤ Real.sin (67) ∧ Real.sin (67) ≤ -(855519022183 : ℝ)/10^12 := by
  obtain ⟨hs1, hs2, hc1, hc2⟩ := sc67_5
  have hsin : Real.sin (67 : ℝ) = 2 * Real.sin (67/2) * Real.cos (67/2) := by
    have h := Real.sin_two_mul (67/2 : ℝ)
    rw [show 2 * (67/2 : ℝ) = 67 by norm_num] at h
    exact h
  constructor
  · rw [hsin]
    nlinarith [hs1, hs2, hc1, hc2,
      mul_nonneg (sub_nonneg.mpr hs1) (sub_nonneg.mpr hc1),
      mul_nonneg (sub_nonneg.mpr hs1) (sub_nonneg.mpr hc2),
      mul_nonneg (sub_nonneg.mpr hs2) (sub_nonneg.mpr hc1),
      mul_nonneg (sub_nonneg.mpr hs2) (sub_nonneg.mpr hc2)]
  · rw [hsin]
    nlinarith [hs1, hs2, hc1, hc2,
      mul_nonneg (sub_nonneg.mpr hs1) (sub_nonneg.mpr hc1),
      mul_nonneg (sub_nonneg.mpr hs1) (sub_nonneg.mpr hc2),
      mul_nonneg (sub_nonneg.mpr hs2) (sub_nonneg.mpr hc1),
      mul_nonneg (sub_nonneg.mpr hs2) (sub_nonneg.mpr hc2)]

end Teza

namespace Teza

/-- f32::round rounds half away from zero; a negative argument within half a
unit of the integer -n rounds to -n. -/
theorem roundAway_eq_neg {z : ℝ} {n : ℤ} (hz : z < 0)
    (h1 : (n : ℝ) - 1/2 ≤ -z) (h2 : -z < (n : ℝ) + 1/2) :
    roundAway z = -n := by
  have hr : round (-z) = n := by
    rw [round_eq, Int.floor_eq_iff]
    constructor
    · linarith
    · linarith
  rw [roundAway, if_neg (not_le.mpr hz), hr]

/-- The exponent 3.0 of Scenario 1 acts as a cube on base 3. -/
theorem rpow_three_three : (3 : ℝ) ^ (3 : ℝ) = 27 := by
  rw [show (3 : ℝ) = ((3 : ℕ) : ℝ) by norm_num, Real.rpow_natCast]
  norm_num

/-- The exponent 3.0 of Scenario 1 acts as a cube on base 4. -/
theorem rpow_four_three : (4 : ℝ) ^ (3 : ℝ) = 64 := by
  rw [show (3 : ℝ) = ((3 : ℕ) : ℝ) by norm_num, Real.rpow_natCast]
  norm_num

/-- First compute() of Scenario 1: the root evaluates to
1 + 2 * sin(2 + 3^3) = 1 + 2 * sin 29. -/
theorem scenario1_first_value :
    (computeF realOps ((build scenario1Prog).length + 1)
      (build scenario1Prog) 7).2 = 1 + 2 * Real.sin 29 := by
  have hv : validProgB 0 scenario1Prog = true := by decide
  have hw : WFS (build scenario1Prog) := build_WFS hv
  have hinv : CacheInv realOps (build scenario1Prog) :=
    build_cacheInv realOps scenario1Prog
  have hi : 7 < (build scenario1Prog).length + 1 := by
    rw [show (build scenario1Prog).length = 8 from rfl]
    norm_num
  rw [(computeF_correct realOps ((build scenario1Prog).length + 1)
    (build scenario1Prog) 7 hw.1 hinv hi).1]
  have hd : denote realOps (build scenario1Prog) 7 =
      1 + 2 * Real.sin (2 + (3 : ℝ) ^ (3 : ℝ)) := rfl
  rw [hd, rpow_three_three]
  norm_num

/-- Second compute() of Scenario 1, after the first compute and the three
set() calls: the root evaluates to 2 + 3 * sin(3 + 4^3) = 2 + 3 * sin 67. -/
theorem scenario1_second_value :
    (computeF realOps ((runActs realOps (build scenario1Prog)
        [Act.compute 7, Act.set 0 2, Act.set 1 3, Act.set 2 4]).length + 1)
      (runActs realOps (build scenario1Prog)
        [Act.compute 7, Act.set 0 2, Act.set 1 3, Act.set 2 4]) 7).2
      = 2 + 3 * Real.sin 67 := by
  have hv : validProgB 0 scenario1Prog = true := by decide
  have hw0 : WFS (build scenario1Prog) := build_WFS hv
  have hw : WFS (runActs realOps (build scenario1Prog)
      [Act.compute 7, Act.set 0 2, Act.set 1 3, Act.set 2 4]) :=
    runActs_WFS realOps hw0 _
  have hinv : CacheInv realOps (runActs realOps (build scenario1Prog)
      [Act.compute 7, Act.set 0 2, Act.set 1 3, Act.set 2 4]) :=
    runActs_cacheInv realOps _ (build scenario1Prog) hw0
      (build_cacheInv realOps scenario1Prog)
  have hlen : (runActs realOps (build scenario1Prog)
      [Act.compute 7, Act.set 0 2, Act.set 1 3, Act.set 2 4]).length = 8 := by
    have h := congrArg List.length (runActs_shape realOps (build scenario1Prog)
      [Act.compute 7, Act.set 0 2, Act.set 1 3, Act.set 2 4])
    rw [length_shape, length_shape] at h
    rw [h]
    rfl
  have hi : 7 < (runActs realOps (build scenario1Prog)
      [Act.compute 7, Act.set 0 2, Act.set 1 3, Act.set 2 4]).length + 1 := by
    rw [hlen]
    norm_num
  rw [(computeF_correct realOps _ _ 7 hw.1 hinv hi).1]
  have hd : denote realOps (runActs realOps (build scenario1Prog)
      [Act.compute 7, Act.set 0 2, Act.set 1 3, Act.set 2 4]) 7 =
      2 + 3 * Real.sin (3 + (4 : ℝ) ^ (3 : ℝ)) := rfl
  rw [hd, rpow_four_three]
  norm_num

end Teza

namespace Teza

/-- C4: Scenario 1 (src/src/tests.rs test, src/examples/example.rs main):
for the graph built from leaves x1 = 1.0, x2 = 2.0, x3 = 3.0 as
x1 + x2 * sin(x2 + x3 ^ 3.0), compute() on the root rounded to 5 decimals
equals -0.32727; after x1.set(2.0), x2.set(3.0), x3.set(4.0), compute()
rounded to 5 decimals equals -0.56656.  Evaluated over the exact reals (the
idealization of f32): the enclosures carry margins of about 2e-5 of a
rounding unit boundary on each side, far beyond single-precision error. -/
theorem claim_C4_scenario1 :
    roundPrec ((computeF realOps ((build scenario1Prog).length + 1)
      (build scenario1Prog) 7).2) 5 = -(32727 : ℝ) / 10 ^ 5 ∧
    roundPrec ((computeF realOps ((runActs realOps (build scenario1Prog)
        [Act.compute 7, Act.set 0 2, Act.set 1 3, Act.set 2 4]).length + 1)
      (runActs realOps (build scenario1Prog)
        [Act.compute 7, Act.set 0 2, Act.set 1 3, Act.set 2 4]) 7).2) 5
      = -(56656 : ℝ) / 10 ^ 5 := by
  obtain ⟨hs1, hs2⟩ := sc29_5
  obtain ⟨ht1, ht2⟩ := sc67_6
  constructor
  · rw [scenario1_first_value, roundPrec]
    have hr : roundAway ((1 + 2 * Real.sin 29) * 10 ^ 5) = -(32727 : ℤ) := by
      apply roundAway_eq_neg
      · nlinarith [hs1, hs2]
      · push_cast
        nlinarith [hs1, hs2]
      · push_cast
        nlinarith [hs1, hs2]
    rw [hr]
    norm_num
  · rw [scenario1_second_value, roundPrec]
    have hr : roundAway ((2 + 3 * Real.sin 67) * 10 ^ 5) = -(56656 : ℤ) := by
      apply roundAway_eq_neg
      · nlinarith [ht1, ht2]
      · push_cast
        nlinarith [ht1, ht2]
      · push_cast
        nlinarith [ht1, ht2]
    rw [hr]
    norm_num

end Teza
